import Mathlib

/-!
# Helmsman: desired-state validation and substitution

A shallow embedding of `state.go`, `kube_helpers.go` and `utils.go`.

* Go strings are modelled by `String`; every byte the code inspects (`$`, `/`, `:`) is
  ASCII, so working on characters instead of bytes does not change a comparison.
* A Go map is modelled by `GoMap`: `none` is the nil map, `some l` a declared map whose
  entries are listed in the order in which `range` visits them.  Go leaves that order
  unspecified, so every statement is proved for every order.
* The outside world (command executor, file system, the URI parser of the standard
  library, global flags, the per-application validator that lives outside these files)
  is a record of functions, `World`.
-/

namespace Helmsman

/-! ## Go maps -/

/-- Go map with string keys: `none` is nil, `some l` lists the entries in iteration order. -/
abbrev GoMap (α : Type) := Option (List (String × α))

/-- Entries visited by `range m` (none for a nil map). -/
def GoMap.entries {α : Type} (m : GoMap α) : List (String × α) := m.getD []

/-- Go `len(m)`. -/
def GoMap.len {α : Type} (m : GoMap α) : Nat := m.entries.length

/-- Go `m == nil`. -/
def GoMap.isNil {α : Type} (m : GoMap α) : Bool := m.isNone

/-- Go `_, ok := m[k]`. -/
def GoMap.contains {α : Type} (m : GoMap α) (k : String) : Bool :=
  m.entries.any (fun e => decide (e.1 = k))

/-- Assignment to a key of an association list: overwrite where present, else add. -/
def setEntry {α : Type} (k : String) (v : α) : List (String × α) → List (String × α)
  | [] => [(k, v)]
  | e :: rest => if e.1 = k then (k, v) :: rest else e :: setEntry k v rest

/-- Go `m[k] = v` on a declared map. -/
def GoMap.set {α : Type} (m : GoMap α) (k : String) (v : α) : GoMap α :=
  some (setEntry k v m.entries)

/-- Keys of a Go map are pairwise distinct. -/
def GoMap.WellFormed {α : Type} (m : GoMap α) : Prop := (m.entries.map Prod.fst).Nodup

/-! ## Data model (`state.go`, `namespace.go`) -/

/-- The settings fields (`config` in `state.go`). -/
structure config where
  KubeContext : String := ""
  Username : String := ""
  Password : String := ""
  ClusterURI : String := ""
  ServiceAccount : String := ""
  StorageBackend : String := ""
  SlackWebhook : String := ""
  ReverseDelete : Bool := false
  BearerToken : Bool := false
  BearerTokenPath : String := ""
  EyamlEnabled : Bool := false
  EyamlPrivateKeyPath : String := ""
  EyamlPublicKeyPath : String := ""
  deriving DecidableEq, Repr, Inhabited

/-- CPU and memory quantities (`resources` in `namespace.go`). -/
structure resources where
  CPU : String := ""
  Memory : String := ""
  deriving DecidableEq, Repr, Inhabited

/-- One limit-range rule (element type of `limits` in `namespace.go`). -/
structure limitRule where
  Max : resources := {}
  Min : resources := {}
  Default : resources := {}
  DefaultRequest : resources := {}
  MaxLimitRequestRatio : resources := {}
  LimitType : String := ""
  deriving DecidableEq, Repr, Inhabited

/-- The fields of a namespace (`namespace` in `namespace.go`; the name is a keyword here). -/
structure namespace' where
  Protected : Bool := false
  Limits : List limitRule := []
  Labels : GoMap String := none
  Annotations : GoMap String := none
  deriving DecidableEq, Repr, Inhabited

/-- Modelled from the spec: the application entry type `release`, declared outside the given
files; the fields are those the given files and tests read or write. -/
structure release where
  Name : String := ""
  Description : String := ""
  Namespace : String := ""
  Enabled : Bool := false
  Chart : String := ""
  Version : String := ""
  ValuesFile : String := ""
  ValuesFiles : List String := []
  SecretsFile : String := ""
  SecretsFiles : List String := []
  deriving DecidableEq, Repr, Inhabited

/-- The desired state of applications on a cluster (`state` in `state.go`). -/
structure state where
  Metadata : GoMap String := none
  Certificates : GoMap String := none
  Settings : config := {}
  Namespaces : GoMap namespace' := none
  HelmRepos : GoMap String := none
  PreconfiguredHelmRepos : List String := []
  Apps : GoMap release := none
  AppsTemplates : GoMap release := none
  deriving DecidableEq, Repr, Inhabited

/-! ## The outside world -/

/-- An external command (`command`: program, arguments, description). -/
structure command where
  Cmd : String
  Args : List String
  Description : String
  deriving DecidableEq, Repr

/-- The `names` table threaded through the per-application validator
(`map[string]map[string]bool`). -/
abbrev Names := List (String × List (String × Bool))

/-- Everything `validate` reads that is not part of the document. -/
structure World where
  /-- Result of `cmd.exec`: exit code and captured output. -/
  exec : command → Int × String
  /-- Whether `os.Stat(path)` returns no error. -/
  statOk : String → Bool
  /-- Whether `url.ParseRequestURI(raw)` returns no error. -/
  parseRequestURI : String → Bool
  /-- The global `nsOverride` flag. -/
  nsOverride : String
  /-- The per-application validator `validateRelease(appLabel, r, names, s)`, defined outside
  the given files: its result, its message and the `names` table as it leaves it. -/
  validateRelease : String → release → Names → state → (Bool × String) × Names

/-- How a call ends: a normal return of `(bool, string)`, or `os.Exit(code)`. -/
inductive Outcome where
  | returned (ok : Bool) (msg : String)
  | exited (code : Int)
  deriving DecidableEq, Repr

/-! ## Library helpers -/

/-- Go `strings.HasPrefix`. -/
def stringsHasPrefix (s pre : String) : Bool := pre.data.isPrefixOf s.data

/-- Whether `sub` occurs in `l` at some position. -/
def containsChars (sub : List Char) : List Char → Bool
  | [] => sub.isEmpty
  | c :: rest => sub.isPrefixOf (c :: rest) || containsChars sub rest

/-- Go `strings.Contains`. -/
def stringsContains (s sub : String) : Bool := containsChars sub.data s.data

/-! ## `kube_helpers.go` -/

/-- The command `getKubeContext` builds. -/
def currentContextCmd : command :=
  { Cmd := "kubectl", Args := ["config", "current-context"],
    Description := "getting kubectl context" }

/-- `getKubeContext`: false when no context is set. -/
def getKubeContext (w : World) : Bool :=
  let r := w.exec currentContextCmd
  if r.1 ≠ 0 ∨ r.2 = "" then false else true

/-! ## `state.go` -/

/-- `isValidCert`: whether a certificate/key location is valid, and its resolved form. -/
def isValidCert (w : World) (value : String) : Bool × String :=
  let err1 := !w.parseRequestURI value
  let err2 := !w.statOk value
  if err2 && (err1 || (!stringsHasPrefix value "s3://" && !stringsHasPrefix value "gs://"
      && !stringsHasPrefix value "az://")) then
    (false, "")
  else
    (true, value)

/-- The `// settings` block of `validate`: the message of its failing `return`, if any. -/
def validateSettings (w : World) (s : state) : Option String :=
  if (s.Settings = ({} : config) ∨ s.Settings.KubeContext = "") ∧ getKubeContext w = false then
    some ("settings validation failed -- you have not defined a " ++
      "kubeContext to use. Either define it in the desired state file or pass a kubeconfig with --kubeconfig to use an existing context.")
  else if s.Settings.ClusterURI ≠ "" then
    if w.parseRequestURI s.Settings.ClusterURI = false then
      some "settings validation failed -- clusterURI must have a valid URL set in an env variable or passed directly. Either the env var is missing/empty or the URL is invalid."
    else if s.Settings.KubeContext = "" then
      some "settings validation failed -- KubeContext needs to be provided in the settings stanza."
    else if s.Settings.BearerToken = false ∧ s.Settings.Username = "" then
      some "settings validation failed -- username needs to be provided in the settings stanza."
    else if s.Settings.BearerToken = false ∧ s.Settings.Password = "" then
      some "settings validation failed -- password needs to be provided (directly or from env var) in the settings stanza."
    else if s.Settings.BearerToken = true ∧ s.Settings.BearerTokenPath ≠ "" then
      if w.statOk s.Settings.BearerTokenPath = false then
        some ("settings validation failed -- bearer token path " ++ s.Settings.BearerTokenPath ++
          " is not found. The path has to be relative to the desired state file.")
      else none
    else none
  else if s.Settings.BearerToken = true ∧ s.Settings.ClusterURI = "" then
    some "settings validation failed -- bearer token is enabled but no cluster URI provided."
  else none

/-- The `// slack webhook validation` block of `validate`. -/
def validateSlackWebhook (w : World) (s : state) : Option String :=
  if s.Settings.SlackWebhook ≠ "" then
    if w.parseRequestURI s.Settings.SlackWebhook = false then
      some "settings validation failed -- slackWebhook must be a valid URL."
    else none
  else none

/-- The `for key, value := range s.Certificates` loop of `validate`: the entries still to
visit, the map as written so far; returns the failure message, if any, and the map. -/
def certLoop (w : World) : List (String × String) → GoMap String → Option String × GoMap String
  | [], m => (none, m)
  | (key, value) :: rest, m =>
    let rp := isValidCert w value
    if rp.1 = false then
      (some ("certifications validation failed -- [ " ++ key ++
        " ] must be a valid S3, GCS, AZ bucket/container URL or a valid relative file path."), m)
    else
      certLoop w rest (m.set key rp.2)

/-- The `// certificates` block of `validate`: failure message, if any, and the certificate
map as the block leaves it. -/
def validateCertificates (w : World) (s : state) : Option String × GoMap String :=
  if s.Certificates.isNil = false ∧ s.Certificates.len ≠ 0 then
    match certLoop w s.Certificates.entries s.Certificates with
    | (some msg, m) => (some msg, m)
    | (none, m) =>
      let caCrt := m.contains "caCrt"
      let caKey := m.contains "caKey"
      if s.Settings.ClusterURI ≠ "" ∧ s.Settings.BearerToken = false then
        if caCrt = false ∨ caKey = false then
          (some ("certificates validation failed -- You want me to connect to your cluster for you " ++
            "but have not given me the cert/key to do so. Please add [caCrt] and [caKey] under Certifications. You might also need to provide [clientCrt]."), m)
        else (none, m)
      else if s.Settings.ClusterURI ≠ "" ∧ s.Settings.BearerToken = true then
        if caCrt = false then
          (some ("certificates validation failed -- cluster connection with bearer token is enabled but " ++
            "[caCrt] is missing. Please provide [caCrt] in the Certifications stanza."), m)
        else (none, m)
      else (none, m)
  else
    if s.Settings.ClusterURI ≠ "" then
      (some "certificates validation failed -- kube context setup is required but no certificates stanza provided.",
        s.Certificates)
    else (none, s.Certificates)

/-- The `// namespaces` block of `validate`. -/
def validateNamespaces (w : World) (s : state) : Option String :=
  if w.nsOverride = "" then
    if s.Namespaces.isNil = true ∨ s.Namespaces.len = 0 then
      some ("namespaces validation failed -- I need at least one namespace " ++
        "to work with!")
    else none
  else none

/-- The `// repos` loop of `validate` over the entries still to visit. -/
def reposLoop (w : World) : List (String × String) → Option String
  | [] => none
  | (k, v) :: rest =>
    if w.parseRequestURI v = false then
      some ("repos validation failed -- repo [" ++ k ++ " ] " ++
        "must have a valid URL.")
    else reposLoop w rest

/-- The `// repos` block of `validate`. -/
def validateRepos (w : World) (s : state) : Option String :=
  reposLoop w s.HelmRepos.entries

/-- The `for appLabel, r := range s.Apps` loop of `validate`, threading `names`. -/
def appsLoop (w : World) (s : state) : List (String × release) → Names → Option String
  | [], _ => none
  | (appLabel, r) :: rest, names =>
    let res := w.validateRelease appLabel r names s
    if res.1.1 = false then
      some ("apps validation failed -- for app [" ++ appLabel ++ " ]. " ++ res.1.2)
    else appsLoop w s rest res.2

/-- The `// apps` block of `validate`. -/
def validateApps (w : World) (s : state) : Outcome :=
  if s.Apps.isNil = true then
    Outcome.exited 0
  else
    match appsLoop w s s.Apps.entries [] with
    | some msg => Outcome.returned false msg
    | none => Outcome.returned true ""

/-- `state.validate`: the outcome of the call and the document as the call leaves it (the
receiver is passed by value, so only the shared certificate map can differ). -/
def validate (w : World) (s : state) : Outcome × state :=
  match validateSettings w s with
  | some msg => (Outcome.returned false msg, s)
  | none =>
    match validateSlackWebhook w s with
    | some msg => (Outcome.returned false msg, s)
    | none =>
      match validateCertificates w s with
      | (some msg, m) => (Outcome.returned false msg, { s with Certificates := m })
      | (none, m) =>
        let s1 : state := { s with Certificates := m }
        match validateNamespaces w s1 with
        | some msg => (Outcome.returned false msg, s1)
        | none =>
          match validateRepos w s1 with
          | some msg => (Outcome.returned false msg, s1)
          | none => (validateApps w s1, s1)

/-! ## `utils.go`: environment substitution -/

/-- The process environment: the variables that are set, with their values. -/
abbrev Env := List (String × String)

/-- Go `os.Getenv`: the value of the variable, empty when it is not set. -/
def Env.getenv (env : Env) (k : String) : String :=
  match env.find? (fun e => e.1 = k) with
  | some e => e.2
  | none => ""

/-- Go `os.Setenv`. -/
def Env.setenv (env : Env) (k v : String) : Env := setEntry k v env

/-- Go `strings.Replace(s, old, new, -1)` for a non-empty `old`, on characters: every
non-overlapping occurrence, left to right. The first argument bounds the steps. -/
def replaceChars (old new : List Char) : Nat → List Char → List Char
  | 0, s => s
  | _, [] => []
  | fuel + 1, c :: rest =>
    if old.isPrefixOf (c :: rest) then
      new ++ replaceChars old new fuel ((c :: rest).drop old.length)
    else
      c :: replaceChars old new fuel rest

/-- Go `strings.Replace(s, old, new, -1)`; for an empty `old` Go inserts `new` before every
character and at the end. -/
def stringsReplaceAll (s old new : String) : String :=
  if old.data = [] then
    String.mk (new.data ++ s.data.flatMap (fun c => c :: new.data))
  else
    String.mk (replaceChars old.data new.data s.data.length s.data)

/-- Go `isShellSpecialVar` (package `os`). -/
def isShellSpecialVar (c : Char) : Bool :=
  c ∈ ['*', '#', '$', '@', '!', '?', '-', '0', '1', '2', '3', '4', '5', '6', '7', '8', '9']

/-- Go `isAlphaNum` (package `os`). -/
def isAlphaNum (c : Char) : Bool :=
  c = '_' || ('0' ≤ c && c ≤ '9') || ('a' ≤ c && c ≤ 'z') || ('A' ≤ c && c ≤ 'Z')

/-- Go `getShellName` (package `os`): the name that begins the text after a `$`, and how
many characters the reference takes. -/
def getShellName (s : List Char) : List Char × Nat :=
  match s with
  | [] => ([], 0)
  | '{' :: rest =>
    if (match rest with
        | c :: '}' :: _ => isShellSpecialVar c
        | _ => false) then
      (rest.take 1, 3)
    else
      match rest.indexOf? '}' with
      | none => ([], 1)
      | some 0 => ([], 2)
      | some (i + 1) => (rest.take (i + 1), i + 3)
  | c :: rest =>
    if isShellSpecialVar c then ([c], 1)
    else
      let name := (c :: rest).takeWhile isAlphaNum
      (name, name.length)

/-- The loop of Go `os.Expand` on characters; the first argument bounds the steps. -/
def expandChars (mapping : String → String) : Nat → List Char → List Char
  | 0, s => s
  | _, [] => []
  | fuel + 1, c :: rest =>
    if c = '$' ∧ rest ≠ [] then
      let nw := getShellName rest
      let out :=
        if nw.1 = [] ∧ nw.2 > 0 then []
        else if nw.1 = [] then ['$']
        else (mapping (String.mk nw.1)).data
      out ++ expandChars mapping fuel (rest.drop nw.2)
    else
      c :: expandChars mapping fuel rest

/-- Go `os.ExpandEnv`: `$var` and `${var}` replaced by the values of the environment. -/
def osExpandEnv (env : Env) (s : String) : String :=
  String.mk (expandChars env.getenv s.data.length s.data)

/-- `substituteEnv`: the text with its variable references expanded, and the environment
as the call leaves it. -/
def substituteEnv (env : Env) (name : String) : String × Env :=
  if stringsContains name "$" then
    let env1 := env.setenv "HELMSMAN_DOLLAR" "$"
    (osExpandEnv env1 (stringsReplaceAll name "$$" "${HELMSMAN_DOLLAR}"), env1)
  else
    (name, env)

/-! ## `utils.go`: remote-parameter substitution -/

/-- The parameter store behind `aws.ReadSSMParam(keyname, withDecryption, _)`: the value of
the parameter, or `none` when the session or the lookup fails, in which case the call ends
the process with `log.Fatal`. -/
abbrev ParamStore := String → Bool → Option String

/-- One match of the pattern `{{ssm: ([^~}]+)(~(true))?}}` as `FindAllSubmatch` reports it:
the whole match, group 1 and group 3 (empty when the group did not take part). -/
structure ssmMatch where
  whole : String
  group1 : String
  group3 : String
  deriving DecidableEq, Repr

/-- A character of the class `[^~}]`. -/
def ssmNameChar (c : Char) : Bool := c != '~' && c != '}'

/-- The match of the pattern that begins the text, if there is one, and the text after it.
After the literal `{{ssm: ` the class `[^~}]+` takes the longest run it can; a shorter run
would be followed by a character of the class, which starts neither `~true` nor `}}`. -/
def matchSSMAt (s : List Char) : Option (ssmMatch × List Char) :=
  if "\x7b\x7bssm: ".data.isPrefixOf s then
    let after := s.drop 7
    let run := after.takeWhile ssmNameChar
    let rest := after.dropWhile ssmNameChar
    if run = [] then none
    else if "~true\x7d\x7d".data.isPrefixOf rest then
      some ({ whole := String.mk ("\x7b\x7bssm: ".data ++ run ++ "~true\x7d\x7d".data),
              group1 := String.mk run, group3 := "true" }, rest.drop 7)
    else if "\x7d\x7d".data.isPrefixOf rest then
      some ({ whole := String.mk ("\x7b\x7bssm: ".data ++ run ++ "\x7d\x7d".data),
              group1 := String.mk run, group3 := "" }, rest.drop 2)
    else none
  else none

/-- Go `re.FindAllSubmatch(text, -1)` for the pattern of `substituteSSM`: the successive
non-overlapping matches, leftmost first. The first argument bounds the steps. -/
def findAllSSM : Nat → List Char → List ssmMatch
  | 0, _ => []
  | _, [] => []
  | fuel + 1, c :: rest =>
    match matchSSMAt (c :: rest) with
    | some (m, after) => m :: findAllSSM fuel after
    | none => findAllSSM fuel rest

/-- Go `strconv.ParseBool`: the value, or `none` for an error. -/
def strconvParseBool (str : String) : Option Bool :=
  if str ∈ ["1", "t", "T", "TRUE", "true", "True"] then some true
  else if str ∈ ["0", "f", "F", "FALSE", "false", "False"] then some false
  else none

/-- The `for _, match := range matches` loop of `substituteSSM`: the text as rewritten, or
`none` when a fetch ended the process, and the parameters fetched, in order. -/
def ssmLoop (store : ParamStore) : List ssmMatch → String → Option String × List (String × Bool)
  | [], name => (some name, [])
  | m :: rest, name =>
    let placeholder := m.whole
    let paramPath := m.group1
    let withDecryption := (strconvParseBool m.group3).getD false
    match store paramPath withDecryption with
    | none => (none, [(paramPath, withDecryption)])
    | some value =>
      let r := ssmLoop store rest (stringsReplaceAll name placeholder value)
      (r.1, (paramPath, withDecryption) :: r.2)

/-- `substituteSSM`: the text with its parameter placeholders replaced (`none` when a fetch
ended the process), and the parameters fetched, in order. -/
def substituteSSM (store : ParamStore) (name : String) : Option String × List (String × Bool) :=
  if stringsContains name "\x7b\x7bssm: " then
    ssmLoop store (findAllSSM name.data.length name.data) name
  else
    (some name, [])

/-! ## Go `path/filepath` (Unix) -/

/-- The elements of a path between its separators. -/
def splitSlash : List Char → List (List Char)
  | [] => [[]]
  | c :: rest =>
    if c = '/' then [] :: splitSlash rest
    else
      match splitSlash rest with
      | [] => [[c]]
      | h :: t => (c :: h) :: t

/-- One step of `Clean`: the elements kept so far, last first, and the next element. Empty
elements and `.` are dropped; `..` removes the element before it, is dropped at the root and
is kept at the beginning of a path that is not rooted. -/
def cleanStep (rooted : Bool) (stack : List (List Char)) (elem : List Char) : List (List Char) :=
  if elem = [] ∨ elem = ['.'] then stack
  else if elem = ['.', '.'] then
    match stack with
    | [] => if rooted then [] else [elem]
    | top :: below => if top = ['.', '.'] then elem :: stack else below
  else elem :: stack

/-- The elements joined by separators. -/
def joinSlash : List (List Char) → List Char
  | [] => []
  | [e] => e
  | e :: es => e ++ '/' :: joinSlash es

/-- Go `filepath.Clean`: the shortest path name equivalent to `path` by lexical processing. -/
def filepathClean (path : String) : String :=
  let rooted : Bool := path.data.head? = some '/'
  let kept := ((splitSlash path.data).foldl (cleanStep rooted) []).reverse
  if rooted then String.mk ('/' :: joinSlash kept)
  else if kept = [] then "."
  else String.mk (joinSlash kept)

/-- Go `filepath.Dir`: all but the last element of the path, cleaned. -/
def filepathDir (path : String) : String :=
  filepathClean (String.mk (path.data.reverse.dropWhile (fun c => c != '/')).reverse)

/-- Go `filepath.Join` of two elements. -/
def filepathJoin (a b : String) : String :=
  if a ≠ "" then filepathClean (a ++ "/" ++ b)
  else if b ≠ "" then filepathClean b
  else ""

/-- Go `filepath.IsAbs`. -/
def filepathIsAbs (path : String) : Bool := stringsHasPrefix path "/"

/-- Go `filepath.Abs` with its error dropped, as every caller does (`v, _ = filepath.Abs(..)`):
`cwd` is the working directory, `none` when `os.Getwd` fails, in which case the result is
empty. -/
def filepathAbs (cwd : Option String) (path : String) : String :=
  if filepathIsAbs path then filepathClean path
  else
    match cwd with
    | none => ""
    | some wd => filepathJoin wd path

/-! ## `utils.go`: path resolution -/

/-- `stringInSlice`. -/
def stringInSlice (a : String) : List String → Bool
  | [] => false
  | b :: rest => if b = a then true else stringInSlice a rest

/-- The chart part of the loop body of `resolvePaths`. -/
def resolveChart (env : Env) (cwd : Option String) (dir : String) (s : state)
    (chart : String) : String :=
  if chart ≠ "" then
    let repoOrDir := filepathDir chart
    let isRepo := s.HelmRepos.contains repoOrDir || stringInSlice repoOrDir s.PreconfiguredHelmRepos
    if !isRepo then
      let chart1 := osExpandEnv env chart
      if !filepathIsAbs chart1 then filepathAbs cwd (filepathJoin dir chart1)
      else chart1
    else chart
  else chart

/-- The body of the `for k, v := range s.Apps` loop of `resolvePaths`, on the release behind
the pointer `v`. -/
def resolveRelease (env : Env) (cwd : Option String) (dir : String) (s : state)
    (v : release) : release :=
  { v with
    ValuesFile :=
      if v.ValuesFile ≠ "" then filepathAbs cwd (filepathJoin dir v.ValuesFile) else v.ValuesFile
    SecretsFile :=
      if v.SecretsFile ≠ "" then filepathAbs cwd (filepathJoin dir v.SecretsFile)
      else v.SecretsFile
    ValuesFiles := v.ValuesFiles.map (fun f => filepathAbs cwd (filepathJoin dir f))
    SecretsFiles := v.SecretsFiles.map (fun f => filepathAbs cwd (filepathJoin dir f))
    Chart := resolveChart env cwd dir s v.Chart }

/-- The `for k, v := range s.Certificates` loop of `resolvePaths`: the entries still to
visit and the map as written so far. -/
def resolveCertLoop (w : World) (cwd : Option String) (dir : String) :
    List (String × String) → GoMap String → GoMap String
  | [], m => m
  | (k, v) :: rest, m =>
    let v1 := if w.parseRequestURI v = false then filepathAbs cwd (filepathJoin dir v) else v
    resolveCertLoop w cwd dir rest (m.set k v1)

/-- `resolvePaths`: the document with its relative paths resolved against the directory of
the state file. The entries of `Apps` are pointers, so the loop rewrites every release in
place (`s.Apps[k] = v` stores the same pointer back); the loop over `Namespaces` stores each
value back unchanged. -/
def resolvePaths (w : World) (env : Env) (cwd : Option String) (relativeToFile : String)
    (s : state) : state :=
  let dir := filepathDir relativeToFile
  let apps : GoMap release :=
    s.Apps.map (fun l => l.map (fun kv => (kv.1, resolveRelease env cwd dir s kv.2)))
  let settings : config :=
    if s.Settings.BearerTokenPath ≠ "" then
      if w.parseRequestURI s.Settings.BearerTokenPath = false then
        { s.Settings with
          BearerTokenPath := filepathAbs cwd (filepathJoin dir s.Settings.BearerTokenPath) }
      else s.Settings
    else s.Settings
  { s with
    Apps := apps
    Settings := settings
    Certificates := resolveCertLoop w cwd dir s.Certificates.entries s.Certificates }

/-! ## Actions on the outside world -/

/-- One thing a call does to the outside world. -/
inductive Event where
  | exec (c : command)
  | download (reader bucket key outfile : String)
  | copyFile (source destination : String)
  | readFile (path : String)
  | writeFile (path content : String)
  | deleteFile (path : String)
  | notifySlack (content url : String)
  deriving DecidableEq, Repr

/-- How a call ends: it returns, the process is ended by the fatal-log path, or it panics. -/
inductive Ending (α : Type) where
  | done (a : α)
  | fatal (msg : String)
  | panic
  deriving DecidableEq, Repr

/-- A call seen from outside: how it ends and what it did, in order. -/
structure Act (α : Type) where
  ending : Ending α
  trace : List Event
  deriving DecidableEq, Repr

/-- A call that returns at once. -/
def Act.ret {α : Type} (a : α) : Act α := { ending := Ending.done a, trace := [] }

/-- Sequencing: what follows runs only when the first call returns. -/
def Act.andThen {α β : Type} (x : Act α) (f : α → Act β) : Act β :=
  match x.ending with
  | Ending.done a => { ending := (f a).ending, trace := x.trace ++ (f a).trace }
  | Ending.fatal msg => { ending := Ending.fatal msg, trace := x.trace }
  | Ending.panic => { ending := Ending.panic, trace := x.trace }

/-- The file system and the remote readers, as the calls see them. An answer `some err` is
the text of the error. -/
structure Host where
  /-- `ioutil.ReadFile`: the content, or the error. -/
  readFile : String → Except String String
  /-- `ioutil.WriteFile`. -/
  writeFile : String → String → Option String
  /-- `os.Remove`. -/
  remove : String → Option String
  /-- The open/create/copy sequence of `copyFile`: the error of the first step that fails. -/
  copy : String → String → Option String
  /-- `aws.ReadFile`, `gcs.ReadFile`, `azure.ReadFile` (reader `s3`, `gs`, `az`) for a bucket,
  a key and an output file: `some msg` when the reader fails, which ends the process. -/
  remoteRead : String → String → String → String → Option String
  /-- `yaml.Marshal` of a rule list. -/
  yamlMarshal : List limitRule → Except String String

/-- `logError`: posts the message to the webhook when it parses as a URI, then ends the
process through `logs.Fatal`. -/
def logError {α : Type} (w : World) (s : state) (msg : String) : Act α :=
  { ending := Ending.fatal msg
    trace := if w.parseRequestURI s.Settings.SlackWebhook = true
      then [Event.notifySlack msg s.Settings.SlackWebhook] else [] }

/-- `cmd.exec`. -/
def execCmd (w : World) (c : command) : Act (Int × String) :=
  { ending := Ending.done (w.exec c), trace := [Event.exec c] }

/-- `readFile`: the content of a file; a failure ends the process. -/
def readFile (w : World) (h : Host) (s : state) (filepath : String) : Act String :=
  match h.readFile filepath with
  | Except.ok data => { ending := Ending.done data, trace := [Event.readFile filepath] }
  | Except.error err =>
    Act.andThen { ending := Ending.done (), trace := [Event.readFile filepath] }
      (fun _ => logError w s ("failed to read [ " ++ filepath ++ " ] file content: " ++ err))

/-- `copyFile`. -/
def copyFile (w : World) (h : Host) (s : state) (source destination : String) : Act Unit :=
  match h.copy source destination with
  | none => { ending := Ending.done (), trace := [Event.copyFile source destination] }
  | some err =>
    Act.andThen { ending := Ending.done (), trace := [Event.copyFile source destination] }
      (fun _ => logError w s
        ("while copying " ++ source ++ " to " ++ destination ++ " : " ++ err))

/-- `deleteFile`. -/
def deleteFile (w : World) (h : Host) (s : state) (path : String) : Act Unit :=
  match h.remove path with
  | none => { ending := Ending.done (), trace := [Event.deleteFile path] }
  | some _ =>
    Act.andThen { ending := Ending.done (), trace := [Event.deleteFile path] }
      (fun _ => logError w s ("Could not delete file: " ++ path))

/-! ## More of Go `strings` -/

/-- The text after the first occurrence of `sep`, if there is one. -/
def afterFirst (sep : List Char) : List Char → Option (List Char)
  | [] => if sep = [] then some [] else none
  | c :: rest =>
    if sep.isPrefixOf (c :: rest) then some ((c :: rest).drop sep.length)
    else afterFirst sep rest

/-- The text before the first occurrence of `sep` (the whole text when there is none). -/
def beforeFirst (sep : List Char) : List Char → List Char
  | [] => []
  | c :: rest => if sep.isPrefixOf (c :: rest) then [] else c :: beforeFirst sep rest

/-- Go `unicode.IsSpace`. -/
def unicodeIsSpace (c : Char) : Bool :=
  c = '\t' || c = '\n' || c = '\x0b' || c = '\x0c' || c = '\r' || c = ' ' ||
  c.toNat = 0x85 || c.toNat = 0xA0 || c.toNat = 0x1680 ||
  (0x2000 ≤ c.toNat && c.toNat ≤ 0x200A) ||
  c.toNat = 0x2028 || c.toNat = 0x2029 || c.toNat = 0x202F || c.toNat = 0x205F ||
  c.toNat = 0x3000

/-- Go `strings.TrimSpace`. -/
def stringsTrimSpace (s : String) : String :=
  String.mk ((s.data.dropWhile unicodeIsSpace).reverse.dropWhile unicodeIsSpace).reverse

/-- Go `unicode.ToUpper` as far as a comparison with an ASCII text can tell: the ASCII
letters, and the two letters outside ASCII whose upper case is an ASCII letter (dotless i,
long s); every other character outside ASCII has its upper case outside ASCII and is left
as it is. -/
def unicodeToUpper (c : Char) : Char :=
  if c.toNat = 0x131 then 'I' else if c.toNat = 0x17F then 'S' else c.toUpper

/-- Go `strings.ToUpper`. -/
def stringsToUpper (s : String) : String := String.mk (s.data.map unicodeToUpper)

/-- Go `strings.HasSuffix`. -/
def stringsHasSuffix (s suffix : String) : Bool := suffix.data.isSuffixOf s.data

/-- The pieces of a text between its line feeds. -/
def splitLines : List Char → List (List Char)
  | [] => [[]]
  | c :: rest =>
    if c = '\n' then [] :: splitLines rest
    else
      match splitLines rest with
      | [] => [[c]]
      | l :: ls => (c :: l) :: ls

/-- Go `strings.Split(s, "\n")`. -/
def stringsSplitLines (s : String) : List String := (splitLines s.data).map String.mk

/-- The loop of Go `strings.Fields`: the field being read (last character first) and the
text still to read. -/
def fieldsLoop : List Char → List Char → List (List Char)
  | cur, [] => if cur = [] then [] else [cur.reverse]
  | cur, c :: rest =>
    if unicodeIsSpace c then
      if cur = [] then fieldsLoop [] rest else cur.reverse :: fieldsLoop [] rest
    else fieldsLoop (c :: cur) rest

/-- Go `strings.Fields`. -/
def stringsFields (s : String) : List String := (fieldsLoop [] s.data).map String.mk

/-- Go `strings.LastIndex` on characters: `none` stands for `-1`. -/
def lastIndexChars (sub : List Char) : List Char → Option Nat
  | [] => if sub = [] then some 0 else none
  | c :: rest =>
    match lastIndexChars sub rest with
    | some i => some (i + 1)
    | none => if sub.isPrefixOf (c :: rest) then some 0 else none

/-- Go `m[k]` as a lookup. -/
def GoMap.lookup {α : Type} (m : GoMap α) (k : String) : Option α :=
  match m.entries.find? (fun e => e.1 = k) with
  | some e => some e.2
  | none => none

/-- Go `m[k]` on a map of texts: the empty text when the key is missing. -/
def GoMap.get (m : GoMap String) (k : String) : String := (m.lookup k).getD ""

/-- `Indent`: `prefix` inserted at the beginning of each non-empty line of `s`. -/
def indentLoop (pre : List Char) : Bool → List Char → List Char
  | _, [] => []
  | bol, c :: rest =>
    (if bol && c != '\n' then pre else []) ++ c :: indentLoop pre (c == '\n') rest

/-- `Indent` (`utils.go`). -/
def Indent (s pre : String) : String := String.mk (indentLoop pre.data true s.data)

/-! ## `utils.go`: downloads -/

/-- `getBucketElements`: bucket name and file path of a link `<scheme>://<bucket>/<path>`;
`none` stands for the index-out-of-range panic of `SplitAfterN(link, "//", 2)[1]` or of
`SplitN(tmp, "/", 2)[1]`. -/
def getBucketElements (link : String) : Option (String × String) :=
  match afterFirst "//".data link.data with
  | none => none
  | some tmp =>
    match afterFirst "/".data tmp with
    | none => none
    | some filePath => some (String.mk (beforeFirst "/".data tmp), String.mk filePath)

/-- A remote read as `downloadFile` makes it: the bucket elements, then the reader. -/
def remoteDownload (h : Host) (reader path outfile : String) : Act Unit :=
  match getBucketElements path with
  | none => { ending := Ending.panic, trace := [] }
  | some tmp =>
    match h.remoteRead reader tmp.1 tmp.2 outfile with
    | none =>
      { ending := Ending.done (), trace := [Event.download reader tmp.1 tmp.2 outfile] }
    | some msg =>
      { ending := Ending.fatal msg, trace := [Event.download reader tmp.1 tmp.2 outfile] }

/-- `downloadFile`: fetches a file from a bucket, or copies a local file, to `outfile`;
returns `outfile`. -/
def downloadFile (w : World) (h : Host) (s : state) (path outfile : String) : Act String :=
  Act.andThen
    (if stringsHasPrefix path "s3" then remoteDownload h "s3" path outfile
     else if stringsHasPrefix path "gs" then remoteDownload h "gs" path outfile
     else if stringsHasPrefix path "az" then remoteDownload h "az" path outfile
     else copyFile w h s path outfile)
    (fun _ => Act.ret outfile)

/-! ## `kube_helpers.go`: context -/

/-- The command `setKubeContext` builds. -/
def useContextCmd (context : String) : command :=
  { Cmd := "kubectl", Args := ["config", "use-context", context],
    Description := "setting kubectl context to [ " ++ context ++ " ]" }

/-- `setKubeContext`: false when the context cannot be made the current one. -/
def setKubeContext (w : World) (context : String) : Act Bool :=
  if context = "" then
    Act.andThen (execCmd w currentContextCmd)
      (fun r => Act.ret (if r.1 ≠ 0 ∨ r.2 = "" then false else true))
  else
    Act.andThen (execCmd w (useContextCmd context))
      (fun r => Act.ret (if r.1 ≠ 0 then false else true))

/-- The opening `if`/`else if` chain of `createContext`: the message of its `return`, if it
returns, and the document as it leaves it. -/
def contextPrecheck (s : state) : Option String × state :=
  if s.Settings.BearerToken = true ∧ s.Settings.BearerTokenPath = "" then
    (none, { s with Settings := { s.Settings with
      BearerTokenPath := "/var/run/secrets/kubernetes.io/serviceaccount/token" } })
  else if s.Settings.BearerToken = true ∧ s.Settings.BearerTokenPath ≠ "" then
    (none, s)
  else if s.Settings.Password = "" ∨ s.Settings.Username = "" ∨ s.Settings.ClusterURI = "" then
    (some ("missing information to create context [ " ++ s.Settings.KubeContext ++ " ] " ++
      "you are either missing PASSWORD, USERNAME or CLUSTERURI in the Settings section of your desired state file."), s)
  else if s.Settings.BearerToken = false ∧
      (s.Certificates.isNil = true ∨ s.Certificates.get "caCrt" = "" ∨
        s.Certificates.get "caKey" = "") then
    (some ("missing information to create context [ " ++ s.Settings.KubeContext ++ " ] " ++
      "you are either missing caCrt or caKey or both in the Certifications section of your desired state file."), s)
  else if s.Settings.BearerToken = true ∧
      (s.Certificates.isNil = true ∨ s.Certificates.get "caCrt" = "") then
    (some ("missing information to create context [ " ++ s.Settings.KubeContext ++ " ] " ++
      "caCrt is missing in the Certifications section of your desired state file."), s)
  else (none, s)

/-- One of the optional downloads of `createContext`: the local name when something was
named, else the empty text. -/
def downloadIfSet (w : World) (h : Host) (s : state) (path outfile : String) : Act String :=
  if path ≠ "" then downloadFile w h s path outfile else Act.ret path

/-- The downloads of `createContext`: the local names of `caCrt`, `caKey` and `caClient`. -/
def contextDownloads (w : World) (h : Host) (s : state) : Act (String × String × String) :=
  Act.andThen (downloadIfSet w h s (s.Certificates.get "caCrt") "ca.crt") fun caCrt =>
  Act.andThen (downloadIfSet w h s (s.Certificates.get "caKey") "ca.key") fun caKey =>
  Act.andThen (downloadIfSet w h s (s.Certificates.get "caClient") "client.crt") fun caClient =>
  Act.andThen
    (if s.Settings.BearerToken = true ∧ s.Settings.BearerTokenPath ≠ "" then
      downloadFile w h s s.Settings.BearerTokenPath "bearer.token"
    else Act.ret "bearer.token") fun _ =>
  Act.ret (caCrt, caKey, caClient)

/-- The arguments of the `set-credentials` command, and the document with the user name
`createContext` falls back to in bearer-token mode. -/
def contextCredentials (w : World) (h : Host) (s : state) (caKey caClient : String) :
    Act (List String × state) :=
  if s.Settings.BearerToken = true then
    Act.andThen (readFile w h s "bearer.token") fun token =>
      let s1 : state :=
        if s.Settings.Username = "" then
          { s with Settings := { s.Settings with Username := "helmsman" } }
        else s
      Act.ret (["config", "set-credentials", s1.Settings.Username, "--token=" ++ token], s1)
  else
    let args := ["config", "set-credentials", s.Settings.Username,
      "--username=" ++ s.Settings.Username, "--password=" ++ s.Settings.Password,
      "--client-key=" ++ caKey]
    Act.ret (if caClient ≠ "" then args ++ ["--client-certificate=" ++ caClient] else args, s)

/-- The `set-credentials` command of `createContext`. -/
def setCredentialsCmd (args : List String) : command :=
  { Cmd := "kubectl", Args := args,
    Description := "creating kubectl context - setting credentials." }

/-- The `set-cluster` command of `createContext`. -/
def setClusterCmd (s : state) (caCrt : String) : command :=
  { Cmd := "kubectl"
    Args := ["config", "set-cluster", s.Settings.KubeContext,
      "--server=" ++ s.Settings.ClusterURI, "--certificate-authority=" ++ caCrt]
    Description := "creating kubectl context - setting cluster." }

/-- The `set-context` command of `createContext`. -/
def setContextCmd (s : state) : command :=
  { Cmd := "kubectl"
    Args := ["config", "set-context", s.Settings.KubeContext,
      "--cluster=" ++ s.Settings.KubeContext, "--user=" ++ s.Settings.Username]
    Description := "creating kubectl context - setting context." }

/-- The commands of `createContext`, from `set-credentials` on. -/
def contextCommands (w : World) (s : state) (args : List String) (caCrt : String) :
    Act (Bool × String) :=
  Act.andThen (execCmd w (setCredentialsCmd args)) fun r1 =>
  if r1.1 ≠ 0 then
    Act.ret (false, "failed to create context [ " ++ s.Settings.KubeContext ++ " ]:  " ++ r1.2)
  else
    Act.andThen (execCmd w (setClusterCmd s caCrt)) fun r2 =>
    if r2.1 ≠ 0 then
      Act.ret (false, "failed to create context [ " ++ s.Settings.KubeContext ++ " ]: " ++ r2.2)
    else
      Act.andThen (execCmd w (setContextCmd s)) fun r3 =>
      if r3.1 ≠ 0 then
        Act.ret (false, "failed to create context [ " ++ s.Settings.KubeContext ++ " ]: " ++ r3.2)
      else
        Act.andThen (setKubeContext w s.Settings.KubeContext) fun ok =>
        if ok = true then Act.ret (true, "")
        else Act.ret (false,
          "something went wrong while setting the kube context to the newly created one.")

/-- `createContext`: the result and the document (the global `s`) as the call leaves it. -/
def createContext (w : World) (h : Host) (s : state) : Act ((Bool × String) × state) :=
  match contextPrecheck s with
  | (some msg, s1) => Act.ret ((false, msg), s1)
  | (none, s1) =>
    Act.andThen (contextDownloads w h s1) fun files =>
    Act.andThen (contextCredentials w h s1 files.2.1 files.2.2) fun cred =>
    Act.andThen (contextCommands w cred.2 cred.1 files.1) fun res =>
    Act.ret (res, cred.2)

/-! ## `kube_helpers.go`: limit ranges -/

/-- `setLimits`: creates a LimitRange resource in the namespace. -/
def setLimits (w : World) (h : Host) (s : state) (ns : String) (lims : List limitRule) :
    Act Unit :=
  if lims.length = 0 then Act.ret ()
  else
    let definition := "\n---\napiVersion: v1\nkind: LimitRange\nmetadata:\n  name: limit-range\nspec:\n  limits:\n"
    match h.yamlMarshal lims with
    | Except.error err => logError w s err
    | Except.ok d =>
      let definition := definition ++ Indent d "    "
      Act.andThen
        (match h.writeFile "temp-LimitRange.yaml" definition with
          | none =>
            { ending := Ending.done (),
              trace := [Event.writeFile "temp-LimitRange.yaml" definition] }
          | some err =>
            Act.andThen
              { ending := Ending.done (),
                trace := [Event.writeFile "temp-LimitRange.yaml" definition] }
              (fun _ => logError w s err)) fun _ =>
      Act.andThen
        (execCmd w
          { Cmd := "kubectl", Args := ["apply", "-f", "temp-LimitRange.yaml", "-n", ns],
            Description := "creating LimitRange in namespace [ " ++ ns ++ " ]" }) fun r =>
      Act.andThen
        (if r.1 ≠ 0 then
          logError w s ("failed to create LimitRange in namespace [ " ++ ns ++ " ]: " ++ r.2)
        else Act.ret ()) fun _ =>
      deleteFile w h s "temp-LimitRange.yaml"

/-! ## `kube_helpers.go`: release ownership -/

/-- The query `getHelmsmanReleases` runs for a namespace. -/
def releasesCmd (s : state) (ns : String) : command :=
  { Cmd := "kubectl"
    Args := ["get", if s.Settings.StorageBackend ≠ "" then s.Settings.StorageBackend else "secret",
      "-n", ns, "-l", "MANAGED-BY=HELMSMAN"]
    Description := "getting helm releases which are managed by Helmsman in namespace [[ " ++ ns ++ " ]]." }

/-- The `for _, r := range s.Apps` loop of `getHelmsmanReleases` for one line: the set of
owned applications of the namespace (a pointer is stood for by the label of its entry);
`none` stands for the panic of `fields[0]` or of the slice up to `LastIndex`. -/
def markApps (fields : List String) : List (String × release) → GoMap Bool → Option (GoMap Bool)
  | [], owned => some owned
  | (label, r) :: rest, owned =>
    match fields with
    | [] => none
    | f0 :: _ =>
      match lastIndexChars ".v".data f0.data with
      | none => none
      | some i =>
        markApps fields rest
          (if r.Name = String.mk (f0.data.take i) then owned.set label true else owned)

/-- The `for i := 0; i < len(lines); i++` loop of `getHelmsmanReleases`. -/
def releaseLines (s : state) (ns : String) :
    List String → GoMap (GoMap Bool) → Option (GoMap (GoMap Bool))
  | [], releases => some releases
  | line :: rest, releases =>
    if line = "" ∨ stringsHasSuffix (stringsTrimSpace line) "AGE" = true then
      releaseLines s ns rest releases
    else
      let fields := stringsFields line
      let releases1 := if releases.contains ns = false then releases.set ns (some []) else releases
      match markApps fields s.Apps.entries ((releases1.lookup ns).getD none) with
      | none => none
      | some owned => releaseLines s ns rest (releases1.set ns owned)

/-- The `for ns, _ := range s.Namespaces` loop of `getHelmsmanReleases`: the namespaces
still to visit, the variable `lines` and the map `releases`. -/
def releasesLoop (w : World) (s : state) :
    List String → List String → GoMap (GoMap Bool) → Act (GoMap (GoMap Bool))
  | [], _, releases => Act.ret releases
  | ns :: rest, lines, releases =>
    Act.andThen (execCmd w (releasesCmd s ns)) fun r =>
    Act.andThen (if r.1 ≠ 0 then logError w s r.2 else Act.ret ()) fun _ =>
      let lines1 :=
        if stringsToUpper "No resources found." ≠ stringsToUpper (stringsTrimSpace r.2) then
          stringsSplitLines r.2
        else lines
      match releaseLines s ns lines1 releases with
      | none => { ending := Ending.panic, trace := [] }
      | some releases1 => releasesLoop w s rest lines1 releases1

/-- `getHelmsmanReleases`: for each namespace, the applications whose release the namespace
holds under the Helmsman label. -/
def getHelmsmanReleases (w : World) (s : state) : Act (GoMap (GoMap Bool)) :=
  releasesLoop w s (s.Namespaces.entries.map Prod.fst) [] (some [])

/-! ## `kube_helpers.go`: namespaces -/

/-- The command `createNamespace` builds. -/
def createNamespaceCmd (ns : String) : command :=
  { Cmd := "kubectl", Args := ["create", "namespace", ns],
    Description := "creating namespace  " ++ ns }

/-- `createNamespace`: creates a namespace in the cluster. `verbose` is the global flag; the
branch taken on a failing command writes a debug line to the log and nothing else. -/
def createNamespace (w : World) (verbose : Bool) (ns : String) : Act Unit :=
  Act.andThen (execCmd w (createNamespaceCmd ns)) fun r =>
    if r.1 ≠ 0 ∧ verbose = true then Act.ret () else Act.ret ()

/-- The command `labelNamespace` builds for one label. -/
def labelNamespaceCmd (ns k v : String) : command :=
  { Cmd := "kubectl", Args := ["label", "--overwrite", "namespace/" ++ ns, k ++ "=" ++ v],
    Description := "labeling namespace  " ++ ns }

/-- The `for k, v := range labels` loop of `labelNamespace`; the branch taken on a failing
command writes a warning to the log and nothing else. -/
def labelLoop (w : World) (verbose : Bool) (ns : String) : List (String × String) → Act Unit
  | [] => Act.ret ()
  | (k, v) :: rest =>
    Act.andThen (execCmd w (labelNamespaceCmd ns k v)) fun r =>
    Act.andThen (if r.1 ≠ 0 ∧ verbose = true then Act.ret () else Act.ret ()) fun _ =>
      labelLoop w verbose ns rest

/-- `labelNamespace`: labels a namespace with the given labels. -/
def labelNamespace (w : World) (verbose : Bool) (ns : String) (labels : GoMap String) :
    Act Unit :=
  labelLoop w verbose ns labels.entries

/-- The command `annotateNamespace` builds for one annotation. -/
def annotateNamespaceCmd (ns k v : String) : command :=
  { Cmd := "kubectl", Args := ["annotate", "--overwrite", "namespace/" ++ ns, k ++ "=" ++ v],
    Description := "annotating namespace  " ++ ns }

/-- The `for k, v := range labels` loop of `annotateNamespace`; the branch taken on a failing
command writes a line to the log and nothing else. -/
def annotateLoop (w : World) (verbose : Bool) (ns : String) :
    List (String × String) → Act Unit
  | [] => Act.ret ()
  | (k, v) :: rest =>
    Act.andThen (execCmd w (annotateNamespaceCmd ns k v)) fun r =>
    Act.andThen (if r.1 ≠ 0 ∧ verbose = true then Act.ret () else Act.ret ()) fun _ =>
      annotateLoop w verbose ns rest

/-- `annotateNamespace`: annotates a namespace with the given annotations. -/
def annotateNamespace (w : World) (verbose : Bool) (ns : String) (labels : GoMap String) :
    Act Unit :=
  annotateLoop w verbose ns labels.entries

/-! ## Specification-side predicates -/

/-- Every entry of the application list passes the per-application validator when the
entries are presented in this order, each with the `names` table its predecessors left. -/
def allReleasesPass (w : World) (s : state) : List (String × release) → Names → Prop
  | [], _ => True
  | (appLabel, r) :: rest, names =>
    (w.validateRelease appLabel r names s).1.1 = true ∧
      allReleasesPass w s rest (w.validateRelease appLabel r names s).2

/-- A certificate value is acceptable: an existing local file, or a valid URI that begins
with one of the three bucket schemes. -/
def acceptableCert (w : World) (value : String) : Prop :=
  w.statOk value = true ∨
    (w.parseRequestURI value = true ∧
      (stringsHasPrefix value "s3://" = true ∨ stringsHasPrefix value "gs://" = true ∨
        stringsHasPrefix value "az://" = true))

instance (w : World) (value : String) : Decidable (acceptableCert w value) := by
  unfold acceptableCert
  infer_instance

/-- Two texts differ at a position both have. -/
def diverge : List Char → List Char → Bool
  | a :: as, b :: bs => a != b || diverge as bs
  | _, _ => false

/-- The call returned `false` with a message that begins with `pre`. -/
def Outcome.failsWith (o : Outcome) (pre : String) : Prop :=
  ∃ rest, o = Outcome.returned false (pre ++ rest)

/-- A complete placeholder: `{{ssm: <name>}}` or `{{ssm: <name>~true}}` with a non-empty
name free of `~` and `}`. -/
def isPlaceholder (p : List Char) : Prop :=
  ∃ nm : List Char, nm ≠ [] ∧ (∀ c ∈ nm, c ≠ '~' ∧ c ≠ '}') ∧
    (p = "\x7b\x7bssm: ".data ++ nm ++ "\x7d\x7d".data ∨ p = "\x7b\x7bssm: ".data ++ nm ++ "~true\x7d\x7d".data)

/-- The pattern matches completely somewhere in the text. -/
def hasPlaceholder (t : List Char) : Prop :=
  ∃ pre p suf : List Char, isPlaceholder p ∧ t = pre ++ p ++ suf

/-- A text cut into pieces: literal text and placeholders (name, decryption flag). -/
inductive Piece where
  | lit (cs : List Char)
  | ph (nm : List Char) (dec : Bool)
  deriving DecidableEq, Repr

/-- The text of a piece. -/
def Piece.render : Piece → List Char
  | Piece.lit cs => cs
  | Piece.ph nm dec => "\x7b\x7bssm: ".data ++ nm ++ (if dec then "~true\x7d\x7d".data else "\x7d\x7d".data)

/-- The text of a list of pieces. -/
def renderPieces (ps : List Piece) : List Char := ps.flatMap Piece.render

/-- A piece with its placeholder replaced by the fetched value. -/
def Piece.fill (store : ParamStore) : Piece → Piece
  | Piece.lit cs => Piece.lit cs
  | Piece.ph nm dec => Piece.lit ((store (String.mk nm) dec).getD "").data

/-- The parameters the placeholders of the pieces name, in order. -/
def pieceParams : List Piece → List (String × Bool)
  | [] => []
  | Piece.lit _ :: ps => pieceParams ps
  | Piece.ph nm dec :: ps => (String.mk nm, dec) :: pieceParams ps

/-- A try of the pattern behind the opening text fails for good inside `r`: the run of name
characters ends inside `r`, and the run is empty or what follows it in `r` can neither
become nor hold the closing text `}}` or `~true}}`. -/
def blockedName (r : List Char) : Prop :=
  r.dropWhile ssmNameChar ≠ [] ∧
  (r.takeWhile ssmNameChar = [] ∨
    (¬ ((r.dropWhile ssmNameChar).isPrefixOf "\x7d\x7d".data = true ∨
        "\x7d\x7d".data.isPrefixOf (r.dropWhile ssmNameChar) = true) ∧
     ¬ ((r.dropWhile ssmNameChar).isPrefixOf "~true\x7d\x7d".data = true ∨
        "~true\x7d\x7d".data.isPrefixOf (r.dropWhile ssmNameChar) = true)))

instance (r : List Char) : Decidable (blockedName r) := by
  unfold blockedName
  infer_instance

/-- No placeholder can begin at the head of `s`, whatever is appended to `s`: either `s`
begins with the opening text `{{ssm: ` and the try fails for good inside `s`, or `s` is not
a beginning of the opening text. -/
def settledAt (s : List Char) : Prop :=
  if "\x7b\x7bssm: ".data.isPrefixOf s = true then blockedName (s.drop 7)
  else ¬ s.isPrefixOf "\x7b\x7bssm: ".data = true

instance (s : List Char) : Decidable (settledAt s) := by
  unfold settledAt
  infer_instance

/-- No placeholder can begin inside the text, as a check on the text alone: every non-empty
end of the text is settled. This can be checked by evaluation, and is enough for `inert`. -/
def settled (cs : List Char) : Prop := ∀ i : Nat, i < cs.length → settledAt (cs.drop i)

instance (cs : List Char) : Decidable (settled cs) := by
  unfold settled
  infer_instance

/-- No placeholder begins inside the text, whatever text follows it. -/
def inert (cs : List Char) : Prop :=
  ∀ (i : Nat) (t p : List Char), i < cs.length → isPlaceholder p →
    p.isPrefixOf (cs.drop i ++ t) = false

/-- A piece that substitution treats as the specification says: a literal text inside which
no placeholder begins; or a placeholder whose name is not empty and free of `~` and `}` (as
the pattern demands), inside whose name no placeholder begins, and whose fetch succeeds
with a value inside which no placeholder begins. -/
def Piece.tame (store : ParamStore) : Piece → Prop
  | Piece.lit cs => inert cs
  | Piece.ph nm dec => nm ≠ [] ∧ (∀ c ∈ nm, c ≠ '~' ∧ c ≠ '}') ∧ inert nm ∧
      ∃ v : String, store (String.mk nm) dec = some v ∧ inert v.data

/-- The matches the placeholders of the pieces give, in order. -/
def pieceMatches : List Piece → List ssmMatch
  | [] => []
  | Piece.lit _ :: ps => pieceMatches ps
  | Piece.ph nm dec :: ps =>
    { whole := String.mk (Piece.ph nm dec).render, group1 := String.mk nm,
      group3 := if dec then "true" else "" } :: pieceMatches ps

/-- One replacement step seen on a piece: the piece `t` gives way to its fetched value. -/
def swapFor (store : ParamStore) (t q : Piece) : Piece := if q = t then t.fill store else q

/-- A repository name that is one plain path element: not empty, no separator, neither `.`
nor `..`. -/
def plainElement (repo : String) : Prop :=
  repo.data ≠ [] ∧ '/' ∉ repo.data ∧ repo ≠ "." ∧ repo ≠ ".."

/-- What `resolvePaths` makes of a bearer-token path or certificate value: kept when it
parses as a URI, else the absolute form of the directory joined with it. -/
def resolvedLocation (w : World) (cwd : Option String) (dir v : String) : String :=
  if w.parseRequestURI v = true then v else filepathAbs cwd (filepathJoin dir v)

/-- The command is the `kubectl config <step>` command of a step of `createContext`. -/
def stepIs (c : command) (step : String) : Prop := c.Args.take 2 = ["config", step]

instance (c : command) (step : String) : Decidable (stepIs c step) := by
  unfold stepIs
  infer_instance

/-- A line of the query output that `getHelmsmanReleases` does not skip: not empty, and not
ending in `AGE` once trimmed. -/
def isDataRow (line : String) : Prop :=
  ¬ (line = "" ∨ stringsHasSuffix (stringsTrimSpace line) "AGE" = true)

instance (line : String) : Decidable (isDataRow line) := by
  unfold isDataRow
  infer_instance

/-- The leading field of a line cut at the last occurrence of `.v`; `none` when the line has
no field or the field has no `.v`. -/
def rowRelease (line : String) : Option String :=
  match stringsFields line with
  | [] => none
  | f0 :: _ =>
    match lastIndexChars ".v".data f0.data with
    | none => none
    | some i => some (String.mk (f0.data.take i))

/-- The output is the "No resources found." sentence, in any letter case, with white space
around it. -/
def isSentinel (out : String) : Prop :=
  stringsToUpper "No resources found." = stringsToUpper (stringsTrimSpace out)

instance (out : String) : Decidable (isSentinel out) := by
  unfold isSentinel
  infer_instance

/-- Go `strings.Join(lines, "\n")` on characters. -/
def joinLines : List (List Char) → List Char
  | [] => []
  | [l] => l
  | l :: ls => l ++ '\n' :: joinLines ls

/-- What the specification asks of a line: the prefix put before it unless it is empty. -/
def indentLine (pre l : List Char) : List Char := if l = [] then [] else pre ++ l

/-- The specification of `Indent` in its own words: the text split at NL, every line that is
not empty prefixed, the lines rejoined with NL. -/
def indentByLines (s pre : String) : String :=
  String.mk (joinLines ((splitLines s.data).map (indentLine pre.data)))

/-- A path element that `Clean` keeps as it is: not empty, no separator, neither `.` nor
`..`. -/
def plainChars (e : List Char) : Prop := e ≠ [] ∧ '/' ∉ e ∧ e ≠ ['.'] ∧ e ≠ ['.', '.']

instance (e : List Char) : Decidable (plainChars e) := by
  unfold plainChars
  infer_instance

/-- The absolute path made of the given elements; the root when there is none. -/
def rootedPath (es : List (List Char)) : String := String.mk ('/' :: joinSlash es)

/-- The relative path made of the given elements; `.` when there is none. -/
def relativePath (es : List (List Char)) : String :=
  if es = [] then "." else String.mk (joinSlash es)

/-- The list `base` holds the elements of the absolute form of the directory `dir`: the
elements of `dir` when it is absolute, and otherwise those of the working directory followed
by those of `dir`. -/
def absoluteElements (cwd : Option String) (dir : String) (base : List (List Char)) : Prop :=
  (∀ e ∈ base, plainChars e) ∧
  (dir = rootedPath base ∨
    ∃ ws ds, cwd = some (rootedPath ws) ∧ dir = relativePath ds ∧ base = ws ++ ds)

/-- What `resolvePaths` makes of a values or secrets file reference: the absolute form of the
state file's directory joined with the reference. -/
def rerooted (cwd : Option String) (dir f : String) : String :=
  filepathAbs cwd (filepathJoin dir f)

/-- Whether `Clean` keeps an element that is not `..`: it drops the empty element and `.`. -/
def keptElement (e : List Char) : Bool := decide (e ≠ [] ∧ e ≠ ['.'])

/-- The elements of a path that `Clean` keeps when the path holds no `..`. -/
def pathElements (p : List Char) : List (List Char) := (splitSlash p).filter keptElement

/-- The path holds no element `..`. -/
def noParentElement (p : List Char) : Prop := ['.', '.'] ∉ splitSlash p

/-- The line names the release `name`: its leading field is `name`, then `.v`, then a text
that holds no further `.v` (so `name` is the field cut at its last `.v`). -/
def rowNames (line name : String) : Prop :=
  ∃ (f0 : String) (fs : List String) (rest : List Char),
    stringsFields line = f0 :: fs ∧ f0.data = name.data ++ '.' :: 'v' :: rest ∧
      containsChars ['.', 'v'] rest = false

/-- The line has a leading field, and that field holds `.v`. -/
def rowHasRevision (line : String) : Prop :=
  ∃ (f0 : String) (fs : List String), stringsFields line = f0 :: fs ∧ stringsContains f0 ".v" = true

/-- A text made of ASCII letters, digits, `.`, `-` and `_`. -/
def urlSafe (e : List Char) : Prop :=
  ∀ c ∈ e, c.isAlphanum = true ∨ c = '.' ∨ c = '-' ∨ c = '_'

instance (e : List Char) : Decidable (urlSafe e) := by
  unfold urlSafe
  infer_instance

/-- The parser of the world answers as `url.ParseRequestURI` of package `net/url` does on
three kinds of text whose path elements and host are made of letters, digits, `.`, `-` and
`_`: an absolute path is accepted (a request URI may be a path alone); a link
`<scheme>://<host>/<path>` in one of the three bucket schemes is accepted; a relative path
of plain elements is rejected (it has no scheme and no leading separator: "invalid URI for
request"). -/
def parsesAsNetUrl (w : World) : Prop :=
  (∀ fs : List (List Char), (∀ e ∈ fs, urlSafe e) → w.parseRequestURI (rootedPath fs) = true) ∧
  (∀ (scheme : String) (host : List Char) (fs : List (List Char)),
    scheme ∈ ["s3", "gs", "az"] → host ≠ [] → urlSafe host → (∀ e ∈ fs, urlSafe e) →
    w.parseRequestURI (scheme ++ "://" ++ String.mk host ++ rootedPath fs) = true) ∧
  (∀ fs : List (List Char), (∀ e ∈ fs, plainChars e ∧ urlSafe e) →
    w.parseRequestURI (relativePath fs) = false)

/-! ## Sample worlds and documents -/

/-- A world with no active context, an empty disk, a parser that accepts exactly the texts
holding `://`, no namespace override and a per-application validator that accepts. -/
def bareWorld : World :=
  { exec := fun _ => (1, "")
    statOk := fun _ => false
    parseRequestURI := fun u => stringsContains u "://"
    nsOverride := ""
    validateRelease := fun _ _ names _ => ((true, ""), names) }

/-- A document that names a context, one namespace, one repository and one application. -/
def contextOnlyDoc : state :=
  { Settings := { KubeContext := "minikube" }
    Namespaces := some [("staging", {})]
    HelmRepos := some [("stable", "https://charts.example.org/stable")]
    Apps := some [("jenkins",
      { Name := "jenkins", Namespace := "staging", Enabled := true, Chart := "stable/jenkins" })] }

/-- The document `contextOnlyDoc` with a certificate entry that is no file and no bucket. -/
def badCertDoc : state :=
  { contextOnlyDoc with Certificates := some [("caCrt", "missing.crt")] }

/-- A document whose every section is invalid: unparsable endpoint and webhook, a certificate
that is no file and no bucket, no namespace, an unparsable repository. -/
def allBadDoc : state :=
  { Settings := { KubeContext := "minikube", ClusterURI := "not a url", SlackWebhook := "nope" }
    Certificates := some [("caCrt", "missing.crt")]
    HelmRepos := some [("stable", "nowhere")] }

/-- A bearer-token document whose `caCrt` entry is present but is no file and no bucket. -/
def bearerBadCrtDoc : state :=
  { contextOnlyDoc with
    Settings := { KubeContext := "minikube", ClusterURI := "https://cluster.example.org",
                  BearerToken := true }
    Certificates := some [("caCrt", "missing.crt")] }

/-- A bearer-token document without `caCrt`, whose `caKey` entry is no file and no bucket. -/
def bearerBadKeyDoc : state :=
  { bearerBadCrtDoc with Certificates := some [("caKey", "missing.key")] }

/-- A world in which every path exists on disk. -/
def fullDiskWorld : World := { bareWorld with statOk := fun _ => true }

/-- A bearer-token document with `caCrt` only. -/
def bearerDoc : state :=
  { contextOnlyDoc with
    Settings := { KubeContext := "minikube", ClusterURI := "https://cluster.example.org",
                  BearerToken := true }
    Certificates := some [("caCrt", "ca.crt")] }

/-- The document `contextOnlyDoc` with a declared but empty application map. -/
def emptyAppsDoc : state := { contextOnlyDoc with Apps := some [] }

/-- The document `contextOnlyDoc` with no application map at all. -/
def nilAppsDoc : state := { contextOnlyDoc with Apps := none }

/-- A bearer-token document that names a token path. -/
def tokenPathDoc : state :=
  { bearerDoc with
    Settings := { KubeContext := "minikube", ClusterURI := "https://cluster.example.org",
                  BearerToken := true, BearerTokenPath := "s3://bucket/token" } }

/-- A world like `bareWorld` with a namespace override. -/
def overrideWorld : World := { bareWorld with nsOverride := "sandbox" }

/-- The document `contextOnlyDoc` without any namespace. -/
def noNamespaceDoc : state := { contextOnlyDoc with Namespaces := none }

/-- The settings of `allBadDoc` with every later section valid. -/
def badSettingsDoc : state :=
  { contextOnlyDoc with Settings := allBadDoc.Settings }

/-- A parameter store in which `a` holds the placeholder of `b`, and `b` holds `X`. -/
def nestingStore : ParamStore := fun k _ =>
  if k = "a" then some "\x7b\x7bssm: b\x7d\x7d" else if k = "b" then some "X" else none

/-- A parameter store with two plain values. -/
def plainStore : ParamStore := fun k dec =>
  if k = "/prod/db/password" then some (if dec then "s3cret" else "AQICAH")
  else if k = "/prod/db/user" then some "admin" else none

/-- A document with a repository-qualified chart, a chart two segments below a repository
name, a relative token path and certificates given as a bucket and as a relative file. -/
def chartsDoc : state :=
  { Settings := { KubeContext := "minikube", BearerTokenPath := "secrets/token" }
    Certificates := some [("caCrt", "s3://bucket/ca.crt"), ("caKey", "keys/ca.key")]
    HelmRepos := some [("stable", "https://charts.example.org/stable")]
    PreconfiguredHelmRepos := ["internal"]
    Apps := some [
      ("jenkins", { Name := "jenkins", Chart := "stable/jenkins" }),
      ("postgres", { Name := "postgres", Chart := "stable/db/postgres" })] }

/-- A quantity or type as `yaml.Marshal` writes it: between double quotes when it is empty or
made of digits only (it would read back as a number), as it is otherwise. This is what the
library does for the texts the samples use: digits, digits followed by a unit of letters
that is no number notation (`200m`, `1Gi`), capitalised words. -/
def yamlQuantity (s : String) : String :=
  if s.data.all Char.isDigit then "\"" ++ s ++ "\"" else s

/-- The lines `yaml.Marshal` writes for one `resources` field of a rule: nothing when both
quantities are empty (`omitempty`), else the key and the quantities that are not empty. -/
def yamlResources (key : String) (r : resources) : String :=
  if r.CPU = "" ∧ r.Memory = "" then ""
  else
    "  " ++ key ++ ":\n" ++
    (if r.CPU ≠ "" then "    cpu: " ++ yamlQuantity r.CPU ++ "\n" else "") ++
    (if r.Memory ≠ "" then "    memory: " ++ yamlQuantity r.Memory ++ "\n" else "")

/-- The lines `yaml.Marshal` writes for one rule: its fields in the order of the struct,
the first line behind the dash of the sequence. -/
def yamlRule (r : limitRule) : String :=
  "- " ++ String.mk
    ((yamlResources "max" r.Max ++ yamlResources "min" r.Min ++
      yamlResources "default" r.Default ++ yamlResources "defaultRequest" r.DefaultRequest ++
      yamlResources "maxLimitRequestRatio" r.MaxLimitRequestRatio ++
      "  type: " ++ yamlQuantity r.LimitType ++ "\n").data.drop 2)

/-- The text `yaml.Marshal` gives for a rule list (package `gopkg.in/yaml.v2`, block style). -/
def limitsYaml (lims : List limitRule) : String :=
  if lims = [] then "[]\n" else String.join (lims.map yamlRule)

/-- A container rule with a maximum for CPU and memory. -/
def containerRule : limitRule :=
  { Max := { CPU := "2", Memory := "1Gi" }, LimitType := "Container" }

/-- A host on which every file operation and every remote read succeeds, and which
serialises a rule list by `limitsYaml`. -/
def okHost : Host :=
  { readFile := fun _ => Except.ok "t0ken"
    writeFile := fun _ _ => none
    remove := fun _ => none
    copy := fun _ _ => none
    remoteRead := fun _ _ _ _ => none
    yamlMarshal := fun lims => Except.ok (limitsYaml lims) }

/-- A world whose ownership query answers two revisions of `myapp` in namespace `prod`, and
the "no resources" sentence everywhere else; every other command fails. -/
def releasesWorld : World :=
  { bareWorld with
    exec := fun c =>
      if c.Args = ["get", "secret", "-n", "prod", "-l", "MANAGED-BY=HELMSMAN"] then
        (0, "NAME       DATA   AGE\nmyapp.v1   1      2d\nmyapp.v2   1      1d\n")
      else if c.Args.take 1 = ["get"] then (0, "No resources found.\n")
      else (1, "boom") }

/-- A document with the namespaces `prod` and `staging`, visited in this order, and the
applications `myapp` and `other`. -/
def twoNamespacesDoc : state :=
  { Settings := { KubeContext := "minikube" }
    Namespaces := some [("prod", {}), ("staging", {})]
    Apps := some [("myapp", { Name := "myapp", Namespace := "prod" }),
                  ("other", { Name := "other", Namespace := "staging" })] }

/-- A bearer-token document without any certificate map. -/
def bearerNoCertDoc : state := { bearerDoc with Certificates := none }

/-- A world in which every command succeeds except `kubectl config use-context`. -/
def useContextFailsWorld : World :=
  { bareWorld with
    exec := fun c => if c.Args.take 2 = ["config", "use-context"] then (1, "no context") else (0, "ok") }

/-- A document with user name, password, endpoint and both certificates as local files. -/
def passwordDoc : state :=
  { contextOnlyDoc with
    Settings := { KubeContext := "minikube", ClusterURI := "https://cluster.example.org",
                  Username := "admin", Password := "pw" }
    Certificates := some [("caCrt", "ca.crt"), ("caKey", "ca.key")] }

/-- A world in which every command succeeds. -/
def allOkWorld : World := { bareWorld with exec := fun _ => (0, "ok") }

/-- The document `twoNamespacesDoc` with its namespaces visited in the other order. -/
def twoNamespacesSwappedDoc : state :=
  { Settings := { KubeContext := "minikube" }
    Namespaces := some [("staging", {}), ("prod", {})]
    Apps := some [("myapp", { Name := "myapp", Namespace := "prod" }),
                  ("other", { Name := "other", Namespace := "staging" })] }

/-- A document with the single namespace `prod` and the applications `myapp` and `other`. -/
def oneNamespaceDoc : state :=
  { Settings := { KubeContext := "minikube" }
    Namespaces := some [("prod", {})]
    Apps := some [("myapp", { Name := "myapp", Namespace := "prod" }),
                  ("other", { Name := "other", Namespace := "prod" })] }

/-- A world whose ownership query answers a revision of `myapp` and an object `mysecret`
whose name holds no `.v`. -/
def foreignRowWorld : World :=
  { bareWorld with
    exec := fun _ => (0, "NAME       DATA   AGE\nmyapp.v1   1      2d\nmysecret   1      1d\n") }

/-- A document with user name, password and endpoint whose `caCrt` entry names a bucket
without a key and whose `caKey` entry names a bucket and a key. -/
def bucketOnlyDoc : state :=
  { contextOnlyDoc with
    Settings := { KubeContext := "minikube", ClusterURI := "https://cluster.example.org",
                  Username := "admin", Password := "pw" }
    Certificates := some [("caCrt", "s3://bucket"), ("caKey", "s3://bucket/ca.key")] }

/-- A world whose ownership query answers a revision of `myapp` followed by a line of blanks. -/
def blankLineWorld : World :=
  { bareWorld with
    exec := fun _ => (0, "NAME       DATA   AGE\nmyapp.v1   1      2d\n   \n") }

/-- An application that names an absolute chart directory, an absolute values file and two
secrets files, one relative and one absolute. -/
def jenkinsRelease : release :=
  { Name := "jenkins", Namespace := "staging", Chart := "/charts/jenkins",
    ValuesFile := "/etc/helm/values.yaml",
    SecretsFiles := ["secrets/prod.yaml", "/etc/helm/secrets.yaml"] }

/-- A document with the application `jenkinsRelease`. -/
def valuesDoc : state :=
  { Settings := { KubeContext := "minikube" }
    Namespaces := some [("staging", {})]
    Apps := some [("jenkins", jenkinsRelease)] }

/-- A document whose application names absolute files only. -/
def absoluteValuesDoc : state :=
  { Settings := { KubeContext := "minikube" }
    Namespaces := some [("staging", {})]
    Apps := some [("jenkins",
      { Name := "jenkins", Namespace := "staging", Chart := "/charts/jenkins",
        ValuesFile := "/etc/helm/values.yaml",
        SecretsFiles := ["/etc/helm/secrets.yaml"] })] }

/-- A world in which every command fails the way a second `create` does. -/
def alreadyExistsWorld : World :=
  { bareWorld with
    exec := fun _ => (1, "Error from server (AlreadyExists): namespaces \"staging\" already exists") }

/-- Two labels, visited `team` first. -/
def twoLabels : GoMap String := some [("team", "payments"), ("env", "prod")]

/-- The labels of `twoLabels`, visited `env` first. -/
def twoLabelsSwapped : GoMap String := some [("env", "prod"), ("team", "payments")]

/-- A world whose ownership query answers the first revision of a release named `web.v2` and
two revisions of `myapp`. -/
def nestedRevisionWorld : World :=
  { bareWorld with
    exec := fun _ =>
      (0, "NAME        DATA   AGE\nweb.v2.v1   1      3d\nmyapp.v1    1      2d\nmyapp.v2    1      1d\n") }

/-- A document with the single namespace `prod` and the applications `web`, `web.v2` and
`myapp`. -/
def nestedNamesDoc : state :=
  { Settings := { KubeContext := "minikube" }
    Namespaces := some [("prod", {})]
    Apps := some [("web", { Name := "web", Namespace := "prod" }),
                  ("web2", { Name := "web.v2", Namespace := "prod" }),
                  ("myapp", { Name := "myapp", Namespace := "prod" })] }

/-- A world like `bareWorld` whose parser accepts the texts that begin with `/` and the
texts that hold `://`, and no other. -/
def netUrlWorld : World :=
  { bareWorld with
    parseRequestURI := fun u => stringsHasPrefix u "/" || stringsContains u "://" }

/-- A document with a relative token path and certificates given as a bucket link, as a
relative file and as an absolute file. -/
def locationsDoc : state :=
  { Settings := { KubeContext := "minikube", BearerTokenPath := "secrets/token" }
    Certificates := some [("caCrt", "s3://bucket/ca.crt"), ("caKey", "keys/ca.key"),
                          ("caClient", "/etc/ssl/client.crt")]
    Namespaces := some [("staging", {})] }

/-- A parameter store with a user name and a password that holds braces. -/
def bracesStore : ParamStore := fun k dec =>
  if k = "/prod/db/password" then some (if dec then "s3\x7bcr\x7det" else "AQICAH")
  else if k = "/prod/db/user" then some "admin" else none

/-! # Theorems -/

/-! ## How `validate` unfolds, stage by stage -/

theorem state_with_certificates (s : state) :
    ({ s with Certificates := s.Certificates } : state) = s := by
  cases s; rfl

theorem validate_settings_fail (w : World) (s : state) (msg : String)
    (h : validateSettings w s = some msg) :
    validate w s = (Outcome.returned false msg, s) := by
  simp [validate, h]

theorem validate_slack_fail (w : World) (s : state) (msg : String)
    (h1 : validateSettings w s = none) (h2 : validateSlackWebhook w s = some msg) :
    validate w s = (Outcome.returned false msg, s) := by
  simp [validate, h1, h2]

theorem validate_certificates_fail (w : World) (s : state) (msg : String)
    (h1 : validateSettings w s = none) (h2 : validateSlackWebhook w s = none)
    (h3 : (validateCertificates w s).1 = some msg) :
    validate w s =
      (Outcome.returned false msg, { s with Certificates := (validateCertificates w s).2 }) := by
  rcases hc : validateCertificates w s with ⟨o, m⟩
  rw [hc] at h3
  simp only at h3
  subst h3
  simp [validate, h1, h2, hc]

theorem validateSettings_congr (w : World) (s s' : state) (h : s'.Settings = s.Settings) :
    validateSettings w s' = validateSettings w s := by
  simp only [validateSettings, h]

theorem validateSlackWebhook_congr (w : World) (s s' : state) (h : s'.Settings = s.Settings) :
    validateSlackWebhook w s' = validateSlackWebhook w s := by
  simp only [validateSlackWebhook, h]

theorem validateCertificates_congr (w : World) (s s' : state) (h : s'.Settings = s.Settings)
    (hc : s'.Certificates = s.Certificates) :
    validateCertificates w s' = validateCertificates w s := by
  simp only [validateCertificates, h, hc]

theorem validateNamespaces_congr (w : World) (s s' : state) (h : s'.Namespaces = s.Namespaces) :
    validateNamespaces w s' = validateNamespaces w s := by
  simp only [validateNamespaces, h]

theorem validateRepos_congr (w : World) (s s' : state) (h : s'.HelmRepos = s.HelmRepos) :
    validateRepos w s' = validateRepos w s := by
  simp only [validateRepos, h]

/-- Once the first three stages pass, `validate` is the namespace, repository and application
stages run on the document with the certificate map as the third stage left it. -/
theorem validate_after_certificates (w : World) (s : state)
    (h1 : validateSettings w s = none) (h2 : validateSlackWebhook w s = none)
    (h3 : (validateCertificates w s).1 = none) :
    validate w s =
      (match validateNamespaces w s with
        | some msg => Outcome.returned false msg
        | none =>
          match validateRepos w s with
          | some msg => Outcome.returned false msg
          | none => validateApps w { s with Certificates := (validateCertificates w s).2 },
       { s with Certificates := (validateCertificates w s).2 }) := by
  rcases hc : validateCertificates w s with ⟨o, m⟩
  rw [hc] at h3
  simp only at h3
  subst h3
  have hn : validateNamespaces w { s with Certificates := m } = validateNamespaces w s :=
    validateNamespaces_congr w s _ rfl
  have hr : validateRepos w { s with Certificates := m } = validateRepos w s :=
    validateRepos_congr w s _ rfl
  simp only [validate, h1, h2, hc, hn, hr]
  cases validateNamespaces w s with
  | some msg => rfl
  | none =>
    cases validateRepos w s with
    | some msg => rfl
    | none => rfl

/-! ## Facts about the stages -/

theorem isValidCert_fst (w : World) (value : String) :
    (isValidCert w value).1 = true ↔ acceptableCert w value := by
  unfold isValidCert acceptableCert
  cases w.statOk value <;> cases w.parseRequestURI value <;>
    cases stringsHasPrefix value "s3://" <;> cases stringsHasPrefix value "gs://" <;>
    cases stringsHasPrefix value "az://" <;> simp

theorem isValidCert_snd (w : World) (value : String) (h : (isValidCert w value).1 = true) :
    (isValidCert w value).2 = value := by
  simp only [isValidCert] at h ⊢
  split
  · rename_i hc
    simp [hc] at h
  · rfl

/-- The certificate loop stops at a rejected entry and names its key. -/
theorem certLoop_rejects (w : World) (l : List (String × String)) (m : GoMap String)
    (h : ∃ e ∈ l, ¬ acceptableCert w e.2) :
    ∃ key value, (key, value) ∈ l ∧ ¬ acceptableCert w value ∧
      (certLoop w l m).1 = some ("certifications validation failed -- [ " ++ key ++
        " ] must be a valid S3, GCS, AZ bucket/container URL or a valid relative file path.") := by
  induction l generalizing m with
  | nil => simp at h
  | cons e rest ih =>
    obtain ⟨key, value⟩ := e
    by_cases hv : (isValidCert w value).1 = true
    · have hacc : acceptableCert w value := (isValidCert_fst w value).1 hv
      have hrest : ∃ e ∈ rest, ¬ acceptableCert w e.2 := by
        obtain ⟨e, he, hbad⟩ := h
        rcases List.mem_cons.1 he with rfl | he
        · exact absurd hacc hbad
        · exact ⟨e, he, hbad⟩
      obtain ⟨k, v, hmem, hbad, hres⟩ := ih (m.set key (isValidCert w value).2) hrest
      refine ⟨k, v, List.mem_cons_of_mem _ hmem, hbad, ?_⟩
      simp only [certLoop, hv]
      simpa using hres
    · have hbad : ¬ acceptableCert w value := fun ha => hv ((isValidCert_fst w value).2 ha)
      have hf : (isValidCert w value).1 = false := by simpa using hv
      refine ⟨key, value, List.mem_cons_self _ _, hbad, ?_⟩
      simp [certLoop, hf]

/-- The repository loop passes when every URL parses. -/
theorem reposLoop_pass (w : World) (l : List (String × String))
    (h : ∀ e ∈ l, w.parseRequestURI e.2 = true) : reposLoop w l = none := by
  induction l with
  | nil => rfl
  | cons e rest ih =>
    obtain ⟨k, v⟩ := e
    have hv : w.parseRequestURI v = true := h (k, v) (List.mem_cons_self _ _)
    simp only [reposLoop, hv]
    simpa using ih (fun e he => h e (List.mem_cons_of_mem _ he))

/-- The application loop passes exactly when every entry passes in turn. -/
theorem appsLoop_eq_none_iff (w : World) (s : state) (l : List (String × release))
    (names : Names) : appsLoop w s l names = none ↔ allReleasesPass w s l names := by
  induction l generalizing names with
  | nil => simp [appsLoop, allReleasesPass]
  | cons e rest ih =>
    obtain ⟨appLabel, r⟩ := e
    simp only [appsLoop, allReleasesPass]
    cases hres : (w.validateRelease appLabel r names s).1.1 with
    | false => simp
    | true => simpa using ih (w.validateRelease appLabel r names s).2

/-! ## Claims -/

/-- C1: for every document whose settings are zero-valued or have an empty context name,
evaluated while the current-context query fails or prints nothing, `validate` returns
`false` with the "you have not defined a kubeContext" message, whatever the other sections
hold, and leaves the document as it was. -/
theorem validate_no_context (w : World) (s : state)
    (hctx : s.Settings = ({} : config) ∨ s.Settings.KubeContext = "")
    (hnone : (w.exec currentContextCmd).1 ≠ 0 ∨ (w.exec currentContextCmd).2 = "") :
    validate w s =
      (Outcome.returned false
        ("settings validation failed -- you have not defined a kubeContext to use. " ++
          "Either define it in the desired state file or pass a kubeconfig with --kubeconfig to use an existing context."),
        s) := by
  apply validate_settings_fail
  have hk : getKubeContext w = false := by
    simp only [getKubeContext]
    rw [if_pos hnone]
  unfold validateSettings
  rw [if_pos ⟨hctx, hk⟩]
  rfl

/-- Witness for C1: the zero-valued document in a world without an active context. -/
theorem validate_no_context_witness :
    validate bareWorld {} =
      (Outcome.returned false
        ("settings validation failed -- you have not defined a kubeContext to use. " ++
          "Either define it in the desired state file or pass a kubeconfig with --kubeconfig to use an existing context."),
        {}) :=
  validate_no_context bareWorld {} (Or.inl rfl) (Or.inl (by decide))

/-- C2: a document whose settings supply only a context name (no endpoint URI, bearer-token
mode off, no notification endpoint), with no certificates, at least one namespace, every
repository URL a valid URI and a non-empty application map whose entries all pass the
per-application validator, makes `validate` return `(true, "")` and is left as it was. -/
theorem validate_context_only (w : World) (s : state)
    (hname : s.Settings.KubeContext ≠ "")
    (huri : s.Settings.ClusterURI = "")
    (hbearer : s.Settings.BearerToken = false)
    (hslack : s.Settings.SlackWebhook = "")
    (hcerts : s.Certificates.len = 0)
    (hns : s.Namespaces.len ≠ 0)
    (hrepos : ∀ e ∈ s.HelmRepos.entries, w.parseRequestURI e.2 = true)
    (happs : s.Apps.entries ≠ [])
    (hpass : allReleasesPass w s s.Apps.entries []) :
    validate w s = (Outcome.returned true "", s) := by
  have hzero : s.Settings ≠ ({} : config) := fun h => hname (by rw [h])
  have h1 : validateSettings w s = none := by
    simp [validateSettings, hzero, hname, huri, hbearer]
  have h2 : validateSlackWebhook w s = none := by
    simp [validateSlackWebhook, hslack]
  have h3 : validateCertificates w s = (none, s.Certificates) := by
    simp [validateCertificates, hcerts, huri]
  have h4 : validateNamespaces w s = none := by
    have hnil : s.Namespaces.isNil = false := by
      cases hN : s.Namespaces with
      | none => simp [hN, GoMap.len, GoMap.entries] at hns
      | some l => rfl
    simp [validateNamespaces, hnil, hns]
  have h5 : validateRepos w s = none := reposLoop_pass w _ hrepos
  have h6 : validateApps w s = Outcome.returned true "" := by
    have hnil : s.Apps.isNil = false := by
      cases hA : s.Apps with
      | none => simp [hA, GoMap.entries] at happs
      | some l => rfl
    have hloop : appsLoop w s s.Apps.entries [] = none :=
      (appsLoop_eq_none_iff w s _ _).2 hpass
    simp [validateApps, hnil, hloop]
  rw [validate_after_certificates w s h1 h2 (by rw [h3]), h3, h4, h5]
  simp only [state_with_certificates, h6]

/-- Witness for C2: `contextOnlyDoc` in `bareWorld`. -/
theorem validate_context_only_witness :
    validate bareWorld contextOnlyDoc = (Outcome.returned true "", contextOnlyDoc) :=
  validate_context_only bareWorld contextOnlyDoc (by decide) rfl rfl rfl (by decide) (by decide)
    (by decide) (by decide) ⟨rfl, trivial⟩

/-- C3: when the settings and notification checks pass and some certificate value is neither
an existing local file nor a valid URI beginning with `s3://`, `gs://` or `az://`,
`validate` returns `false` and its message names the key of such an entry. -/
theorem validate_rejects_certificate (w : World) (s : state)
    (h1 : validateSettings w s = none) (h2 : validateSlackWebhook w s = none)
    (h : ∃ e ∈ s.Certificates.entries, ¬ acceptableCert w e.2) :
    ∃ key value, (key, value) ∈ s.Certificates.entries ∧ ¬ acceptableCert w value ∧
      (validate w s).1 = Outcome.returned false ("certifications validation failed -- [ " ++ key ++
        " ] must be a valid S3, GCS, AZ bucket/container URL or a valid relative file path.") := by
  obtain ⟨key, value, hmem, hbad, hloop⟩ := certLoop_rejects w s.Certificates.entries s.Certificates h
  refine ⟨key, value, hmem, hbad, ?_⟩
  have hlen : s.Certificates.len ≠ 0 := by
    intro h0
    have : s.Certificates.entries = [] := List.length_eq_zero.1 h0
    rw [this] at hmem
    simp at hmem
  have hnil : s.Certificates.isNil = false := by
    cases hC : s.Certificates with
    | none => simp [hC, GoMap.len, GoMap.entries] at hlen
    | some l => rfl
  have h3 : (validateCertificates w s).1 = some ("certifications validation failed -- [ " ++ key ++
      " ] must be a valid S3, GCS, AZ bucket/container URL or a valid relative file path.") := by
    rcases hc : certLoop w s.Certificates.entries s.Certificates with ⟨o, m⟩
    rw [hc] at hloop
    simp only at hloop
    subst hloop
    simp [validateCertificates, hnil, hlen, hc]
  rw [validate_certificates_fail w s _ h1 h2 h3]

/-- Witness for C3: `badCertDoc`, whose `caCrt` is no file and no bucket. -/
theorem validate_rejects_certificate_witness :
    ∃ key value, (key, value) ∈ badCertDoc.Certificates.entries ∧
      ¬ acceptableCert bareWorld value ∧
      (validate bareWorld badCertDoc).1 =
        Outcome.returned false ("certifications validation failed -- [ " ++ key ++
          " ] must be a valid S3, GCS, AZ bucket/container URL or a valid relative file path.") :=
  validate_rejects_certificate bareWorld badCertDoc (by decide) (by decide)
    ⟨("caCrt", "missing.crt"), by decide, by unfold acceptableCert; decide⟩

/-- C4: `validate` runs its stages in the order settings, notification endpoint,
certificates, namespaces, repositories, applications and stops at the first failure. For
two documents `s` and `s'` with the same settings: whichever stage fails first on `s`, its
message is what `validate` returns on `s'` as soon as `s'` agrees with `s` on the sections
read up to that stage, whatever the later sections of `s'` hold; when the first five stages
pass the outcome is that of the application stage. In particular an unparsable endpoint URI
(the context check passing) yields the clusterURI message whatever the webhook, certificates,
namespaces and repositories are. -/
theorem validate_stage_order (w : World) (s s' : state) (hS : s'.Settings = s.Settings) :
    (∀ msg, validateSettings w s = some msg →
      (validate w s').1 = Outcome.returned false msg) ∧
    (∀ msg, validateSettings w s = none → validateSlackWebhook w s = some msg →
      (validate w s').1 = Outcome.returned false msg) ∧
    (∀ msg, validateSettings w s = none → validateSlackWebhook w s = none →
      (validateCertificates w s).1 = some msg → s'.Certificates = s.Certificates →
      (validate w s').1 = Outcome.returned false msg) ∧
    (∀ msg, validateSettings w s = none → validateSlackWebhook w s = none →
      (validateCertificates w s).1 = none → validateNamespaces w s = some msg →
      s'.Certificates = s.Certificates → s'.Namespaces = s.Namespaces →
      (validate w s').1 = Outcome.returned false msg) ∧
    (∀ msg, validateSettings w s = none → validateSlackWebhook w s = none →
      (validateCertificates w s).1 = none → validateNamespaces w s = none →
      validateRepos w s = some msg →
      s'.Certificates = s.Certificates → s'.Namespaces = s.Namespaces →
      s'.HelmRepos = s.HelmRepos →
      (validate w s').1 = Outcome.returned false msg) ∧
    (validateSettings w s = none → validateSlackWebhook w s = none →
      (validateCertificates w s).1 = none → validateNamespaces w s = none →
      validateRepos w s = none →
      (validate w s).1 = validateApps w { s with Certificates := (validateCertificates w s).2 }) ∧
    ((s.Settings.KubeContext ≠ "" ∨ getKubeContext w = true) →
      s.Settings.ClusterURI ≠ "" → w.parseRequestURI s.Settings.ClusterURI = false →
      (validate w s').1 = Outcome.returned false
        "settings validation failed -- clusterURI must have a valid URL set in an env variable or passed directly. Either the env var is missing/empty or the URL is invalid.") := by
  have e1 := validateSettings_congr w s s' hS
  have e2 := validateSlackWebhook_congr w s s' hS
  refine ⟨?_, ?_, ?_, ?_, ?_, ?_, ?_⟩
  · intro msg h1
    rw [validate_settings_fail w s' msg (e1.trans h1)]
  · intro msg h1 h2
    rw [validate_slack_fail w s' msg (e1.trans h1) (e2.trans h2)]
  · intro msg h1 h2 h3 hC
    have e3 := validateCertificates_congr w s s' hS hC
    rw [validate_certificates_fail w s' msg (e1.trans h1) (e2.trans h2) (by rw [e3]; exact h3)]
  · intro msg h1 h2 h3 h4 hC hN
    have e3 := validateCertificates_congr w s s' hS hC
    have e4 := validateNamespaces_congr w s s' hN
    rw [validate_after_certificates w s' (e1.trans h1) (e2.trans h2) (by rw [e3]; exact h3),
      e4, h4]
  · intro msg h1 h2 h3 h4 h5 hC hN hR
    have e3 := validateCertificates_congr w s s' hS hC
    have e4 := validateNamespaces_congr w s s' hN
    have e5 := validateRepos_congr w s s' hR
    rw [validate_after_certificates w s' (e1.trans h1) (e2.trans h2) (by rw [e3]; exact h3),
      e4, h4, e5, h5]
  · intro h1 h2 h3 h4 h5
    rw [validate_after_certificates w s h1 h2 h3, h4, h5]
  · intro hctx huri hparse
    have hnot : ¬ ((s.Settings = ({} : config) ∨ s.Settings.KubeContext = "") ∧
        getKubeContext w = false) := by
      rintro ⟨hz, hk⟩
      rcases hctx with hname | hactive
      · rcases hz with hz | hz
        · exact hname (by rw [hz])
        · exact hname hz
      · rw [hk] at hactive
        exact Bool.false_ne_true hactive
    have h1 : validateSettings w s = some
        "settings validation failed -- clusterURI must have a valid URL set in an env variable or passed directly. Either the env var is missing/empty or the URL is invalid." := by
      unfold validateSettings
      rw [if_neg hnot, if_pos huri, if_pos hparse]
    rw [validate_settings_fail w s' _ (e1.trans h1)]

/-- Witness for C4: `allBadDoc`, whose every section is invalid, and `badSettingsDoc`, which
has the same settings and valid later sections, both get the clusterURI message. -/
theorem validate_stage_order_witness :
    (validate bareWorld allBadDoc).1 = Outcome.returned false
        "settings validation failed -- clusterURI must have a valid URL set in an env variable or passed directly. Either the env var is missing/empty or the URL is invalid." ∧
    (validate bareWorld badSettingsDoc).1 = Outcome.returned false
        "settings validation failed -- clusterURI must have a valid URL set in an env variable or passed directly. Either the env var is missing/empty or the URL is invalid." :=
  ⟨(validate_stage_order bareWorld allBadDoc allBadDoc rfl).2.2.2.2.2.2
      (Or.inl (by decide)) (by decide) (by decide),
   (validate_stage_order bareWorld allBadDoc badSettingsDoc rfl).1 _ (by decide)⟩

/-! ## Telling the stages' messages apart -/

theorem diverge_append_ne (a b : List Char) (h : diverge a b = true) (x y : List Char) :
    a ++ x ≠ b ++ y := by
  induction a generalizing b with
  | nil => simp [diverge] at h
  | cons c as ih =>
    cases b with
    | nil => simp [diverge] at h
    | cons d bs =>
      simp only [diverge, Bool.or_eq_true, bne_iff_ne, ne_eq] at h
      intro heq
      simp only [List.cons_append, List.cons.injEq] at heq
      rcases h with h | h
      · exact h heq.1
      · exact ih bs h heq.2

theorem append_ne_of_diverge (p q : String) (h : diverge p.data q.data = true) (x y : String) :
    p ++ x ≠ q ++ y := by
  intro heq
  have hd := congrArg String.data heq
  rw [String.data_append, String.data_append] at hd
  exact diverge_append_ne _ _ h _ _ hd

theorem failsWith_exclusive (o : Outcome) (p q : String) (h : diverge p.data q.data = true) :
    o.failsWith p → ¬ o.failsWith q := by
  rintro ⟨x, hx⟩ ⟨y, hy⟩
  rw [hx] at hy
  injection hy with _ hmsg
  exact append_ne_of_diverge p q h x y hmsg

theorem validateNamespaces_msg (w : World) (s : state) (msg : String)
    (h : validateNamespaces w s = some msg) :
    msg = "namespaces validation failed -- I need at least one namespace to work with!" := by
  unfold validateNamespaces at h
  split at h
  · split at h
    · injection h with h; rw [← h]; rfl
    · exact absurd h (by simp)
  · exact absurd h (by simp)

theorem reposLoop_msg (w : World) (l : List (String × String)) (msg : String)
    (h : reposLoop w l = some msg) : ∃ rest, msg = "repos validation failed -- " ++ rest := by
  induction l with
  | nil => simp [reposLoop] at h
  | cons e rest ih =>
    obtain ⟨k, v⟩ := e
    simp only [reposLoop] at h
    split at h
    · injection h with h
      exact ⟨"repo [" ++ k ++ " ] must have a valid URL.", by rw [← h]; simp [String.append_assoc]; rfl⟩
    · exact ih h

theorem appsLoop_msg (w : World) (s : state) (l : List (String × release)) (names : Names)
    (msg : String) (h : appsLoop w s l names = some msg) :
    ∃ rest, msg = "apps validation failed -- " ++ rest := by
  induction l generalizing names with
  | nil => simp [appsLoop] at h
  | cons e rest ih =>
    obtain ⟨appLabel, r⟩ := e
    simp only [appsLoop] at h
    split at h
    · injection h with h
      exact ⟨"for app [" ++ appLabel ++ " ]. " ++ (w.validateRelease appLabel r names s).1.2,
        by rw [← h]; simp [String.append_assoc]; rfl⟩
    · exact ih _ h

/-- What `validate` can return once the first three stages have passed. -/
theorem validate_tail_outcome (w : World) (s : state)
    (h1 : validateSettings w s = none) (h2 : validateSlackWebhook w s = none)
    (h3 : (validateCertificates w s).1 = none) :
    (validate w s).1.failsWith "namespaces validation failed -- " ∨
    (validate w s).1.failsWith "repos validation failed -- " ∨
    (validate w s).1.failsWith "apps validation failed -- " ∨
    (validate w s).1 = Outcome.returned true "" ∨
    (validate w s).1 = Outcome.exited 0 := by
  rw [validate_after_certificates w s h1 h2 h3]
  cases hn : validateNamespaces w s with
  | some msg =>
    left
    rw [validateNamespaces_msg w s msg hn]
    exact ⟨"I need at least one namespace to work with!", rfl⟩
  | none =>
    cases hr : validateRepos w s with
    | some msg =>
      right; left
      obtain ⟨rest, hrest⟩ := reposLoop_msg w _ msg hr
      exact ⟨rest, by rw [hrest]⟩
    | none =>
      right; right
      simp only [validateApps]
      split
      · right; right; rfl
      · split
        · rename_i msg hloop
          left
          obtain ⟨rest, hrest⟩ := appsLoop_msg w _ _ _ msg hloop
          exact ⟨rest, by rw [hrest]⟩
        · right; left; rfl

/-- Writing a key that is present keeps the keys. -/
theorem setEntry_keys {α : Type} (k : String) (v : α) (l : List (String × α))
    (h : k ∈ l.map Prod.fst) : (setEntry k v l).map Prod.fst = l.map Prod.fst := by
  induction l with
  | nil => simp at h
  | cons e rest ih =>
    simp only [setEntry]
    split
    · rename_i he
      simp [he]
    · rename_i he
      have hrest : k ∈ rest.map Prod.fst := by
        simp only [List.map_cons, List.mem_cons] at h
        rcases h with h | h
        · exact absurd h.symm he
        · exact h
      simp [ih hrest]

/-- The certificate loop keeps the keys of the map it writes to. -/
theorem certLoop_keys (w : World) (l : List (String × String)) (m : GoMap String)
    (h : ∀ e ∈ l, e.1 ∈ m.entries.map Prod.fst) :
    (certLoop w l m).2.entries.map Prod.fst = m.entries.map Prod.fst := by
  induction l generalizing m with
  | nil => rfl
  | cons e rest ih =>
    obtain ⟨key, value⟩ := e
    simp only [certLoop]
    split
    · rfl
    · have hkey : key ∈ m.entries.map Prod.fst := h (key, value) (List.mem_cons_self _ _)
      have hk : (m.set key (isValidCert w value).2).entries.map Prod.fst
          = m.entries.map Prod.fst := by
        simp only [GoMap.set, GoMap.entries, Option.getD_some]
        exact setEntry_keys key _ _ hkey
      rw [ih _ (fun e he => by rw [hk]; exact h e (List.mem_cons_of_mem _ he)), hk]

/-- The certificate loop passes when every value is acceptable. -/
theorem certLoop_pass (w : World) (l : List (String × String)) (m : GoMap String)
    (h : ∀ e ∈ l, acceptableCert w e.2) : (certLoop w l m).1 = none := by
  induction l generalizing m with
  | nil => rfl
  | cons e rest ih =>
    obtain ⟨key, value⟩ := e
    have hv : (isValidCert w value).1 = true :=
      (isValidCert_fst w value).2 (h (key, value) (List.mem_cons_self _ _))
    simp only [certLoop, hv]
    simpa using ih _ (fun e he => h e (List.mem_cons_of_mem _ he))

theorem contains_iff_mem_keys {α : Type} (m : GoMap α) (k : String) :
    m.contains k = true ↔ k ∈ m.entries.map Prod.fst := by
  simp [GoMap.contains, List.any_eq_true]

theorem contains_congr {α : Type} (m m' : GoMap α) (k : String)
    (h : m'.entries.map Prod.fst = m.entries.map Prod.fst) : m'.contains k = m.contains k := by
  rw [Bool.eq_iff_iff, contains_iff_mem_keys, contains_iff_mem_keys, h]

/-- Once the first three stages have passed, the message is not a certificate-stage one. -/
theorem validate_tail_not_certificates (w : World) (s : state)
    (h1 : validateSettings w s = none) (h2 : validateSlackWebhook w s = none)
    (h3 : (validateCertificates w s).1 = none) :
    ¬ (validate w s).1.failsWith "certificates validation failed -- " := by
  rcases validate_tail_outcome w s h1 h2 h3 with h | h | h | h | h
  · exact failsWith_exclusive _ _ _ (by decide) h
  · exact failsWith_exclusive _ _ _ (by decide) h
  · exact failsWith_exclusive _ _ _ (by decide) h
  · rintro ⟨rest, hr⟩
    rw [h] at hr
    injection hr with hb _
    exact Bool.noConfusion hb
  · rintro ⟨rest, hr⟩
    rw [h] at hr
    exact Outcome.noConfusion hr

/-- The certificate stage on a document with an endpoint URI whose certificate values are
all acceptable: only the presence of `caCrt` and `caKey` decides. -/
theorem validateCertificates_of_acceptable (w : World) (s : state)
    (huri : s.Settings.ClusterURI ≠ "")
    (hall : ∀ e ∈ s.Certificates.entries, acceptableCert w e.2) :
    (s.Settings.BearerToken = false →
      (((validateCertificates w s).1 = none ∧
          s.Certificates.contains "caCrt" = true ∧ s.Certificates.contains "caKey" = true) ∨
        ((∃ rest, (validateCertificates w s).1 =
            some ("certificates validation failed -- " ++ rest)) ∧
          ¬ (s.Certificates.contains "caCrt" = true ∧ s.Certificates.contains "caKey" = true)))) ∧
    (s.Settings.BearerToken = true →
      (((validateCertificates w s).1 = none ∧ s.Certificates.contains "caCrt" = true) ∨
        ((∃ rest, (validateCertificates w s).1 =
            some ("certificates validation failed -- " ++ rest)) ∧
          s.Certificates.contains "caCrt" = false))) := by
  by_cases hne : s.Certificates.isNil = false ∧ s.Certificates.len ≠ 0
  · -- a declared, non-empty map: the loop passes and keeps the keys
    have hpass := certLoop_pass w s.Certificates.entries s.Certificates hall
    have hkeys := certLoop_keys w s.Certificates.entries s.Certificates
      (fun e he => List.mem_map_of_mem Prod.fst he)
    rcases hc : certLoop w s.Certificates.entries s.Certificates with ⟨o, m⟩
    rw [hc] at hpass hkeys
    simp only at hpass hkeys
    subst hpass
    have hcrt : m.contains "caCrt" = s.Certificates.contains "caCrt" :=
      contains_congr _ _ _ hkeys
    have hkey : m.contains "caKey" = s.Certificates.contains "caKey" :=
      contains_congr _ _ _ hkeys
    constructor
    · intro hb
      simp only [validateCertificates, if_pos hne, hc, hcrt, hkey, hb, huri, ne_eq,
        not_false_eq_true, and_self, if_true]
      cases h1 : s.Certificates.contains "caCrt" <;> cases h2 : s.Certificates.contains "caKey"
      · right; exact ⟨⟨_, rfl⟩, by simp⟩
      · right; exact ⟨⟨_, rfl⟩, by simp⟩
      · right; exact ⟨⟨_, rfl⟩, by simp⟩
      · left; simp
    · intro hb
      simp only [validateCertificates, if_pos hne, hc, hcrt, hb, huri, ne_eq,
        not_false_eq_true, and_self, if_true, and_false, if_false, Bool.true_eq_false]
      cases h1 : s.Certificates.contains "caCrt"
      · right; exact ⟨⟨_, rfl⟩, rfl⟩
      · left; simp
  · -- a nil or empty map: nothing is contained
    have hempty : s.Certificates.entries = [] := by
      cases hC : s.Certificates with
      | none => rfl
      | some l =>
        rw [hC] at hne
        simp only [GoMap.isNil, Option.isNone_some, GoMap.len, GoMap.entries, Option.getD_some,
          true_and, ne_eq, not_not] at hne
        simpa [GoMap.entries] using List.length_eq_zero.1 hne
    have hno : ∀ k, s.Certificates.contains k = false := by
      intro k
      simp [GoMap.contains, hempty]
    have hres : (validateCertificates w s).1 = some ("certificates validation failed -- " ++
        "kube context setup is required but no certificates stanza provided.") := by
      simp only [validateCertificates, if_neg hne, huri, ne_eq, not_false_eq_true, if_true]
      rfl
    constructor
    · intro _
      right
      exact ⟨⟨_, hres⟩, by simp [hno]⟩
    · intro _
      right
      exact ⟨⟨_, hres⟩, hno _⟩

/-- C5 (amended): for every document that passes the settings and notification checks, has
an endpoint URI set and whose certificate values are all acceptable (an existing local file
or a valid bucket URI): with bearer-token mode off, `validate` fails with a "certificates
validation failed" message exactly when `caCrt` or `caKey` is missing (also for an absent or
empty map); with bearer-token mode on, exactly when `caCrt` is missing, `caKey` playing no
part. -/
theorem validate_certificate_requirements (w : World) (s : state)
    (h1 : validateSettings w s = none) (h2 : validateSlackWebhook w s = none)
    (huri : s.Settings.ClusterURI ≠ "")
    (hall : ∀ e ∈ s.Certificates.entries, acceptableCert w e.2) :
    (s.Settings.BearerToken = false →
      ((validate w s).1.failsWith "certificates validation failed -- " ↔
        ¬ (s.Certificates.contains "caCrt" = true ∧ s.Certificates.contains "caKey" = true))) ∧
    (s.Settings.BearerToken = true →
      ((validate w s).1.failsWith "certificates validation failed -- " ↔
        s.Certificates.contains "caCrt" = false)) := by
  have hstage := validateCertificates_of_acceptable w s huri hall
  constructor
  · intro hb
    rcases hstage.1 hb with ⟨hnone, hboth⟩ | ⟨⟨rest, hsome⟩, hmiss⟩
    · constructor
      · intro hf
        exact absurd hf (validate_tail_not_certificates w s h1 h2 hnone)
      · intro hmiss
        exact absurd hboth hmiss
    · constructor
      · intro _
        exact hmiss
      · intro _
        exact ⟨rest, by rw [validate_certificates_fail w s _ h1 h2 hsome]⟩
  · intro hb
    rcases hstage.2 hb with ⟨hnone, hcrt⟩ | ⟨⟨rest, hsome⟩, hmiss⟩
    · constructor
      · intro hf
        exact absurd hf (validate_tail_not_certificates w s h1 h2 hnone)
      · intro hmiss
        rw [hcrt] at hmiss
        exact absurd hmiss (by decide)
    · constructor
      · intro _
        exact hmiss
      · intro _
        exact ⟨rest, by rw [validate_certificates_fail w s _ h1 h2 hsome]⟩

/-- Witness for C5 (amended): a bearer-token document carrying `caCrt` only, on a disk where
the file exists. -/
theorem validate_certificate_requirements_witness :
    ((validate fullDiskWorld bearerDoc).1.failsWith "certificates validation failed -- " ↔
      bearerDoc.Certificates.contains "caCrt" = false) :=
  (validate_certificate_requirements fullDiskWorld bearerDoc (by decide) (by decide)
    (by decide) (by decide)).2 rfl

/-- Counterexample to C5 as stated: in bearer-token mode, past the settings and notification
checks and with an endpoint URI set, `validate` fails although `caCrt` is present (its value
is rejected), and when `caCrt` is missing next to a rejected `caKey` the failure message is
the per-entry one, which is no "certificates validation failed" message. -/
theorem validate_certificate_requirements_counterexample :
    (validateSettings bareWorld bearerBadCrtDoc = none ∧
      validateSlackWebhook bareWorld bearerBadCrtDoc = none ∧
      bearerBadCrtDoc.Settings.ClusterURI ≠ "" ∧
      bearerBadCrtDoc.Settings.BearerToken = true ∧
      bearerBadCrtDoc.Certificates.contains "caCrt" = true ∧
      (validate bareWorld bearerBadCrtDoc).1 = Outcome.returned false
        "certifications validation failed -- [ caCrt ] must be a valid S3, GCS, AZ bucket/container URL or a valid relative file path.") ∧
    (validateSettings bareWorld bearerBadKeyDoc = none ∧
      validateSlackWebhook bareWorld bearerBadKeyDoc = none ∧
      bearerBadKeyDoc.Settings.ClusterURI ≠ "" ∧
      bearerBadKeyDoc.Settings.BearerToken = true ∧
      bearerBadKeyDoc.Certificates.contains "caCrt" = false ∧
      (validate bareWorld bearerBadKeyDoc).1 = Outcome.returned false
        "certifications validation failed -- [ caKey ] must be a valid S3, GCS, AZ bucket/container URL or a valid relative file path." ∧
      ¬ (validate bareWorld bearerBadKeyDoc).1.failsWith "certificates validation failed -- ") := by
  have hkey : (validate bareWorld bearerBadKeyDoc).1 = Outcome.returned false
      ("certifications validation failed -- " ++ "[ caKey ] must be a valid S3, GCS, AZ bucket/container URL or a valid relative file path.") := by
    decide
  refine ⟨⟨by decide, by decide, by decide, rfl, by decide, by decide⟩,
    ⟨by decide, by decide, by decide, rfl, by decide, by decide, ?_⟩⟩
  exact failsWith_exclusive _ _ _ (by decide) ⟨_, hkey⟩


/-- C6: past stages 1 to 5, a missing (nil) application map makes `validate` end the run
with status 0, whereas a declared but empty application map makes it return `(true, "")`,
so the run goes on. -/
theorem validate_empty_apps (w : World) (s : state)
    (h1 : validateSettings w s = none) (h2 : validateSlackWebhook w s = none)
    (h3 : (validateCertificates w s).1 = none) (h4 : validateNamespaces w s = none)
    (h5 : validateRepos w s = none) :
    (s.Apps = none → (validate w s).1 = Outcome.exited 0) ∧
    (s.Apps = some [] → (validate w s).1 = Outcome.returned true "") := by
  rw [validate_after_certificates w s h1 h2 h3, h4, h5]
  constructor
  · intro hA
    simp [validateApps, hA, GoMap.isNil]
  · intro hA
    simp [validateApps, hA, GoMap.isNil, GoMap.entries, appsLoop]

/-- Evaluation for C6: the same document, once without an application map and once with a
declared but empty one. -/
theorem validate_empty_apps_witness :
    (validate bareWorld nilAppsDoc).1 = Outcome.exited 0 ∧
    (validate bareWorld emptyAppsDoc).1 = Outcome.returned true "" :=
  ⟨(validate_empty_apps bareWorld nilAppsDoc (by decide) (by decide) (by decide) (by decide)
      (by decide)).1 rfl,
   (validate_empty_apps bareWorld emptyAppsDoc (by decide) (by decide) (by decide) (by decide)
      (by decide)).2 rfl⟩

theorem certLoop_msg (w : World) (l : List (String × String)) (m : GoMap String) (msg : String)
    (h : (certLoop w l m).1 = some msg) :
    ∃ rest, msg = "certifications validation failed -- " ++ rest := by
  induction l generalizing m with
  | nil => simp [certLoop] at h
  | cons e rest ih =>
    obtain ⟨key, value⟩ := e
    simp only [certLoop] at h
    split at h
    · simp only [Option.some.injEq] at h
      exact ⟨"[ " ++ key ++
          " ] must be a valid S3, GCS, AZ bucket/container URL or a valid relative file path.",
        by rw [← h]; simp [String.append_assoc]; rfl⟩
    · exact ih _ h

theorem validateCertificates_msg (w : World) (s : state) (msg : String)
    (h : (validateCertificates w s).1 = some msg) :
    (∃ rest, msg = "certifications validation failed -- " ++ rest) ∨
    (∃ rest, msg = "certificates validation failed -- " ++ rest) := by
  unfold validateCertificates at h
  split at h
  · split at h
    · rename_i m' msg' hc
      simp only [Option.some.injEq] at h
      left
      subst h
      exact certLoop_msg w _ _ _ (by rw [hc])
    · right
      simp only at h
      split at h
      · split at h
        · simp only [Option.some.injEq] at h
          exact ⟨_, by rw [← h]; rfl⟩
        · exact absurd h (by simp)
      · split at h
        · split at h
          · simp only [Option.some.injEq] at h
            exact ⟨_, by rw [← h]; rfl⟩
          · exact absurd h (by simp)
        · exact absurd h (by simp)
  · right
    split at h
    · simp only [Option.some.injEq] at h
      exact ⟨"kube context setup is required but no certificates stanza provided.",
        by rw [← h]; rfl⟩
    · exact absurd h (by simp)

/-- What `validate` can return once the settings stage has passed. -/
theorem validate_after_settings_outcome (w : World) (s : state)
    (h1 : validateSettings w s = none) :
    (validate w s).1.failsWith "settings validation failed -- slackWebhook" ∨
    (validate w s).1.failsWith "certifications validation failed -- " ∨
    (validate w s).1.failsWith "certificates validation failed -- " ∨
    (validate w s).1.failsWith "namespaces validation failed -- " ∨
    (validate w s).1.failsWith "repos validation failed -- " ∨
    (validate w s).1.failsWith "apps validation failed -- " ∨
    (validate w s).1 = Outcome.returned true "" ∨
    (validate w s).1 = Outcome.exited 0 := by
  cases h2 : validateSlackWebhook w s with
  | some msg =>
    left
    rw [validate_slack_fail w s msg h1 h2]
    unfold validateSlackWebhook at h2
    split at h2
    · split at h2
      · simp only [Option.some.injEq] at h2
        exact ⟨" must be a valid URL.", by rw [← h2]; rfl⟩
      · exact absurd h2 (by simp)
    · exact absurd h2 (by simp)
  | none =>
    cases h3 : (validateCertificates w s).1 with
    | some msg =>
      rw [validate_certificates_fail w s msg h1 h2 h3]
      rcases validateCertificates_msg w s msg h3 with ⟨rest, hr⟩ | ⟨rest, hr⟩
      · right; left; exact ⟨rest, by rw [hr]⟩
      · right; right; left; exact ⟨rest, by rw [hr]⟩
    | none =>
      right; right; right
      exact validate_tail_outcome w s h1 h2 h3

/-- C7: for every document with a context name, a valid endpoint URI, bearer-token mode on
and a non-empty bearer-token path (of any form), `validate` fails with the "bearer token
path ... is not found" message exactly when the path does not exist on the local disk, and
the settings stage passes when it exists. -/
theorem validate_bearer_token_path (w : World) (s : state)
    (hname : s.Settings.KubeContext ≠ "")
    (huri : s.Settings.ClusterURI ≠ "")
    (hparse : w.parseRequestURI s.Settings.ClusterURI = true)
    (hb : s.Settings.BearerToken = true)
    (hpath : s.Settings.BearerTokenPath ≠ "") :
    ((validate w s).1 = Outcome.returned false
        ("settings validation failed -- bearer token path " ++ s.Settings.BearerTokenPath ++
          " is not found. The path has to be relative to the desired state file.") ↔
      w.statOk s.Settings.BearerTokenPath = false) ∧
    (w.statOk s.Settings.BearerTokenPath = true → validateSettings w s = none) := by
  have hzero : s.Settings ≠ ({} : config) := fun h => hname (by rw [h])
  have hpass : w.statOk s.Settings.BearerTokenPath = true → validateSettings w s = none := by
    intro hstat
    simp [validateSettings, hzero, hname, huri, hparse, hb, hpath, hstat]
  refine ⟨⟨?_, ?_⟩, hpass⟩
  · intro hret
    cases hstat : w.statOk s.Settings.BearerTokenPath with
    | false => rfl
    | true =>
      exfalso
      have hf : (validate w s).1.failsWith "settings validation failed -- bearer token path " :=
        ⟨s.Settings.BearerTokenPath ++
            " is not found. The path has to be relative to the desired state file.",
          by rw [hret, String.append_assoc]⟩
      rcases validate_after_settings_outcome w s (hpass hstat) with h | h | h | h | h | h | h | h
      · exact failsWith_exclusive _ _ _ (by decide) hf h
      · exact failsWith_exclusive _ _ _ (by decide) hf h
      · exact failsWith_exclusive _ _ _ (by decide) hf h
      · exact failsWith_exclusive _ _ _ (by decide) hf h
      · exact failsWith_exclusive _ _ _ (by decide) hf h
      · exact failsWith_exclusive _ _ _ (by decide) hf h
      · rw [h] at hret
        injection hret with hbool _
        exact Bool.noConfusion hbool
      · rw [h] at hret
        exact Outcome.noConfusion hret
  · intro hstat
    apply congrArg Prod.fst (validate_settings_fail w s _ _)
    simp [validateSettings, hzero, hname, huri, hparse, hb, hpath, hstat]

/-- Witness for C7: a token path in bucket form is not found on an empty disk. -/
theorem validate_bearer_token_path_witness :
    (validate bareWorld tokenPathDoc).1 = Outcome.returned false
      ("settings validation failed -- bearer token path " ++ "s3://bucket/token" ++
        " is not found. The path has to be relative to the desired state file.") ∧
    validateSettings fullDiskWorld tokenPathDoc = none :=
  ⟨(validate_bearer_token_path bareWorld tokenPathDoc (by decide) (by decide) (by decide) rfl
      (by decide)).1.2 (by decide),
   (validate_bearer_token_path fullDiskWorld tokenPathDoc (by decide) (by decide) (by decide) rfl
      (by decide)).2 (by decide)⟩

/-- C8: for every document that passes the settings, notification and certificate checks:
without a namespace override, a nil or empty namespace map makes `validate` return `false`
with the "I need at least one namespace to work with!" message; with an override the
namespace stage passes whatever the map holds and `validate` does not return a namespace
failure. -/
theorem validate_namespaces (w : World) (s : state)
    (h1 : validateSettings w s = none) (h2 : validateSlackWebhook w s = none)
    (h3 : (validateCertificates w s).1 = none) :
    (w.nsOverride = "" → (s.Namespaces.isNil = true ∨ s.Namespaces.len = 0) →
      (validate w s).1 = Outcome.returned false
        "namespaces validation failed -- I need at least one namespace to work with!") ∧
    (w.nsOverride ≠ "" →
      validateNamespaces w s = none ∧
      ¬ (validate w s).1.failsWith "namespaces validation failed -- ") := by
  constructor
  · intro hov hempty
    have h4 : validateNamespaces w s =
        some "namespaces validation failed -- I need at least one namespace to work with!" := by
      unfold validateNamespaces
      rw [if_pos hov, if_pos hempty]
      rfl
    rw [validate_after_certificates w s h1 h2 h3, h4]
  · intro hov
    have h4 : validateNamespaces w s = none := by
      unfold validateNamespaces
      rw [if_neg hov]
    refine ⟨h4, ?_⟩
    rw [validate_after_certificates w s h1 h2 h3, h4]
    cases hr : validateRepos w s with
    | some msg =>
      obtain ⟨rest, hrest⟩ := reposLoop_msg w _ msg hr
      have hf : (Outcome.returned false msg).failsWith "repos validation failed -- " :=
        ⟨rest, by rw [hrest]⟩
      exact fun hn => failsWith_exclusive _ _ _ (by decide) hf hn
    | none =>
      simp only [validateApps]
      split
      · rintro ⟨rest, hr⟩
        exact Outcome.noConfusion hr
      · split
        · rename_i msg hloop
          obtain ⟨rest, hrest⟩ := appsLoop_msg w _ _ _ msg hloop
          have hf : (Outcome.returned false msg).failsWith "apps validation failed -- " :=
            ⟨rest, by rw [hrest]⟩
          exact fun hn => failsWith_exclusive _ _ _ (by decide) hf hn
        · rintro ⟨rest, hr⟩
          injection hr with hbool _
          exact Bool.noConfusion hbool

/-- Witness for C8: a document without namespaces fails without an override and passes the
namespace stage with one. -/
theorem validate_namespaces_witness :
    (validate bareWorld noNamespaceDoc).1 = Outcome.returned false
        "namespaces validation failed -- I need at least one namespace to work with!" ∧
    (validateNamespaces overrideWorld noNamespaceDoc = none ∧
      ¬ (validate overrideWorld noNamespaceDoc).1.failsWith "namespaces validation failed -- ") :=
  ⟨(validate_namespaces bareWorld noNamespaceDoc (by decide) (by decide) (by decide)).1 rfl
      (Or.inl rfl),
   (validate_namespaces overrideWorld noNamespaceDoc (by decide) (by decide) (by decide)).2
      (by decide)⟩

/-- Writing to a key the value it already has changes nothing in a list with distinct keys. -/
theorem setEntry_self {α : Type} (k : String) (v : α) (l : List (String × α))
    (hnd : (l.map Prod.fst).Nodup) (hmem : (k, v) ∈ l) : setEntry k v l = l := by
  induction l with
  | nil => simp at hmem
  | cons e rest ih =>
    simp only [List.map_cons, List.nodup_cons] at hnd
    simp only [setEntry]
    split
    · rename_i he
      rcases List.mem_cons.1 hmem with h | h
      · rw [h]
      · exfalso
        apply hnd.1
        rw [he]
        exact List.mem_map_of_mem Prod.fst h
    · rename_i he
      rcases List.mem_cons.1 hmem with h | h
      · exfalso
        apply he
        rw [← h]
      · rw [ih hnd.2 h]

/-- The certificate loop leaves a map with distinct keys as it found it. -/
theorem certLoop_map (w : World) (l l0 : List (String × String))
    (hnd : (l0.map Prod.fst).Nodup) (hsub : ∀ e ∈ l, e ∈ l0) :
    (certLoop w l (some l0)).2 = some l0 := by
  induction l with
  | nil => rfl
  | cons e rest ih =>
    obtain ⟨key, value⟩ := e
    simp only [certLoop]
    split
    · rfl
    · rename_i hv
      have hacc : (isValidCert w value).1 = true := by simpa using hv
      have hset : GoMap.set (some l0) key (isValidCert w value).2 = some l0 := by
        rw [isValidCert_snd w value hacc]
        simp only [GoMap.set, GoMap.entries, Option.getD_some]
        rw [setEntry_self key value l0 hnd (hsub (key, value) (List.mem_cons_self _ _))]
      rw [hset]
      exact ih (fun e he => hsub e (List.mem_cons_of_mem _ he))

/-- The map the certificate stage hands back is the one it got or the one its loop wrote. -/
theorem validateCertificates_snd (w : World) (s : state) :
    (validateCertificates w s).2 = s.Certificates ∨
      (validateCertificates w s).2 = (certLoop w s.Certificates.entries s.Certificates).2 := by
  unfold validateCertificates
  split
  · right
    split
    · rename_i msg m hc
      rw [hc]
    · rename_i m hc
      rw [hc]
      dsimp only
      split
      · split <;> rfl
      · split
        · split <;> rfl
        · rfl
  · left
    split <;> rfl

/-- The certificate stage keeps the keys of the certificate map. -/
theorem validateCertificates_keys (w : World) (s : state) :
    (validateCertificates w s).2.entries.map Prod.fst = s.Certificates.entries.map Prod.fst := by
  rcases validateCertificates_snd w s with h | h
  · rw [h]
  · rw [h]
    exact certLoop_keys w _ _ (fun e he => List.mem_map_of_mem Prod.fst he)

/-- The certificate stage leaves a map with distinct keys as it found it. -/
theorem validateCertificates_map (w : World) (s : state) (hwf : s.Certificates.WellFormed) :
    (validateCertificates w s).2 = s.Certificates := by
  rcases validateCertificates_snd w s with h | h
  · exact h
  · rw [h]
    cases hC : s.Certificates with
    | none => rfl
    | some l0 =>
      have hnd : (l0.map Prod.fst).Nodup := by
        simpa [GoMap.WellFormed, GoMap.entries, hC] using hwf
      simpa [GoMap.entries] using certLoop_map w l0 l0 hnd (fun e he => he)

/-- Whatever the outcome, `validate` hands back the document with only the certificate map
possibly rewritten, by the certificate stage. -/
theorem validate_snd (w : World) (s : state) :
    (validate w s).2 = s ∨
      (validate w s).2 = { s with Certificates := (validateCertificates w s).2 } := by
  unfold validate
  split
  · left; rfl
  · split
    · left; rfl
    · split
      · rename_i msg m hc
        right
        rw [hc]
      · rename_i m hc
        right
        rw [hc]
        simp only
        split
        · rfl
        · split <;> rfl

/-- C9 (amended): `validate` has no side effect on the document. For every document and
whatever the outcome, every field other than `Certificates` is unchanged and the certificate
map keeps its key set; when its keys are pairwise distinct (as the keys of a map are), the
certificate map is unchanged as well, so that an accepted value equals its resolved form
(the original text) and a rejected value stays as it was. -/
theorem validate_frame (w : World) (s : state) :
    ({ (validate w s).2 with Certificates := s.Certificates } : state) = s ∧
    (validate w s).2.Certificates.entries.map Prod.fst = s.Certificates.entries.map Prod.fst ∧
    (s.Certificates.WellFormed → (validate w s).2 = s) ∧
    (∀ e ∈ s.Certificates.entries, acceptableCert w e.2 → isValidCert w e.2 = (true, e.2)) := by
  refine ⟨?_, ?_, ?_, ?_⟩
  · rcases validate_snd w s with h | h <;> rw [h]
  · rcases validate_snd w s with h | h
    · rw [h]
    · rw [h]
      exact validateCertificates_keys w s
  · intro hwf
    rcases validate_snd w s with h | h
    · exact h
    · rw [h, validateCertificates_map w s hwf]
  · intro e _ hacc
    have h1 : (isValidCert w e.2).1 = true := (isValidCert_fst w e.2).2 hacc
    exact Prod.ext h1 (isValidCert_snd w e.2 h1)

/-- Witness for C9 (amended): the document with a rejected certificate is handed back as it
was. -/
theorem validate_frame_witness : (validate bareWorld badCertDoc).2 = badCertDoc :=
  (validate_frame bareWorld badCertDoc).2.2.1 (by unfold GoMap.WellFormed; decide)

/-- Counterexample to C9 as stated: after `validate` the rejected certificate value is still
the original text, while the resolved form `isValidCert` returns for it is the empty text. -/
theorem validate_frame_counterexample :
    (validate bareWorld badCertDoc).2.Certificates = some [("caCrt", "missing.crt")] ∧
    isValidCert bareWorld "missing.crt" = (false, "") ∧
    "missing.crt" ≠ (isValidCert bareWorld "missing.crt").2 := by
  decide

/-- A one-character text occurs in a text exactly when the character does. -/
theorem containsChars_singleton (c : Char) (l : List Char) :
    containsChars [c] l = true ↔ c ∈ l := by
  induction l with
  | nil => simp [containsChars]
  | cons d rest ih =>
    simp only [containsChars, Bool.or_eq_true, ih, List.mem_cons]
    constructor
    · rintro (h | h)
      · left
        simp only [List.isPrefixOf, Bool.and_eq_true, beq_iff_eq] at h
        exact h.1
      · right; exact h
    · rintro (h | h)
      · left
        simp [List.isPrefixOf, h]
      · right; exact h

/-- C10: for every text that does not contain the character `$` and every environment,
`substituteEnv` returns the text unchanged and leaves the environment as it was. -/
theorem substituteEnv_no_dollar (env : Env) (name : String) (h : '$' ∉ name.data) :
    substituteEnv env name = (name, env) := by
  have hc : stringsContains name "$" = false := by
    rw [Bool.eq_false_iff]
    intro hcon
    exact h ((containsChars_singleton '$' name.data).1 hcon)
  simp [substituteEnv, hc]

/-- Witness for C10: a text without `$` in an environment that binds `HELMSMAN_DOLLAR`. -/
theorem substituteEnv_no_dollar_witness :
    substituteEnv [("HOME", "/root"), ("HELMSMAN_DOLLAR", "1")] "kubeContext: minikube" =
      ("kubeContext: minikube", [("HOME", "/root"), ("HELMSMAN_DOLLAR", "1")]) :=
  substituteEnv_no_dollar _ _ (by decide)

/-! ## Environment substitution: the escape -/

theorem replaceChars_no_dollar (new : List Char) (n : Nat) (v : List Char) (h : '$' ∉ v) :
    replaceChars ['$', '$'] new n v = v := by
  induction v generalizing n with
  | nil => cases n <;> rfl
  | cons c rest ih =>
    cases n with
    | zero => rfl
    | succ n =>
      have hc : c ≠ '$' := fun e => h (by simp [e])
      have hr : '$' ∉ rest := fun e => h (List.mem_cons_of_mem _ e)
      have hp : List.isPrefixOf ['$', '$'] (c :: rest) = false := by
        simp [List.isPrefixOf, Ne.symm hc]
      simp only [replaceChars, hp]
      simp [ih n hr]

theorem expandChars_no_dollar (mapping : String → String) (n : Nat) (v : List Char)
    (h : '$' ∉ v) : expandChars mapping n v = v := by
  induction v generalizing n with
  | nil => cases n <;> rfl
  | cons c rest ih =>
    cases n with
    | zero => rfl
    | succ n =>
      have hc : c ≠ '$' := fun e => h (by simp [e])
      have hr : '$' ∉ rest := fun e => h (List.mem_cons_of_mem _ e)
      simp only [expandChars, hc, false_and, if_false]
      rw [ih n hr]

theorem getenv_setenv (env : Env) (k v : String) : (env.setenv k v).getenv k = v := by
  induction env with
  | nil => simp [Env.setenv, setEntry, Env.getenv]
  | cons e rest ih =>
    simp only [Env.setenv, setEntry]
    split
    · simp [Env.getenv]
    · rename_i he
      simp only [Env.getenv, List.find?_cons, he, decide_False]
      exact ih

theorem getShellName_dollar (v : List Char) :
    getShellName ("\x7bHELMSMAN_DOLLAR\x7d".data ++ v) = ("HELMSMAN_DOLLAR".data, 17) := by
  simp [getShellName, List.indexOf?, List.findIdx?_cons, isShellSpecialVar]

/-- C13: `$$` escapes a literal marker. For every environment and every text `v` free of `$`
(every variable name is), `substituteEnv` turns `"$$" ++ v` into the literal `"$" ++ v`: the
escaped marker comes out as one `$` and `v` is not expanded, whatever the environment held
for `HELMSMAN_DOLLAR` before; the call leaves that variable set to `$`. -/
theorem substituteEnv_escape (env : Env) (v : String) (h : '$' ∉ v.data) :
    substituteEnv env ("$$" ++ v) = ("$" ++ v, env.setenv "HELMSMAN_DOLLAR" "$") := by
  have hc : stringsContains ("$$" ++ v) "$" = true := by
    simp [stringsContains, containsChars, List.isPrefixOf]
  have hrep : stringsReplaceAll ("$$" ++ v) "$$" "${HELMSMAN_DOLLAR}" = "${HELMSMAN_DOLLAR}" ++ v := by
    apply String.ext
    simp only [stringsReplaceAll, String.data_append]
    simp [replaceChars, List.isPrefixOf, replaceChars_no_dollar _ _ _ h]
  have hexp : osExpandEnv (env.setenv "HELMSMAN_DOLLAR" "$") ("${HELMSMAN_DOLLAR}" ++ v)
      = "$" ++ v := by
    apply String.ext
    simp only [osExpandEnv, String.data_append]
    have hlen : ("${HELMSMAN_DOLLAR}".data ++ v.data).length = (v.data.length + 17) + 1 := by
      simp
    have hsplit : "${HELMSMAN_DOLLAR}".data ++ v.data = '$' :: ("\x7bHELMSMAN_DOLLAR\x7d".data ++ v.data) := rfl
    rw [hlen, hsplit]
    simp only [expandChars]
    rw [getShellName_dollar]
    have hname : String.mk "HELMSMAN_DOLLAR".data = "HELMSMAN_DOLLAR" := rfl
    simp only [hname, getenv_setenv]
    have hdrop : List.drop 17 ("\x7bHELMSMAN_DOLLAR\x7d".data ++ v.data) = v.data := by
      simp
    rw [hdrop, expandChars_no_dollar _ _ _ h]
    simp
  simp only [substituteEnv, hc, if_true, hrep, hexp]

/-- Witness for C13: `$$HOME` with `HOME` set and `HELMSMAN_DOLLAR` bound to something else. -/
theorem substituteEnv_escape_witness :
    substituteEnv [("HELMSMAN_DOLLAR", "x"), ("HOME", "/root")] ("$$" ++ "HOME") =
      ("$" ++ "HOME", Env.setenv [("HELMSMAN_DOLLAR", "x"), ("HOME", "/root")] "HELMSMAN_DOLLAR" "$") :=
  substituteEnv_escape _ _ (by decide)

/-! ## Remote-parameter substitution: texts without a complete placeholder -/

theorem eq_append_of_isPrefixOf (p s : List Char) (h : p.isPrefixOf s = true) :
    s = p ++ s.drop p.length := by
  obtain ⟨t, ht⟩ := List.isPrefixOf_iff_prefix.1 h
  rw [← ht]
  simp

theorem takeWhile_ssmNameChar (l : List Char) :
    ∀ c ∈ l.takeWhile ssmNameChar, c ≠ '~' ∧ c ≠ '}' := by
  intro c hc
  have := List.mem_takeWhile_imp hc
  simpa [ssmNameChar] using this

/-- What the matcher reports is a complete placeholder that begins the text. -/
theorem matchSSMAt_sound (s : List Char) (m : ssmMatch) (after : List Char)
    (h : matchSSMAt s = some (m, after)) :
    isPlaceholder m.whole.data ∧ s = m.whole.data ++ after := by
  unfold matchSSMAt at h
  split at h
  · rename_i hpre
    have hs := eq_append_of_isPrefixOf _ _ hpre
    have hrun := List.takeWhile_append_dropWhile ssmNameChar (s.drop 7)
    have hlen : "\x7b\x7bssm: ".data.length = 7 := rfl
    rw [hlen] at hs
    simp only at h
    split at h
    · exact absurd h (by simp)
    · rename_i hne
      split at h
      · rename_i hopt
        have hrest := eq_append_of_isPrefixOf _ _ hopt
        have hlen2 : "~true\x7d\x7d".data.length = 7 := rfl
        rw [hlen2] at hrest
        simp only [Option.some.injEq, Prod.mk.injEq] at h
        obtain ⟨hm, hafter⟩ := h
        subst hm
        refine ⟨⟨_, hne, takeWhile_ssmNameChar _, Or.inr rfl⟩, ?_⟩
        rw [← hafter]
        simp only [List.append_assoc]
        rw [← hrest, hrun]
        exact hs
      · split at h
        · rename_i hopt
          have hrest := eq_append_of_isPrefixOf _ _ hopt
          have hlen2 : "\x7d\x7d".data.length = 2 := rfl
          rw [hlen2] at hrest
          simp only [Option.some.injEq, Prod.mk.injEq] at h
          obtain ⟨hm, hafter⟩ := h
          subst hm
          refine ⟨⟨_, hne, takeWhile_ssmNameChar _, Or.inl rfl⟩, ?_⟩
          rw [← hafter]
          simp only [List.append_assoc]
          rw [← hrest, hrun]
          exact hs
        · exact absurd h (by simp)
  · exact absurd h (by simp)

/-- A text in which the matcher finds something contains a complete placeholder. -/
theorem hasPlaceholder_of_findAllSSM (fuel : Nat) (s : List Char)
    (h : findAllSSM fuel s ≠ []) : hasPlaceholder s := by
  induction fuel generalizing s with
  | zero => simp [findAllSSM] at h
  | succ n ih =>
    cases s with
    | nil => simp [findAllSSM] at h
    | cons c rest =>
      simp only [findAllSSM] at h
      cases hm : matchSSMAt (c :: rest) with
      | some r =>
        obtain ⟨m, after⟩ := r
        obtain ⟨hp, hs⟩ := matchSSMAt_sound _ _ _ hm
        exact ⟨[], m.whole.data, after, hp, by simpa using hs⟩
      | none =>
        rw [hm] at h
        obtain ⟨pre, p, suf, hp, hs⟩ := ih rest h
        exact ⟨c :: pre, p, suf, hp, by rw [hs]; simp⟩

/-- A complete placeholder holds a closing brace. -/
theorem mem_brace_of_hasPlaceholder (t : List Char) (h : hasPlaceholder t) : '}' ∈ t := by
  obtain ⟨pre, p, suf, ⟨nm, _, _, hp⟩, ht⟩ := h
  rw [ht]
  rcases hp with hp | hp <;> rw [hp] <;> simp

/-- C12: for every text in which the placeholder pattern never matches completely (a text
without `{{ssm: `, or with a placeholder whose closing braces are missing) and every
parameter store, `substituteSSM` returns the text as it is and fetches no parameter. -/
theorem substituteSSM_no_placeholder (store : ParamStore) (name : String)
    (h : ¬ hasPlaceholder name.data) : substituteSSM store name = (some name, []) := by
  unfold substituteSSM
  split
  · have hnone : findAllSSM name.data.length name.data = [] := by
      by_contra hne
      exact h (hasPlaceholder_of_findAllSSM _ _ hne)
    rw [hnone]
    rfl
  · rfl

/-- Witness for C12: a placeholder whose closing braces are missing. -/
theorem substituteSSM_no_placeholder_witness :
    substituteSSM plainStore "password: \x7b\x7bssm: /prod/db/password" =
      (some "password: \x7b\x7bssm: /prod/db/password", []) :=
  substituteSSM_no_placeholder plainStore _
    (fun h => absurd (mem_brace_of_hasPlaceholder _ h) (by decide))

/-! ## Remote-parameter substitution on texts cut into pieces -/

theorem Piece.render_ph_cons (nm : List Char) (dec : Bool) :
    (Piece.ph nm dec).render =
      '{' :: '{' :: ("ssm: ".data ++ nm ++ (if dec then "~true\x7d\x7d".data else "\x7d\x7d".data)) := by
  cases dec <;> rfl

theorem isPlaceholder_render (nm : List Char) (dec : Bool) (hne : nm ≠ [])
    (hnm : ∀ c ∈ nm, c ≠ '~' ∧ c ≠ '}') : isPlaceholder (Piece.ph nm dec).render := by
  refine ⟨nm, hne, hnm, ?_⟩
  cases dec
  · exact Or.inl (by simp [Piece.render])
  · exact Or.inr (by simp [Piece.render])

/-- A placeholder begins with the opening text. -/
theorem opening_of_isPlaceholder (p s : List Char) (hp : isPlaceholder p)
    (h : p.isPrefixOf s = true) : "\x7b\x7bssm: ".data.isPrefixOf s = true := by
  obtain ⟨nm, _, _, hp⟩ := hp
  obtain ⟨z, hz⟩ := List.isPrefixOf_iff_prefix.1 h
  apply List.isPrefixOf_iff_prefix.2
  rcases hp with hp | hp
  · exact ⟨nm ++ "\x7d\x7d".data ++ z, by rw [← hz, hp]; simp⟩
  · exact ⟨nm ++ "~true\x7d\x7d".data ++ z, by rw [← hz, hp]; simp⟩

theorem takeWhile_name (nm : List Char) (dec : Bool) (rest : List Char)
    (hnm : ∀ c ∈ nm, c ≠ '~' ∧ c ≠ '}') :
    List.takeWhile ssmNameChar (nm ++ ((if dec then "~true\x7d\x7d".data else "\x7d\x7d".data) ++ rest)) = nm := by
  rw [List.takeWhile_append_of_pos (fun c hc => by simpa [ssmNameChar] using hnm c hc)]
  cases dec <;> simp [List.takeWhile, ssmNameChar]

theorem dropWhile_name (nm : List Char) (dec : Bool) (rest : List Char)
    (hnm : ∀ c ∈ nm, c ≠ '~' ∧ c ≠ '}') :
    List.dropWhile ssmNameChar (nm ++ ((if dec then "~true\x7d\x7d".data else "\x7d\x7d".data) ++ rest)) =
      (if dec then "~true\x7d\x7d".data else "\x7d\x7d".data) ++ rest := by
  rw [List.dropWhile_append_of_pos (fun c hc => by simpa [ssmNameChar] using hnm c hc)]
  cases dec <;> simp [List.dropWhile, ssmNameChar]

/-- A placeholder is the text of a placeholder piece with a name the pattern admits. -/
theorem render_of_isPlaceholder (p : List Char) (hp : isPlaceholder p) :
    ∃ (nm : List Char) (dec : Bool), nm ≠ [] ∧ (∀ c ∈ nm, c ≠ '~' ∧ c ≠ '}') ∧
      p = "\x7b\x7bssm: ".data ++
        (nm ++ (if dec then "~true\x7d\x7d".data else "\x7d\x7d".data)) := by
  obtain ⟨nm, hne, hnm, hp⟩ := hp
  rcases hp with hp | hp
  · exact ⟨nm, false, hne, hnm, by rw [hp]; simp⟩
  · exact ⟨nm, true, hne, hnm, by rw [hp]; simp⟩

theorem takeWhile_run (r t : List Char) (h : r.dropWhile ssmNameChar ≠ []) :
    (r ++ t).takeWhile ssmNameChar = r.takeWhile ssmNameChar ∧
    (r ++ t).dropWhile ssmNameChar = r.dropWhile ssmNameChar ++ t := by
  induction r with
  | nil => simp at h
  | cons c rest ih =>
    by_cases hc : ssmNameChar c = true
    · have h' : rest.dropWhile ssmNameChar ≠ [] := by
        simpa [List.dropWhile, hc] using h
      obtain ⟨h1, h2⟩ := ih h'
      simp [List.takeWhile, List.dropWhile, hc, h1, h2]
    · simp [List.takeWhile, List.dropWhile, hc]

/-- A text whose every end is settled is inert. -/
theorem inert_of_settled (cs : List Char) (h : settled cs) : inert cs := by
  intro i t p hi hp
  rw [Bool.eq_false_iff]
  intro hpre
  have hopen := opening_of_isPlaceholder p _ hp hpre
  have hs := h i hi
  unfold settledAt at hs
  split at hs
  · rename_i hU
    obtain ⟨nm, dec, hne, hnm, hrender⟩ := render_of_isPlaceholder p hp
    obtain ⟨hrest, hblock⟩ := hs
    have hsplit := eq_append_of_isPrefixOf _ _ hU
    have hlen : "\x7b\x7bssm: ".data.length = 7 := rfl
    rw [hlen] at hsplit
    obtain ⟨z, hz⟩ := List.isPrefixOf_iff_prefix.1 hpre
    have hz2 : nm ++ ((if dec then "~true\x7d\x7d".data else "\x7d\x7d".data) ++ z) =
        (cs.drop i).drop 7 ++ t := by
      have h3 : "\x7b\x7bssm: ".data ++
          (nm ++ ((if dec then "~true\x7d\x7d".data else "\x7d\x7d".data) ++ z)) =
          "\x7b\x7bssm: ".data ++ ((cs.drop i).drop 7 ++ t) := by
        have e1 : "\x7b\x7bssm: ".data ++
            (nm ++ ((if dec then "~true\x7d\x7d".data else "\x7d\x7d".data) ++ z)) = p ++ z := by
          rw [hrender]
          simp
        rw [e1, hz]
        conv_lhs => rw [hsplit]
        simp
      exact List.append_cancel_left h3
    obtain ⟨ht1, ht2⟩ := takeWhile_run ((cs.drop i).drop 7) t hrest
    have h1 := congrArg (List.takeWhile ssmNameChar) hz2
    have h2 := congrArg (List.dropWhile ssmNameChar) hz2
    rw [takeWhile_name nm dec z hnm, ht1] at h1
    rw [dropWhile_name nm dec z hnm, ht2] at h2
    rcases hblock with hrun | ⟨hb1, hb2⟩
    · exact hne (by rw [h1, hrun])
    · have p1 : (if dec then "~true\x7d\x7d".data else "\x7d\x7d".data) <+:
          ((cs.drop i).drop 7).dropWhile ssmNameChar ++ t := ⟨z, h2⟩
      have p2 : ((cs.drop i).drop 7).dropWhile ssmNameChar <+:
          ((cs.drop i).drop 7).dropWhile ssmNameChar ++ t := List.prefix_append _ _
      rcases List.prefix_or_prefix_of_prefix p1 p2 with h3 | h3
      · cases dec
        · exact hb1 (Or.inr (List.isPrefixOf_iff_prefix.2 h3))
        · exact hb2 (Or.inr (List.isPrefixOf_iff_prefix.2 h3))
      · cases dec
        · exact hb1 (Or.inl (List.isPrefixOf_iff_prefix.2 h3))
        · exact hb2 (Or.inl (List.isPrefixOf_iff_prefix.2 h3))
  · rename_i hU
    have h1 : "\x7b\x7bssm: ".data <+: cs.drop i ++ t := List.isPrefixOf_iff_prefix.1 hopen
    have h2 : cs.drop i <+: cs.drop i ++ t := List.prefix_append _ _
    rcases List.prefix_or_prefix_of_prefix h1 h2 with h3 | h3
    · exact hU (List.isPrefixOf_iff_prefix.2 h3)
    · exact hs (List.isPrefixOf_iff_prefix.2 h3)

theorem inert_append (a b : List Char) (ha : inert a) (hb : inert b) : inert (a ++ b) := by
  intro i t p hi hp
  by_cases hia : i < a.length
  · have := ha i (b ++ t) p hia hp
    rw [List.drop_append_of_le_length (Nat.le_of_lt hia), List.append_assoc]
    exact this
  · have hle : a.length ≤ i := Nat.le_of_not_lt hia
    have hib : i - a.length < b.length := by
      simp only [List.length_append] at hi
      omega
    have := hb (i - a.length) t p hib hp
    have hdrop : (a ++ b).drop i = b.drop (i - a.length) := by
      rw [List.drop_append_eq_append_drop, List.drop_of_length_le hle, List.nil_append]
    rw [hdrop]
    exact this

theorem inert_tail (c : Char) (cs : List Char) (h : inert (c :: cs)) : inert cs := by
  intro i t p hi hp
  have := h (i + 1) t p (by simp; omega) hp
  simpa using this

theorem inert_head (c : Char) (cs t p : List Char) (h : inert (c :: cs))
    (hp : isPlaceholder p) : p.isPrefixOf (c :: (cs ++ t)) = false := by
  have := h 0 t p (by simp) hp
  simpa using this

theorem matchSSMAt_inert (c : Char) (cs t : List Char) (h : inert (c :: cs)) :
    matchSSMAt (c :: (cs ++ t)) = none := by
  cases hm : matchSSMAt (c :: (cs ++ t)) with
  | none => rfl
  | some r =>
    obtain ⟨m, after⟩ := r
    obtain ⟨hp, hs⟩ := matchSSMAt_sound _ _ _ hm
    have hpre : m.whole.data.isPrefixOf (c :: (cs ++ t)) = true := by
      rw [hs]
      exact List.isPrefixOf_iff_prefix.2 (List.prefix_append _ _)
    rw [inert_head c cs t _ h hp] at hpre
    exact Bool.noConfusion hpre

/-- The matcher takes a placeholder that begins the text. -/
theorem matchSSMAt_ph (nm : List Char) (dec : Bool) (rest : List Char) (hne : nm ≠ [])
    (hnm : ∀ c ∈ nm, c ≠ '~' ∧ c ≠ '}') :
    matchSSMAt ((Piece.ph nm dec).render ++ rest) =
      some ({ whole := String.mk (Piece.ph nm dec).render, group1 := String.mk nm,
              group3 := if dec then "true" else "" }, rest) := by
  have htext : (Piece.ph nm dec).render ++ rest =
      "\x7b\x7bssm: ".data ++ (nm ++ ((if dec then "~true\x7d\x7d".data else "\x7d\x7d".data) ++ rest)) := by
    simp [Piece.render]
  have hpre : "\x7b\x7bssm: ".data.isPrefixOf ((Piece.ph nm dec).render ++ rest) = true := by
    rw [htext]
    exact List.isPrefixOf_iff_prefix.2 (List.prefix_append _ _)
  have hdrop : ((Piece.ph nm dec).render ++ rest).drop 7 =
      nm ++ ((if dec then "~true\x7d\x7d".data else "\x7d\x7d".data) ++ rest) := by
    rw [htext]
    rfl
  unfold matchSSMAt
  rw [if_pos hpre]
  simp only [hdrop, takeWhile_name nm dec rest hnm, dropWhile_name nm dec rest hnm, if_neg hne]
  cases dec
  · simp [Piece.render, List.isPrefixOf]
  · simp [Piece.render, List.isPrefixOf]

theorem findAllSSM_skip (cs t : List Char) (h : inert cs) (fuel : Nat) :
    findAllSSM (fuel + cs.length) (cs ++ t) = findAllSSM fuel t := by
  induction cs with
  | nil => rfl
  | cons c rest ih =>
    have hf : fuel + (c :: rest).length = (fuel + rest.length) + 1 := by simp; omega
    rw [hf]
    simp only [List.cons_append, findAllSSM]
    rw [show rest.append t = rest ++ t from rfl, matchSSMAt_inert c rest t h]
    exact ih (inert_tail c rest h)

theorem renderPieces_cons (p : Piece) (ps : List Piece) :
    renderPieces (p :: ps) = p.render ++ renderPieces ps := by
  simp [renderPieces]

/-- On a text cut into tame pieces the matcher finds exactly the placeholders. -/
theorem findAllSSM_pieces (store : ParamStore) (ps : List Piece)
    (h : ∀ p ∈ ps, p.tame store) (fuel : Nat) (hf : (renderPieces ps).length ≤ fuel) :
    findAllSSM fuel (renderPieces ps) = pieceMatches ps := by
  induction ps generalizing fuel with
  | nil => cases fuel <;> rfl
  | cons p ps ih =>
    have hps : ∀ q ∈ ps, q.tame store := fun q hq => h q (List.mem_cons_of_mem _ hq)
    have hp := h p (List.mem_cons_self _ _)
    rw [renderPieces_cons] at hf ⊢
    cases p with
    | lit cs =>
      simp only [Piece.render, List.length_append] at hf
      obtain ⟨k, rfl⟩ : ∃ k, fuel = k + cs.length := ⟨fuel - cs.length, by omega⟩
      simp only [Piece.render, pieceMatches]
      rw [findAllSSM_skip cs _ hp k]
      exact ih hps k (by omega)
    | ph nm dec =>
      obtain ⟨hne, hnm, _⟩ := hp
      have hm := matchSSMAt_ph nm dec (renderPieces ps) hne hnm
      have hlen : 1 ≤ ((Piece.ph nm dec).render ++ renderPieces ps).length := by
        rw [Piece.render_ph_cons]; simp
      obtain ⟨n, rfl⟩ : ∃ n, fuel = n + 1 := ⟨fuel - 1, by omega⟩
      have hcons : ∃ c t, (Piece.ph nm dec).render ++ renderPieces ps = c :: t := by
        rw [Piece.render_ph_cons]; exact ⟨_, _, rfl⟩
      obtain ⟨c, t, hct⟩ := hcons
      rw [hct] at hm ⊢
      simp only [findAllSSM, hm, pieceMatches]
      congr 1
      apply ih hps
      have : 1 ≤ (Piece.ph nm dec).render.length := by
        rw [Piece.render_ph_cons]; simp
      simp only [List.length_append] at hf
      omega

theorem Piece.render_lit (cs : List Char) : (Piece.lit cs).render = cs := rfl

theorem replaceChars_skip (p new cs t : List Char) (hp : isPlaceholder p) (h : inert cs)
    (fuel : Nat) :
    replaceChars p new (fuel + cs.length) (cs ++ t) = cs ++ replaceChars p new fuel t := by
  induction cs with
  | nil => rfl
  | cons c rest ih =>
    have hf : fuel + (c :: rest).length = (fuel + rest.length) + 1 := by simp; omega
    rw [hf]
    simp only [List.cons_append, replaceChars]
    rw [show rest.append t = rest ++ t from rfl, inert_head c rest t p h hp]
    simp [ih (inert_tail c rest h)]

/-- A placeholder that begins the text of another placeholder is that placeholder. -/
theorem ph_eq_of_isPrefixOf (nm nm' : List Char) (dec dec' : Bool) (rest : List Char)
    (hnm : ∀ c ∈ nm, c ≠ '~' ∧ c ≠ '}') (hnm' : ∀ c ∈ nm', c ≠ '~' ∧ c ≠ '}')
    (h : (Piece.ph nm dec).render.isPrefixOf ((Piece.ph nm' dec').render ++ rest) = true) :
    nm = nm' ∧ dec = dec' := by
  obtain ⟨z, hz⟩ := List.isPrefixOf_iff_prefix.1 h
  simp only [Piece.render, List.append_assoc, List.append_cancel_left_eq] at hz
  have h1 := congrArg (List.takeWhile ssmNameChar) hz
  have h2 := congrArg (List.dropWhile ssmNameChar) hz
  rw [takeWhile_name nm dec z hnm, takeWhile_name nm' dec' rest hnm'] at h1
  rw [dropWhile_name nm dec z hnm, dropWhile_name nm' dec' rest hnm'] at h2
  refine ⟨h1, ?_⟩
  cases dec <;> cases dec' <;> simp at h2 <;> rfl

/-- Behind its first brace a tame placeholder is inert: the rest of the opening text, the
name and the closing text. -/
theorem inert_ph_tail (nm : List Char) (dec : Bool) (hnm : inert nm) :
    ∃ body : List Char, (Piece.ph nm dec).render = '{' :: body ∧ inert body := by
  refine ⟨'{' :: ("ssm: ".data ++ nm ++ (if dec then "~true\x7d\x7d".data else "\x7d\x7d".data)),
    Piece.render_ph_cons nm dec, ?_⟩
  have h1 : inert "\x7bssm: ".data := inert_of_settled _ (by decide)
  have h2 : inert (if dec then "~true\x7d\x7d".data else "\x7d\x7d".data) := by
    cases dec
    · exact inert_of_settled _ (by decide)
    · exact inert_of_settled _ (by decide)
  have := inert_append _ _ (inert_append _ _ h1 hnm) h2
  simpa using this

/-- A replacement of the placeholder `t` by `new` on a text cut into tame pieces replaces
exactly the pieces that are `t`. -/
theorem replaceChars_pieces (store : ParamStore) (nm : List Char) (dec : Bool)
    (ht : (Piece.ph nm dec).tame store) (new : List Char) (qs : List Piece)
    (h : ∀ q ∈ qs, q.tame store) (fuel : Nat) (hf : (renderPieces qs).length ≤ fuel) :
    replaceChars (Piece.ph nm dec).render new fuel (renderPieces qs) =
      renderPieces (qs.map (fun q => if q = Piece.ph nm dec then Piece.lit new else q)) := by
  have hph : isPlaceholder (Piece.ph nm dec).render := isPlaceholder_render nm dec ht.1 ht.2.1
  induction qs generalizing fuel with
  | nil => cases fuel <;> rfl
  | cons q qs ih =>
    have hqs : ∀ q' ∈ qs, q'.tame store := fun q' hq => h q' (List.mem_cons_of_mem _ hq)
    have hq := h q (List.mem_cons_self _ _)
    rw [List.map_cons, renderPieces_cons, renderPieces_cons] at *
    cases q with
    | lit cs =>
      simp only [Piece.render_lit, List.length_append] at hf
      obtain ⟨k, rfl⟩ : ∃ k, fuel = k + cs.length := ⟨fuel - cs.length, by omega⟩
      have hne : (Piece.lit cs = Piece.ph nm dec) = False := by simp
      simp only [hne, if_false, Piece.render_lit]
      rw [replaceChars_skip _ new cs _ hph hq k, ih hqs k (by omega)]
    | ph nm' dec' =>
      by_cases heq : Piece.ph nm' dec' = Piece.ph nm dec
      · -- the placeholder itself: replaced
        rw [if_pos heq, heq]
        have hpre : (Piece.ph nm dec).render.isPrefixOf
            ((Piece.ph nm dec).render ++ renderPieces qs) = true :=
          List.isPrefixOf_iff_prefix.2 (List.prefix_append _ _)
        have hlen : 1 ≤ (Piece.ph nm dec).render.length := by
          rw [Piece.render_ph_cons]; simp
        rw [heq] at hf
        simp only [List.length_append] at hf
        obtain ⟨n, rfl⟩ : ∃ n, fuel = n + 1 := ⟨fuel - 1, by omega⟩
        obtain ⟨c, t, hct⟩ : ∃ c t, (Piece.ph nm dec).render ++ renderPieces qs = c :: t := by
          rw [Piece.render_ph_cons]; exact ⟨_, _, rfl⟩
        have hdrop : List.drop (Piece.ph nm dec).render.length (c :: t) = renderPieces qs := by
          rw [← hct]; simp
        rw [hct] at hpre ⊢
        simp only [replaceChars, hpre, if_true, hdrop, Piece.render_lit]
        rw [ih hqs n (by omega)]
      · -- another placeholder: copied
        rw [if_neg heq]
        have hpre : (Piece.ph nm dec).render.isPrefixOf
            ((Piece.ph nm' dec').render ++ renderPieces qs) = false := by
          rw [Bool.eq_false_iff]
          intro hp
          obtain ⟨h1, h2⟩ := ph_eq_of_isPrefixOf nm nm' dec dec' _ ht.2.1 hq.2.1 hp
          exact heq (by rw [h1, h2])
        obtain ⟨body, hrender, hbody⟩ := inert_ph_tail nm' dec' hq.2.2.1
        rw [hrender] at hpre hf ⊢
        simp only [List.cons_append, List.length_cons, List.length_append] at hf hpre ⊢
        obtain ⟨k, rfl⟩ : ∃ k, fuel = (k + body.length) + 1 :=
          ⟨fuel - body.length - 1, by omega⟩
        simp only [replaceChars, hpre, Bool.false_eq_true, if_false]
        rw [replaceChars_skip _ new body _ hph hbody k, ih hqs k (by omega)]

theorem swapFor_lit (store : ParamStore) (cs : List Char) (q : Piece) :
    swapFor store (Piece.lit cs) q = q := by
  unfold swapFor
  split
  · rename_i h
    rw [h]; rfl
  · rfl

theorem swapFor_on_lit (store : ParamStore) (t : Piece) (cs : List Char) :
    swapFor store t (Piece.lit cs) = Piece.lit cs := by
  unfold swapFor
  split
  · rename_i h
    rw [← h]; rfl
  · rfl

theorem swapFor_tame (store : ParamStore) (t q : Piece) (ht : t.tame store)
    (hq : q.tame store) : (swapFor store t q).tame store := by
  unfold swapFor
  split
  · cases t with
    | lit cs => exact ht
    | ph nm dec =>
      obtain ⟨_, _, _, v, hv, hbr⟩ := ht
      simp only [Piece.fill, hv, Option.getD_some]
      exact hbr
  · exact hq

/-- One replacement on the text of tame pieces, seen on the pieces. -/
theorem stringsReplaceAll_pieces (store : ParamStore) (nm : List Char) (dec : Bool)
    (ht : (Piece.ph nm dec).tame store) (v : String)
    (hv : store (String.mk nm) dec = some v) (qs : List Piece)
    (h : ∀ q ∈ qs, q.tame store) :
    stringsReplaceAll (String.mk (renderPieces qs)) (String.mk (Piece.ph nm dec).render) v =
      String.mk (renderPieces (qs.map (swapFor store (Piece.ph nm dec)))) := by
  have hne : (Piece.ph nm dec).render ≠ [] := by
    rw [Piece.render_ph_cons]; simp
  have hswap : (fun q => if q = Piece.ph nm dec then Piece.lit v.data else q) =
      swapFor store (Piece.ph nm dec) := by
    funext q
    simp [swapFor, Piece.fill, hv]
  simp only [stringsReplaceAll, hne, if_false]
  rw [replaceChars_pieces store nm dec ht v.data qs h _ (le_refl _), hswap]

theorem parseBool_flag (dec : Bool) :
    (strconvParseBool (if dec then "true" else "")).getD false = dec := by
  cases dec <;> decide

/-- The loop on the text of tame pieces, run over the matches of a list of tame pieces. -/
theorem ssmLoop_pieces (store : ParamStore) (ts : List Piece) (hts : ∀ t ∈ ts, t.tame store)
    (qs : List Piece) (hqs : ∀ q ∈ qs, q.tame store) :
    ssmLoop store (pieceMatches ts) (String.mk (renderPieces qs)) =
      (some (String.mk (renderPieces (ts.foldl (fun acc t => acc.map (swapFor store t)) qs))),
        pieceParams ts) := by
  induction ts generalizing qs with
  | nil => rfl
  | cons t ts ih =>
    have hts' : ∀ t' ∈ ts, t'.tame store := fun t' h => hts t' (List.mem_cons_of_mem _ h)
    have ht := hts t (List.mem_cons_self _ _)
    cases t with
    | lit cs =>
      have hid : qs.map (swapFor store (Piece.lit cs)) = qs := by
        have hf : swapFor store (Piece.lit cs) = id := funext (swapFor_lit store cs)
        rw [hf, List.map_id]
      simp only [pieceMatches, pieceParams, List.foldl_cons, hid]
      exact ih hts' qs hqs
    | ph nm dec =>
      obtain ⟨v, hv⟩ : ∃ v, store (String.mk nm) dec = some v := by
        obtain ⟨_, _, _, v, hv, _⟩ := ht
        exact ⟨v, hv⟩
      simp only [pieceMatches, pieceParams, List.foldl_cons, ssmLoop, parseBool_flag, hv]
      rw [stringsReplaceAll_pieces store nm dec ht v hv qs hqs]
      rw [ih hts' _ (fun q hq => by
        obtain ⟨q0, hq0, rfl⟩ := List.mem_map.1 hq
        exact swapFor_tame store _ q0 ht (hqs q0 hq0))]

theorem foldl_swap_map (store : ParamStore) (ts qs : List Piece) :
    ts.foldl (fun acc t => acc.map (swapFor store t)) qs =
      qs.map (fun q => ts.foldl (fun a t => swapFor store t a) q) := by
  induction ts generalizing qs with
  | nil => simp
  | cons t ts ih =>
    simp only [List.foldl_cons]
    rw [ih]
    simp [List.map_map, Function.comp]

theorem foldl_swap_lit (store : ParamStore) (ts : List Piece) (cs : List Char) :
    ts.foldl (fun a t => swapFor store t a) (Piece.lit cs) = Piece.lit cs := by
  induction ts with
  | nil => rfl
  | cons t ts ih => simp only [List.foldl_cons, swapFor_on_lit, ih]

theorem foldl_swap_fill (store : ParamStore) (ts : List Piece) (q : Piece) (h : q ∈ ts) :
    ts.foldl (fun a t => swapFor store t a) q = q.fill store := by
  cases q with
  | lit cs => exact foldl_swap_lit store ts cs
  | ph nm dec =>
    induction ts with
    | nil => simp at h
    | cons t ts ih =>
      simp only [List.foldl_cons]
      by_cases heq : Piece.ph nm dec = t
      · have hs : swapFor store t (Piece.ph nm dec) = (Piece.ph nm dec).fill store := by
          simp [swapFor, heq]
        rw [hs]
        exact foldl_swap_lit store ts _
      · have hs : swapFor store t (Piece.ph nm dec) = Piece.ph nm dec := by
          simp [swapFor, heq]
        rw [hs]
        rcases List.mem_cons.1 h with h | h
        · exact absurd h heq
        · exact ih h

theorem containsChars_append_left (sub a t : List Char) (h : containsChars sub t = true) :
    containsChars sub (a ++ t) = true := by
  induction a with
  | nil => exact h
  | cons c a ih => simp [containsChars, ih]

/-- A text with a placeholder piece holds the opening text of the pattern. -/
theorem contains_of_pieceMatches (ps : List Piece) (h : pieceMatches ps ≠ []) :
    containsChars "\x7b\x7bssm: ".data (renderPieces ps) = true := by
  induction ps with
  | nil => simp [pieceMatches] at h
  | cons p ps ih =>
    rw [renderPieces_cons]
    cases p with
    | lit cs => exact containsChars_append_left _ _ _ (ih (by simpa [pieceMatches] using h))
    | ph nm dec =>
      rw [Piece.render_ph_cons]
      simp [containsChars, List.isPrefixOf]

theorem pieceParams_of_no_match (ps : List Piece) (h : pieceMatches ps = []) :
    pieceParams ps = [] ∧ ∀ store : ParamStore, ps.map (Piece.fill store) = ps := by
  induction ps with
  | nil => exact ⟨rfl, fun _ => rfl⟩
  | cons p ps ih =>
    cases p with
    | lit cs =>
      obtain ⟨h1, h2⟩ := ih (by simpa [pieceMatches] using h)
      exact ⟨by simpa [pieceParams] using h1, fun store => by simp [Piece.fill, h2 store]⟩
    | ph nm dec => simp [pieceMatches] at h

/-- C11 (amended): for every text cut into literal pieces and placeholders
`{{ssm: <name>}}` or `{{ssm: <name>~true}}`, and every parameter store that answers each
placeholder, such that no placeholder begins inside a literal piece, inside a name or
inside a fetched value, whatever follows it: `substituteSSM` returns the text in which
exactly each placeholder is replaced by the value fetched for it, every literal piece being
left as it was, and it fetches the placeholders' parameters in order. Literal text, names
and values may hold braces; a text is of this kind as soon as it is `settled`. -/
theorem substituteSSM_pieces (store : ParamStore) (ps : List Piece)
    (h : ∀ p ∈ ps, p.tame store) :
    substituteSSM store (String.mk (renderPieces ps)) =
      (some (String.mk (renderPieces (ps.map (Piece.fill store)))), pieceParams ps) := by
  unfold substituteSSM
  split
  · simp only
    rw [findAllSSM_pieces store ps h _ (le_refl _), ssmLoop_pieces store ps h ps h,
      foldl_swap_map]
    have hmap : ps.map (fun q => ps.foldl (fun a t => swapFor store t a) q) =
        ps.map (Piece.fill store) :=
      List.map_congr_left (fun q hq => foldl_swap_fill store ps q hq)
    rw [hmap]
  · rename_i hc
    have hnone : pieceMatches ps = [] := by
      by_contra hne
      exact hc (contains_of_pieceMatches ps hne)
    obtain ⟨h1, h2⟩ := pieceParams_of_no_match ps hnone
    rw [h1, h2 store]

/-- Witness for C11 (amended): a text with a YAML flow mapping, a template action and a
placeholder with a wrong decryption flag in its literal part, two placeholders, one of them
decrypted, and a fetched password that holds braces. -/
theorem substituteSSM_pieces_witness :
    substituteSSM bracesStore "labels: \x7bapp: db\x7d\nname: \x7b\x7b .Release.Name \x7d\x7d\nold: \x7b\x7bssm: /x~false\x7d\x7d\nuser: \x7b\x7bssm: /prod/db/user\x7d\x7d, password: \x7b\x7bssm: /prod/db/password~true\x7d\x7d!" =
      (some "labels: \x7bapp: db\x7d\nname: \x7b\x7b .Release.Name \x7d\x7d\nold: \x7b\x7bssm: /x~false\x7d\x7d\nuser: admin, password: s3\x7bcr\x7det!",
        [("/prod/db/user", false), ("/prod/db/password", true)]) :=
  substituteSSM_pieces bracesStore
    [Piece.lit "labels: \x7bapp: db\x7d\nname: \x7b\x7b .Release.Name \x7d\x7d\nold: \x7b\x7bssm: /x~false\x7d\x7d\nuser: ".data,
      Piece.ph "/prod/db/user".data false,
      Piece.lit ", password: ".data, Piece.ph "/prod/db/password".data true, Piece.lit "!".data]
    (by
      intro p hp
      simp only [List.mem_cons, List.mem_singleton, List.not_mem_nil, or_false] at hp
      rcases hp with rfl | rfl | rfl | rfl | rfl
      · exact inert_of_settled _ (by decide)
      · exact ⟨by decide, by decide, inert_of_settled _ (by decide), "admin", rfl,
          inert_of_settled _ (by decide)⟩
      · exact inert_of_settled _ (by decide)
      · exact ⟨by decide, by decide, inert_of_settled _ (by decide), "s3\x7bcr\x7det", rfl,
          inert_of_settled _ (by decide)⟩
      · exact inert_of_settled _ (by decide))

/-- Counterexample to C11 as stated: the value fetched for `a` is the placeholder of `b`; the
replacement made for the later match `{{ssm: b}}` rewrites that inserted value as well, so
the result is `X X` and not `{{ssm: b}} X`. -/
theorem substituteSSM_pieces_counterexample :
    nestingStore "a" false = some "\x7b\x7bssm: b\x7d\x7d" ∧ nestingStore "b" false = some "X" ∧
    substituteSSM nestingStore "\x7b\x7bssm: a\x7d\x7d \x7b\x7bssm: b\x7d\x7d" =
      (some "X X", [("a", false), ("b", false)]) ∧
    "X X" ≠ "\x7b\x7bssm: b\x7d\x7d" ++ " " ++ "X" := by
  decide

/-! ## Path resolution: charts -/

theorem stringInSlice_iff (a : String) (l : List String) : stringInSlice a l = true ↔ a ∈ l := by
  induction l with
  | nil => simp [stringInSlice]
  | cons b rest ih =>
    simp only [stringInSlice, List.mem_cons]
    split
    · rename_i h
      simp [h]
    · rename_i h
      rw [ih]
      constructor
      · exact Or.inr
      · rintro (h' | h')
        · exact absurd h'.symm h
        · exact h'

theorem splitSlash_segment (a b : List Char) (h : '/' ∉ a) :
    splitSlash (a ++ '/' :: b) = a :: splitSlash b := by
  induction a with
  | nil => simp [splitSlash]
  | cons c a ih =>
    have hc : c ≠ '/' := fun e => h (by simp [e])
    have ha : '/' ∉ a := fun e => h (List.mem_cons_of_mem _ e)
    simp only [List.cons_append, splitSlash, hc, if_false]
    rw [show a.append ('/' :: b) = a ++ '/' :: b from rfl, ih ha]

theorem dropWhile_reverse_segment (a b : List Char) (h : '/' ∉ b) :
    ((a ++ '/' :: b).reverse.dropWhile (fun c => c != '/')).reverse = a ++ ['/'] := by
  have hb : ∀ c ∈ b.reverse, (fun c => c != '/') c = true := by
    intro c hc
    have : c ≠ '/' := fun e => h (by rw [← e]; exact List.mem_reverse.1 hc)
    simpa using this
  rw [List.reverse_append, List.reverse_cons, List.append_assoc,
    List.dropWhile_append_of_pos hb]
  simp [List.dropWhile]

/-- The directory of `<repo>/<chart>` is `<repo>` when `<repo>` is one plain path element and
`<chart>` holds no separator. -/
theorem filepathDir_repo_chart (repo chart : String) (hne : repo.data ≠ [])
    (hslash : '/' ∉ repo.data) (hdot : repo ≠ ".") (hdots : repo ≠ "..")
    (hchart : '/' ∉ chart.data) : filepathDir (repo ++ "/" ++ chart) = repo := by
  have hdata : (repo ++ "/" ++ chart).data = repo.data ++ '/' :: chart.data := by
    simp [String.data_append]
  have hhead : (repo.data ++ ['/']).head? ≠ some '/' := by
    cases hr : repo.data with
    | nil => exact absurd hr hne
    | cons c t =>
      have : c ≠ '/' := fun e => hslash (by rw [hr, e]; simp)
      simpa using this
  have h1 : repo.data ≠ ['.'] := fun e => hdot (String.ext e)
  have h2 : repo.data ≠ ['.', '.'] := fun e => hdots (String.ext e)
  unfold filepathDir
  rw [hdata, dropWhile_reverse_segment _ _ hchart]
  unfold filepathClean
  simp only [hhead, decide_False, Bool.false_eq_true, if_false]
  rw [splitSlash_segment _ _ hslash]
  simp [splitSlash, cleanStep, hne, h1, h2, joinSlash]

theorem resolveChart_of_repo (env : Env) (cwd : Option String) (dir : String) (s : state)
    (chart : String)
    (h : s.HelmRepos.contains (filepathDir chart) = true ∨
      filepathDir chart ∈ s.PreconfiguredHelmRepos) :
    resolveChart env cwd dir s chart = chart := by
  have hrepo : (s.HelmRepos.contains (filepathDir chart) ||
      stringInSlice (filepathDir chart) s.PreconfiguredHelmRepos) = true := by
    rcases h with h | h
    · simp [h]
    · simp [(stringInSlice_iff _ _).2 h]
  unfold resolveChart
  split
  · simp only [hrepo, Bool.not_true, Bool.false_eq_true, if_false]
  · rfl

theorem resolvePaths_apps (w : World) (env : Env) (cwd : Option String) (file : String)
    (s : state) :
    (resolvePaths w env cwd file s).Apps.entries =
      s.Apps.entries.map (fun kv => (kv.1, resolveRelease env cwd (filepathDir file) s kv.2)) := by
  unfold resolvePaths
  cases hA : s.Apps with
  | none => simp [GoMap.entries]
  | some l => simp [GoMap.entries]

/-- C16 (amended): `resolvePaths` keeps every application entry under its label, and leaves
its chart reference unchanged when the directory part of the reference (`filepath.Dir`:
what precedes the last separator, cleaned) is a declared repository name (a key of
`HelmRepos`) or a pre-registered one. This covers every reference `<repo>/<chart>` with
exactly one path element after a repository name that is one plain path element. -/
theorem resolvePaths_repo_chart (w : World) (env : Env) (cwd : Option String) (file : String)
    (s : state) (k : String) (r : release) (hmem : (k, r) ∈ s.Apps.entries) :
    (k, resolveRelease env cwd (filepathDir file) s r) ∈
      (resolvePaths w env cwd file s).Apps.entries ∧
    ((s.HelmRepos.contains (filepathDir r.Chart) = true ∨
        filepathDir r.Chart ∈ s.PreconfiguredHelmRepos) →
      (resolveRelease env cwd (filepathDir file) s r).Chart = r.Chart) ∧
    (∀ repo chart : String, plainElement repo → '/' ∉ chart.data →
      r.Chart = repo ++ "/" ++ chart →
      (s.HelmRepos.contains repo = true ∨ repo ∈ s.PreconfiguredHelmRepos) →
      (resolveRelease env cwd (filepathDir file) s r).Chart = r.Chart) := by
  refine ⟨?_, ?_, ?_⟩
  · rw [resolvePaths_apps]
    exact List.mem_map.2 ⟨(k, r), hmem, rfl⟩
  · intro h
    exact resolveChart_of_repo env cwd _ s r.Chart h
  · intro repo chart hp hchart hform hrepo
    have hdir : filepathDir r.Chart = repo := by
      rw [hform]
      exact filepathDir_repo_chart repo chart hp.1 hp.2.1 hp.2.2.1 hp.2.2.2 hchart
    exact resolveChart_of_repo env cwd _ s r.Chart (by rw [hdir]; exact hrepo)

/-- Witness for C16 (amended): `stable/jenkins` with `stable` a declared repository. -/
theorem resolvePaths_repo_chart_witness :
    ("jenkins", resolveRelease [] (some "/home/u") (filepathDir "/work/dsf.yaml") chartsDoc
        { Name := "jenkins", Chart := "stable/jenkins" }) ∈
      (resolvePaths bareWorld [] (some "/home/u") "/work/dsf.yaml" chartsDoc).Apps.entries ∧
    (resolveRelease [] (some "/home/u") (filepathDir "/work/dsf.yaml") chartsDoc
        { Name := "jenkins", Chart := "stable/jenkins" }).Chart = "stable/jenkins" :=
  ⟨(resolvePaths_repo_chart bareWorld [] (some "/home/u") "/work/dsf.yaml" chartsDoc
      "jenkins" { Name := "jenkins", Chart := "stable/jenkins" } (by decide)).1,
   (resolvePaths_repo_chart bareWorld [] (some "/home/u") "/work/dsf.yaml" chartsDoc
      "jenkins" { Name := "jenkins", Chart := "stable/jenkins" } (by decide)).2.2
      "stable" "jenkins" (by unfold plainElement; decide) (by decide) rfl (Or.inl (by decide))⟩

/-- Counterexample to C16 as stated: the chart `stable/db/postgres` has the declared
repository `stable` as its leading path element and two elements after it; its directory
`stable/db` is no repository name, so `resolvePaths` rewrites it as a local path. -/
theorem resolvePaths_repo_chart_counterexample :
    chartsDoc.HelmRepos.contains "stable" = true ∧
    ("postgres", { Name := "postgres", Chart := "stable/db/postgres" }) ∈
      chartsDoc.Apps.entries ∧
    (resolvePaths bareWorld [] (some "/home/u") "/work/dsf.yaml" chartsDoc).Apps =
      some [("jenkins", { Name := "jenkins", Chart := "stable/jenkins" }),
            ("postgres", { Name := "postgres", Chart := "/work/stable/db/postgres" })] := by
  decide

/-! ## Path resolution: bearer-token path and certificates -/

theorem setEntry_append_of_not_mem {α : Type} (k : String) (v : α) (a b : List (String × α))
    (h : k ∉ a.map Prod.fst) : setEntry k v (a ++ b) = a ++ setEntry k v b := by
  induction a with
  | nil => rfl
  | cons e a ih =>
    have he : e.1 ≠ k := fun e' => h (by simp [e'])
    have ha : k ∉ a.map Prod.fst := fun e' => h (by simp [List.mem_map] at e' ⊢; exact Or.inr e')
    simp only [List.cons_append, setEntry, he, if_false]
    rw [show a.append b = a ++ b from rfl, ih ha]

theorem resolveCertLoop_keys (w : World) (cwd : Option String) (dir : String)
    (l : List (String × String)) (m : GoMap String)
    (h : ∀ e ∈ l, e.1 ∈ m.entries.map Prod.fst) :
    (resolveCertLoop w cwd dir l m).entries.map Prod.fst = m.entries.map Prod.fst ∧
    (resolveCertLoop w cwd dir l m).isNil = m.isNil := by
  induction l generalizing m with
  | nil => exact ⟨rfl, rfl⟩
  | cons e rest ih =>
    obtain ⟨k, v⟩ := e
    have hkey : k ∈ m.entries.map Prod.fst := h (k, v) (List.mem_cons_self _ _)
    have hnil : m.isNil = false := by
      cases m with
      | none => simp [GoMap.entries] at hkey
      | some l0 => rfl
    simp only [resolveCertLoop]
    have hk : ∀ x : String, (m.set k x).entries.map Prod.fst = m.entries.map Prod.fst := by
      intro x
      simp only [GoMap.set, GoMap.entries, Option.getD_some]
      exact setEntry_keys k _ _ hkey
    obtain ⟨h1, h2⟩ := ih (m.set k _) (fun e he => by
      rw [hk]; exact h e (List.mem_cons_of_mem _ he))
    exact ⟨by rw [h1, hk], by rw [h2, hnil]; rfl⟩

/-- The certificate loop of `resolvePaths` on a map with distinct keys: entry by entry. -/
theorem resolveCertLoop_values (w : World) (cwd : Option String) (dir : String)
    (done l : List (String × String)) (hnd : ((done ++ l).map Prod.fst).Nodup) :
    resolveCertLoop w cwd dir l
        (some (done.map (fun e => (e.1, resolvedLocation w cwd dir e.2)) ++ l)) =
      some ((done ++ l).map (fun e => (e.1, resolvedLocation w cwd dir e.2))) := by
  induction l generalizing done with
  | nil => simp [resolveCertLoop]
  | cons e rest ih =>
    obtain ⟨k, v⟩ := e
    have hk : k ∉ (done.map (fun e => (e.1, resolvedLocation w cwd dir e.2))).map Prod.fst := by
      simp only [List.map_map, Function.comp]
      simp only [List.map_append, List.map_cons] at hnd
      have := (List.nodup_append.1 hnd).2.2
      intro hmem
      exact this hmem (List.mem_cons_self _ _)
    have hv : (if w.parseRequestURI v = false then filepathAbs cwd (filepathJoin dir v) else v) =
        resolvedLocation w cwd dir v := by
      unfold resolvedLocation
      cases w.parseRequestURI v <;> simp
    simp only [resolveCertLoop, hv, GoMap.set, GoMap.entries, Option.getD_some]
    rw [setEntry_append_of_not_mem k _ _ _ hk]
    simp only [setEntry, if_true]
    have := ih (done ++ [(k, v)]) (by simpa using hnd)
    simpa using this

/-- What `resolvePaths` does to the bearer-token path and to the certificate map, written
with `resolvedLocation`; the certificate map keeps its keys, and each value is rewritten
when the keys are pairwise distinct. -/
theorem resolvePaths_locations_eq (w : World) (env : Env) (cwd : Option String) (file : String)
    (s : state) :
    (s.Settings.BearerTokenPath ≠ "" →
      (resolvePaths w env cwd file s).Settings.BearerTokenPath =
        resolvedLocation w cwd (filepathDir file) s.Settings.BearerTokenPath) ∧
    (s.Settings.BearerTokenPath = "" →
      (resolvePaths w env cwd file s).Settings.BearerTokenPath = "") ∧
    (resolvePaths w env cwd file s).Certificates.entries.map Prod.fst =
      s.Certificates.entries.map Prod.fst ∧
    (resolvePaths w env cwd file s).Certificates.isNil = s.Certificates.isNil ∧
    (s.Certificates.WellFormed →
      (resolvePaths w env cwd file s).Certificates =
        s.Certificates.map (fun l =>
          l.map (fun e => (e.1, resolvedLocation w cwd (filepathDir file) e.2)))) := by
  have hkeys := resolveCertLoop_keys w cwd (filepathDir file) s.Certificates.entries
    s.Certificates (fun e he => List.mem_map_of_mem Prod.fst he)
  refine ⟨?_, ?_, hkeys.1, hkeys.2, ?_⟩
  · intro hne
    simp only [resolvePaths, hne, ne_eq, not_false_eq_true, if_true, resolvedLocation]
    cases w.parseRequestURI s.Settings.BearerTokenPath <;> simp
  · intro he
    simp [resolvePaths, he]
  · intro hwf
    show resolveCertLoop w cwd (filepathDir file) s.Certificates.entries s.Certificates = _
    cases hC : s.Certificates with
    | none => rfl
    | some l0 =>
      have hnd : (([] ++ l0).map Prod.fst).Nodup := by
        simpa [GoMap.WellFormed, GoMap.entries, hC] using hwf
      simpa [GoMap.entries] using resolveCertLoop_values w cwd (filepathDir file) [] l0 hnd

/-! ## Sequencing of calls -/

theorem Act.andThen_done {α β : Type} (x : Act α) (f : α → Act β) (a : α)
    (h : x.ending = Ending.done a) :
    x.andThen f = { ending := (f a).ending, trace := x.trace ++ (f a).trace } := by
  simp [Act.andThen, h]

theorem Act.andThen_fatal {α β : Type} (x : Act α) (f : α → Act β) (msg : String)
    (h : x.ending = Ending.fatal msg) :
    x.andThen f = { ending := Ending.fatal msg, trace := x.trace } := by
  simp [Act.andThen, h]

theorem Act.andThen_panic {α β : Type} (x : Act α) (f : α → Act β)
    (h : x.ending = Ending.panic) :
    x.andThen f = { ending := Ending.panic, trace := x.trace } := by
  simp [Act.andThen, h]

/-- An event of a sequence is an event of its first call, or of what follows when the first
call returns. -/
theorem Act.mem_trace_andThen {α β : Type} (x : Act α) (f : α → Act β) (e : Event)
    (h : e ∈ (x.andThen f).trace) :
    e ∈ x.trace ∨ ∃ a, x.ending = Ending.done a ∧ e ∈ (f a).trace := by
  cases hx : x.ending with
  | done a =>
    rw [Act.andThen_done x f a hx] at h
    rcases List.mem_append.1 h with h | h
    · exact Or.inl h
    · exact Or.inr ⟨a, rfl, h⟩
  | fatal msg =>
    rw [Act.andThen_fatal x f msg hx] at h
    exact Or.inl h
  | panic =>
    rw [Act.andThen_panic x f hx] at h
    exact Or.inl h

/-! ## Limit ranges -/

/-- With an empty rule list `setLimits` returns at once. -/
theorem setLimits_empty (w : World) (h : Host) (s : state) (ns : String) :
    setLimits w h s ns [] = Act.ret () := by
  simp [setLimits]

/-- C20 (amended): `setLimits` issues no command and writes no file when the rule list is
empty. Otherwise, once the manifest `temp-LimitRange.yaml` has been written, the apply
command is run; when it succeeds the file is deleted next, before the operation ends; when
it fails the operation ends on the fatal path with the file left in place (no deletion is
attempted). -/
theorem setLimits_manifest (w : World) (h : Host) (s : state) (ns : String)
    (lims : List limitRule) :
    (lims = [] → setLimits w h s ns lims = { ending := Ending.done (), trace := [] }) ∧
    (∀ d : String, lims ≠ [] → h.yamlMarshal lims = Except.ok d →
      h.writeFile "temp-LimitRange.yaml"
        ("\n---\napiVersion: v1\nkind: LimitRange\nmetadata:\n  name: limit-range\nspec:\n  limits:\n"
          ++ Indent d "    ") = none →
      ((w.exec { Cmd := "kubectl", Args := ["apply", "-f", "temp-LimitRange.yaml", "-n", ns],
                 Description := "creating LimitRange in namespace [ " ++ ns ++ " ]" }).1 = 0 →
        (setLimits w h s ns lims).trace =
          [Event.writeFile "temp-LimitRange.yaml"
            ("\n---\napiVersion: v1\nkind: LimitRange\nmetadata:\n  name: limit-range\nspec:\n  limits:\n"
              ++ Indent d "    "),
           Event.exec { Cmd := "kubectl", Args := ["apply", "-f", "temp-LimitRange.yaml", "-n", ns],
                        Description := "creating LimitRange in namespace [ " ++ ns ++ " ]" },
           Event.deleteFile "temp-LimitRange.yaml"] ++
          (if h.remove "temp-LimitRange.yaml" = none then []
           else (logError w s "Could not delete file: temp-LimitRange.yaml" : Act Unit).trace)) ∧
      ((w.exec { Cmd := "kubectl", Args := ["apply", "-f", "temp-LimitRange.yaml", "-n", ns],
                 Description := "creating LimitRange in namespace [ " ++ ns ++ " ]" }).1 ≠ 0 →
        (setLimits w h s ns lims).ending =
          Ending.fatal ("failed to create LimitRange in namespace [ " ++ ns ++ " ]: " ++
            (w.exec { Cmd := "kubectl", Args := ["apply", "-f", "temp-LimitRange.yaml", "-n", ns],
                      Description := "creating LimitRange in namespace [ " ++ ns ++ " ]" }).2) ∧
        Event.deleteFile "temp-LimitRange.yaml" ∉ (setLimits w h s ns lims).trace)) := by
  constructor
  · intro hl
    rw [hl]
    exact setLimits_empty w h s ns
  · intro d hne hm hw
    have hlen : ¬ lims.length = 0 := fun h0 => hne (List.length_eq_zero.1 h0)
    constructor
    · intro hexit
      simp only [setLimits, hlen, if_false, hm, hw, Act.andThen, execCmd, hexit, ne_eq,
        not_true_eq_false, Act.ret, deleteFile]
      cases h.remove "temp-LimitRange.yaml" <;> simp [Act.andThen, logError]
    · intro hexit
      simp only [setLimits, hlen, if_false, hm, hw, Act.andThen, execCmd, hexit, ne_eq,
        not_false_eq_true, if_true, logError]
      refine ⟨trivial, ?_⟩
      split <;> simp

/-- Witness for C20 (amended): a container rule; the rule list as `yaml.Marshal` writes it,
the manifest written, and a succeeding apply followed by the deletion. -/
theorem setLimits_manifest_witness :
    limitsYaml [containerRule] =
      "- max:\n    cpu: \"2\"\n    memory: 1Gi\n  type: Container\n" ∧
    setLimits allOkWorld okHost contextOnlyDoc "prod" [containerRule] =
      { ending := Ending.done (),
        trace :=
          [Event.writeFile "temp-LimitRange.yaml"
            ("\n---\napiVersion: v1\nkind: LimitRange\nmetadata:\n  name: limit-range\nspec:\n  limits:\n"
              ++ "    - max:\n        cpu: \"2\"\n        memory: 1Gi\n      type: Container\n"),
           Event.exec { Cmd := "kubectl", Args := ["apply", "-f", "temp-LimitRange.yaml", "-n", "prod"],
                        Description := "creating LimitRange in namespace [ prod ]" },
           Event.deleteFile "temp-LimitRange.yaml"] } ∧
    (setLimits allOkWorld okHost contextOnlyDoc "prod" [containerRule]).trace =
      [Event.writeFile "temp-LimitRange.yaml"
        ("\n---\napiVersion: v1\nkind: LimitRange\nmetadata:\n  name: limit-range\nspec:\n  limits:\n"
          ++ Indent "- max:\n    cpu: \"2\"\n    memory: 1Gi\n  type: Container\n" "    "),
       Event.exec { Cmd := "kubectl", Args := ["apply", "-f", "temp-LimitRange.yaml", "-n", "prod"],
                    Description := "creating LimitRange in namespace [ " ++ "prod" ++ " ]" },
       Event.deleteFile "temp-LimitRange.yaml"] ++
      (if okHost.remove "temp-LimitRange.yaml" = none then []
       else (logError allOkWorld contextOnlyDoc "Could not delete file: temp-LimitRange.yaml" :
          Act Unit).trace) :=
  ⟨by decide, by decide,
    ((setLimits_manifest allOkWorld okHost contextOnlyDoc "prod" [containerRule]).2
      "- max:\n    cpu: \"2\"\n    memory: 1Gi\n  type: Container\n"
      (by decide) rfl rfl).1 rfl⟩

/-- Counterexample to C20 as stated: the manifest has been written and the apply command
fails; the operation ends on the fatal path and the file is never deleted. -/
theorem setLimits_manifest_counterexample :
    limitsYaml [containerRule] =
      "- max:\n    cpu: \"2\"\n    memory: 1Gi\n  type: Container\n" ∧
    (bareWorld.exec { Cmd := "kubectl", Args := ["apply", "-f", "temp-LimitRange.yaml", "-n", "prod"],
                      Description := "creating LimitRange in namespace [ prod ]" }).1 ≠ 0 ∧
    (setLimits bareWorld okHost contextOnlyDoc "prod" [containerRule]).ending =
      Ending.fatal "failed to create LimitRange in namespace [ prod ]: " ∧
    (setLimits bareWorld okHost contextOnlyDoc "prod" [containerRule]).trace =
      [Event.writeFile "temp-LimitRange.yaml"
        ("\n---\napiVersion: v1\nkind: LimitRange\nmetadata:\n  name: limit-range\nspec:\n  limits:\n"
          ++ "    - max:\n        cpu: \"2\"\n        memory: 1Gi\n      type: Container\n"),
       Event.exec { Cmd := "kubectl", Args := ["apply", "-f", "temp-LimitRange.yaml", "-n", "prod"],
                    Description := "creating LimitRange in namespace [ prod ]" }] ∧
    Event.deleteFile "temp-LimitRange.yaml" ∉
      (setLimits bareWorld okHost contextOnlyDoc "prod" [containerRule]).trace := by
  refine ⟨by decide, by decide, by decide, by decide, by decide⟩

/-! ## Context bootstrap -/

theorem Act.ending_andThen_ne {α β : Type} (x : Act α) (f : α → Act β) (b : β)
    (h : ∀ a, (f a).ending ≠ Ending.done b) : (x.andThen f).ending ≠ Ending.done b := by
  cases hx : x.ending with
  | done a =>
    rw [Act.andThen_done x f a hx]
    exact h a
  | fatal msg =>
    rw [Act.andThen_fatal x f msg hx]
    exact fun e => Ending.noConfusion e
  | panic =>
    rw [Act.andThen_panic x f hx]
    exact fun e => Ending.noConfusion e

theorem Act.ending_andThen_eq_done {α β : Type} (x : Act α) (f : α → Act β) (b : β)
    (h : (x.andThen f).ending = Ending.done b) :
    ∃ a, x.ending = Ending.done a ∧ (f a).ending = Ending.done b := by
  cases hx : x.ending with
  | done a =>
    rw [Act.andThen_done x f a hx] at h
    exact ⟨a, rfl, h⟩
  | fatal msg =>
    rw [Act.andThen_fatal x f msg hx] at h
    exact Ending.noConfusion h
  | panic =>
    rw [Act.andThen_panic x f hx] at h
    exact Ending.noConfusion h

/-- In bearer-token mode the opening chain of `createContext` lets every document pass. -/
theorem contextPrecheck_bearer (s : state) (hb : s.Settings.BearerToken = true) :
    (contextPrecheck s).1 = none := by
  unfold contextPrecheck
  by_cases hp : s.Settings.BearerTokenPath = ""
  · simp [hb, hp]
  · simp [hb, hp]

/-- What the commands of `createContext` return is no "missing information" message. -/
theorem contextCommands_msg (w : World) (s : state) (args : List String) (caCrt : String)
    (rest : String) :
    (contextCommands w s args caCrt).ending ≠
      Ending.done (false, "missing information to create context [ " ++ rest) := by
  have hfail : ∀ x y : String, "failed to create context [ " ++ x ≠
      "missing information to create context [ " ++ y :=
    fun x y => append_ne_of_diverge _ _ (by decide) x y
  have hwrong : ∀ y : String,
      "something went wrong while setting the kube context to the newly created one." ≠
      "missing information to create context [ " ++ y := by
    intro y hy
    exact append_ne_of_diverge
      "something went wrong while setting the kube context to the newly created one."
      "missing information to create context [ " (by decide) "" y (by simpa using hy)
  unfold contextCommands
  apply Act.ending_andThen_ne
  intro r1
  split
  · simp only [Act.ret, ne_eq, Ending.done.injEq, Prod.mk.injEq, true_and]
    rw [String.append_assoc, String.append_assoc]
    exact hfail _ _
  · apply Act.ending_andThen_ne
    intro r2
    split
    · simp only [Act.ret, ne_eq, Ending.done.injEq, Prod.mk.injEq, true_and]
      rw [String.append_assoc, String.append_assoc]
      exact hfail _ _
    · apply Act.ending_andThen_ne
      intro r3
      split
      · simp only [Act.ret, ne_eq, Ending.done.injEq, Prod.mk.injEq, true_and]
        rw [String.append_assoc, String.append_assoc]
        exact hfail _ _
      · apply Act.ending_andThen_ne
        intro ok
        split
        · simp [Act.ret]
        · simp only [Act.ret, ne_eq, Ending.done.injEq, Prod.mk.injEq, true_and]
          exact hwrong _

/-- C19: in bearer-token mode the opening chain of `createContext` always takes one of its
first two branches, so the branch that reports a missing `caCrt` is never reached: the chain
lets the document pass whatever the certificate map holds, and no run of `createContext`
returns the "caCrt is missing" message. -/
theorem createContext_bearer_caCrt (w : World) (h : Host) (s : state)
    (hb : s.Settings.BearerToken = true) :
    (contextPrecheck s).1 = none ∧
    ∀ st : state, (createContext w h s).ending ≠
      Ending.done ((false, "missing information to create context [ " ++ s.Settings.KubeContext ++
        " ] " ++ "caCrt is missing in the Certifications section of your desired state file."),
        st) := by
  have hpre := contextPrecheck_bearer s hb
  refine ⟨hpre, fun st => ?_⟩
  unfold createContext
  rcases hc : contextPrecheck s with ⟨o, s1⟩
  rw [hc] at hpre
  simp only at hpre
  subst hpre
  simp only
  intro heq
  obtain ⟨files, _, h1⟩ := Act.ending_andThen_eq_done _ _ _ heq
  obtain ⟨cred, _, h2⟩ := Act.ending_andThen_eq_done _ _ _ h1
  obtain ⟨res, h3, h4⟩ := Act.ending_andThen_eq_done _ _ _ h2
  simp only [Act.ret, Ending.done.injEq, Prod.mk.injEq] at h4
  rw [h4.1] at h3
  refine contextCommands_msg w cred.2 cred.1 files.1
    (s.Settings.KubeContext ++ (" ] " ++
      "caCrt is missing in the Certifications section of your desired state file.")) ?_
  rw [h3]
  simp [String.append_assoc]

/-- Evaluation for C19: bearer-token mode without any certificate map; `createContext` copies
the token, reads it and runs `kubectl config set-credentials`. -/
theorem createContext_bearer_caCrt_witness :
    (contextPrecheck bearerNoCertDoc).1 = none ∧
    (createContext bareWorld okHost bearerNoCertDoc).trace =
      [Event.copyFile "/var/run/secrets/kubernetes.io/serviceaccount/token" "bearer.token",
       Event.readFile "bearer.token",
       Event.exec (setCredentialsCmd ["config", "set-credentials", "helmsman", "--token=t0ken"])] :=
  ⟨(createContext_bearer_caCrt bareWorld okHost bearerNoCertDoc rfl).1, by decide⟩

/-! ## Release ownership -/

/-- C15: evaluation. The namespaces `prod` and `staging` are visited in this order; the
query for `prod` answers two revisions of `myapp`, the query for `staging` answers the
"No resources found." sentence. The variable `lines` is declared outside the loop over the
namespaces and keeps the rows of `prod`, so `myapp` is recorded as owned in `staging` as
well; visited in the other order, `staging` gets no entry. -/
theorem getHelmsmanReleases_stale_lines :
    releasesWorld.exec (releasesCmd twoNamespacesDoc "staging") = (0, "No resources found.\n") ∧
    (getHelmsmanReleases releasesWorld twoNamespacesDoc).ending =
      Ending.done (some [("prod", some [("myapp", true)]), ("staging", some [("myapp", true)])]) ∧
    (getHelmsmanReleases releasesWorld twoNamespacesSwappedDoc).ending =
      Ending.done (some [("prod", some [("myapp", true)])]) :=
  ⟨by decide, rfl, rfl⟩

/-! ## Context bootstrap: the command steps -/

theorem logError_no_exec {α : Type} (w : World) (s : state) (msg : String) (c : command) :
    Event.exec c ∉ (logError w s msg : Act α).trace := by
  unfold logError
  split <;> simp

theorem downloadFile_no_exec (w : World) (h : Host) (s : state) (path outfile : String)
    (c : command) : Event.exec c ∉ (downloadFile w h s path outfile).trace := by
  intro hmem
  unfold downloadFile at hmem
  rcases Act.mem_trace_andThen _ _ _ hmem with hm | ⟨_, _, hm⟩
  · have hremote : ∀ reader, Event.exec c ∉ (remoteDownload h reader path outfile).trace := by
      intro reader
      unfold remoteDownload
      split
      · simp
      · split <;> simp
    have hcopy : Event.exec c ∉ (copyFile w h s path outfile).trace := by
      unfold copyFile
      split
      · simp
      · intro hm'
        rcases Act.mem_trace_andThen _ _ _ hm' with hm' | ⟨_, _, hm'⟩
        · simp at hm'
        · exact logError_no_exec w s _ c hm'
    split at hm
    · exact hremote _ hm
    · split at hm
      · exact hremote _ hm
      · split at hm
        · exact hremote _ hm
        · exact hcopy hm
  · simp [Act.ret] at hm

theorem downloadIfSet_no_exec (w : World) (h : Host) (s : state) (path outfile : String)
    (c : command) : Event.exec c ∉ (downloadIfSet w h s path outfile).trace := by
  unfold downloadIfSet
  split
  · exact downloadFile_no_exec w h s path outfile c
  · simp [Act.ret]

theorem contextDownloads_no_exec (w : World) (h : Host) (s : state) (c : command) :
    Event.exec c ∉ (contextDownloads w h s).trace := by
  intro hmem
  unfold contextDownloads at hmem
  rcases Act.mem_trace_andThen _ _ _ hmem with hm | ⟨_, _, hm⟩
  · exact downloadIfSet_no_exec _ _ _ _ _ c hm
  · rcases Act.mem_trace_andThen _ _ _ hm with hm | ⟨_, _, hm⟩
    · exact downloadIfSet_no_exec _ _ _ _ _ c hm
    · rcases Act.mem_trace_andThen _ _ _ hm with hm | ⟨_, _, hm⟩
      · exact downloadIfSet_no_exec _ _ _ _ _ c hm
      · rcases Act.mem_trace_andThen _ _ _ hm with hm | ⟨_, _, hm⟩
        · split at hm
          · exact downloadFile_no_exec _ _ _ _ _ c hm
          · simp [Act.ret] at hm
        · simp [Act.ret] at hm

theorem readFile_no_exec (w : World) (h : Host) (s : state) (path : String) (c : command) :
    Event.exec c ∉ (readFile w h s path).trace := by
  unfold readFile
  split
  · simp
  · intro hm
    rcases Act.mem_trace_andThen _ _ _ hm with hm | ⟨_, _, hm⟩
    · simp at hm
    · exact logError_no_exec w s _ c hm

/-- The credentials step runs no command, hands over arguments that begin with
`config set-credentials`, and keeps the context name. -/
theorem contextCredentials_spec (w : World) (h : Host) (s : state) (caKey caClient : String) :
    (∀ c, Event.exec c ∉ (contextCredentials w h s caKey caClient).trace) ∧
    (∀ cred, (contextCredentials w h s caKey caClient).ending = Ending.done cred →
      cred.1.take 2 = ["config", "set-credentials"] ∧
      cred.2.Settings.KubeContext = s.Settings.KubeContext) := by
  unfold contextCredentials
  split
  · constructor
    · intro c hm
      rcases Act.mem_trace_andThen _ _ _ hm with hm | ⟨_, _, hm⟩
      · exact readFile_no_exec w h s _ c hm
      · simp [Act.ret] at hm
    · intro cred hc
      obtain ⟨token, _, ht⟩ := Act.ending_andThen_eq_done _ _ _ hc
      simp only [Act.ret, Ending.done.injEq] at ht
      rw [← ht]
      constructor
      · rfl
      · simp only
        split <;> rfl
  · constructor
    · intro c hm
      simp [Act.ret] at hm
    · intro cred hc
      simp only [Act.ret, Ending.done.injEq] at hc
      rw [← hc]
      constructor
      · simp only
        split <;> rfl
      · rfl

theorem contextPrecheck_context (s : state) :
    (contextPrecheck s).2.Settings.KubeContext = s.Settings.KubeContext := by
  unfold contextPrecheck
  split
  · rfl
  · split
    · rfl
    · split
      · rfl
      · split
        · rfl
        · split <;> rfl

/-- The commands of `createContext`, written out. -/
theorem contextCommands_eq (w : World) (s : state) (args : List String) (caCrt : String) :
    contextCommands w s args caCrt =
      if (w.exec (setCredentialsCmd args)).1 ≠ 0 then
        { ending := Ending.done (false, "failed to create context [ " ++ s.Settings.KubeContext ++
            " ]:  " ++ (w.exec (setCredentialsCmd args)).2),
          trace := [Event.exec (setCredentialsCmd args)] }
      else if (w.exec (setClusterCmd s caCrt)).1 ≠ 0 then
        { ending := Ending.done (false, "failed to create context [ " ++ s.Settings.KubeContext ++
            " ]: " ++ (w.exec (setClusterCmd s caCrt)).2),
          trace := [Event.exec (setCredentialsCmd args), Event.exec (setClusterCmd s caCrt)] }
      else if (w.exec (setContextCmd s)).1 ≠ 0 then
        { ending := Ending.done (false, "failed to create context [ " ++ s.Settings.KubeContext ++
            " ]: " ++ (w.exec (setContextCmd s)).2),
          trace := [Event.exec (setCredentialsCmd args), Event.exec (setClusterCmd s caCrt),
            Event.exec (setContextCmd s)] }
      else if s.Settings.KubeContext = "" then
        { ending := Ending.done
            (if (w.exec currentContextCmd).1 ≠ 0 ∨ (w.exec currentContextCmd).2 = "" then
              (false, "something went wrong while setting the kube context to the newly created one.")
            else (true, "")),
          trace := [Event.exec (setCredentialsCmd args), Event.exec (setClusterCmd s caCrt),
            Event.exec (setContextCmd s), Event.exec currentContextCmd] }
      else
        { ending := Ending.done
            (if (w.exec (useContextCmd s.Settings.KubeContext)).1 ≠ 0 then
              (false, "something went wrong while setting the kube context to the newly created one.")
            else (true, "")),
          trace := [Event.exec (setCredentialsCmd args), Event.exec (setClusterCmd s caCrt),
            Event.exec (setContextCmd s), Event.exec (useContextCmd s.Settings.KubeContext)] } := by
  unfold contextCommands
  rw [Act.andThen_done _ _ _ rfl]
  split
  · rfl
  · rw [Act.andThen_done _ _ _ rfl]
    split
    · rfl
    · rw [Act.andThen_done _ _ _ rfl]
      split
      · rfl
      · unfold setKubeContext
        split
        · by_cases hq : (w.exec currentContextCmd).1 ≠ 0 ∨ (w.exec currentContextCmd).2 = ""
          · simp [execCmd, Act.andThen, Act.ret, hq]
          · simp [execCmd, Act.andThen, Act.ret, hq]
        · by_cases hq : (w.exec (useContextCmd s.Settings.KubeContext)).1 ≠ 0
          · simp [execCmd, Act.andThen, Act.ret, hq]
          · simp [execCmd, Act.andThen, Act.ret, hq]

/-- The commands of `createContext`: a step whose command exits non-zero ends the run with
that step's message, and no later step has run. -/
theorem contextCommands_step (w : World) (s : state) (args : List String) (caCrt : String)
    (hargs : args.take 2 = ["config", "set-credentials"]) (c : command)
    (hmem : Event.exec c ∈ (contextCommands w s args caCrt).trace)
    (hfail : (w.exec c).1 ≠ 0) :
    (stepIs c "set-credentials" →
      (contextCommands w s args caCrt).ending = Ending.done (false,
        "failed to create context [ " ++ s.Settings.KubeContext ++ " ]:  " ++ (w.exec c).2) ∧
      ∀ c', Event.exec c' ∈ (contextCommands w s args caCrt).trace →
        ¬ stepIs c' "set-cluster" ∧ ¬ stepIs c' "set-context" ∧ ¬ stepIs c' "use-context") ∧
    (stepIs c "set-cluster" →
      (contextCommands w s args caCrt).ending = Ending.done (false,
        "failed to create context [ " ++ s.Settings.KubeContext ++ " ]: " ++ (w.exec c).2) ∧
      ∀ c', Event.exec c' ∈ (contextCommands w s args caCrt).trace →
        ¬ stepIs c' "set-context" ∧ ¬ stepIs c' "use-context") ∧
    (stepIs c "set-context" →
      (contextCommands w s args caCrt).ending = Ending.done (false,
        "failed to create context [ " ++ s.Settings.KubeContext ++ " ]: " ++ (w.exec c).2) ∧
      ∀ c', Event.exec c' ∈ (contextCommands w s args caCrt).trace →
        ¬ stepIs c' "use-context") ∧
    (stepIs c "use-context" →
      (contextCommands w s args caCrt).ending = Ending.done (false,
        "something went wrong while setting the kube context to the newly created one.")) := by
  -- the four commands and what tells them apart
  have k1 : ∀ step, stepIs (setCredentialsCmd args) step ↔ step = "set-credentials" := by
    intro step
    simp only [stepIs, setCredentialsCmd, hargs, List.cons.injEq, true_and, and_true]
    exact eq_comm
  have k2 : ∀ step, stepIs (setClusterCmd s caCrt) step ↔ step = "set-cluster" := by
    intro step
    simp only [stepIs, setClusterCmd, List.take, List.cons.injEq, true_and, and_true]
    exact eq_comm
  have k3 : ∀ step, stepIs (setContextCmd s) step ↔ step = "set-context" := by
    intro step
    simp only [stepIs, setContextCmd, List.take, List.cons.injEq, true_and, and_true]
    exact eq_comm
  have k4 : ∀ step, stepIs (useContextCmd s.Settings.KubeContext) step ↔
      step = "use-context" := by
    intro step
    simp only [stepIs, useContextCmd, List.take, List.cons.injEq, true_and, and_true]
    exact eq_comm
  have k5 : ∀ step, stepIs currentContextCmd step ↔ step = "current-context" := by
    intro step
    simp only [stepIs, currentContextCmd, List.take, List.cons.injEq, true_and, and_true]
    exact eq_comm
  rw [contextCommands_eq] at hmem ⊢
  by_cases h1 : (w.exec (setCredentialsCmd args)).1 ≠ 0
  · rw [if_pos h1] at hmem ⊢
    simp only [List.mem_singleton, Event.exec.injEq] at hmem
    subst hmem
    simp [k1]
  · rw [if_neg h1] at hmem ⊢
    by_cases h2 : (w.exec (setClusterCmd s caCrt)).1 ≠ 0
    · rw [if_pos h2] at hmem ⊢
      simp only [List.mem_cons, List.mem_singleton, Event.exec.injEq, List.not_mem_nil,
        or_false] at hmem
      rcases hmem with rfl | rfl
      · exact absurd hfail h1
      · simp [k1, k2]
    · rw [if_neg h2] at hmem ⊢
      by_cases h3 : (w.exec (setContextCmd s)).1 ≠ 0
      · rw [if_pos h3] at hmem ⊢
        simp only [List.mem_cons, List.mem_singleton, Event.exec.injEq, List.not_mem_nil,
          or_false] at hmem
        rcases hmem with rfl | rfl | rfl
        · exact absurd hfail h1
        · exact absurd hfail h2
        · simp [k1, k2, k3]
      · rw [if_neg h3] at hmem ⊢
        by_cases hctx : s.Settings.KubeContext = ""
        · rw [if_pos hctx] at hmem ⊢
          simp only [List.mem_cons, List.mem_singleton, Event.exec.injEq, List.not_mem_nil,
            or_false] at hmem
          rcases hmem with rfl | rfl | rfl | rfl
          · exact absurd hfail h1
          · exact absurd hfail h2
          · exact absurd hfail h3
          · simp [k5]
        · rw [if_neg hctx] at hmem ⊢
          simp only [List.mem_cons, List.mem_singleton, Event.exec.injEq, List.not_mem_nil,
            or_false] at hmem
          rcases hmem with rfl | rfl | rfl | rfl
          · exact absurd hfail h1
          · exact absurd hfail h2
          · exact absurd hfail h3
          · simp [k1, k2, k3, k4, hfail]

/-- A run of `createContext` in which a command was executed: the opening chain passed, the
downloads and the credentials step returned, and the commands are those of the command
phase, whose result is the result of the run. -/
theorem createContext_run (w : World) (h : Host) (s : state) (c : command)
    (hmem : Event.exec c ∈ (createContext w h s).trace) :
    ∃ (args : List String) (s2 : state) (caCrt : String),
      args.take 2 = ["config", "set-credentials"] ∧
      s2.Settings.KubeContext = s.Settings.KubeContext ∧
      (∀ c', Event.exec c' ∈ (createContext w h s).trace →
        Event.exec c' ∈ (contextCommands w s2 args caCrt).trace) ∧
      (∀ res, (contextCommands w s2 args caCrt).ending = Ending.done res →
        (createContext w h s).ending = Ending.done (res, s2)) := by
  have hctx := contextPrecheck_context s
  unfold createContext at hmem ⊢
  rcases hc : contextPrecheck s with ⟨o, s1⟩
  rw [hc] at hmem hctx
  simp only at hctx
  cases o with
  | some msg => simp [Act.ret] at hmem
  | none =>
    simp only at hmem ⊢
    rcases Act.mem_trace_andThen _ _ _ hmem with hm | ⟨files, hfiles, hm⟩
    · exact absurd hm (contextDownloads_no_exec w h s1 c)
    · obtain ⟨hnoexec, hcred⟩ := contextCredentials_spec w h s1 files.2.1 files.2.2
      rcases Act.mem_trace_andThen _ _ _ hm with hm | ⟨cred, hcr, hm⟩
      · exact absurd hm (hnoexec c)
      · obtain ⟨hargs, hk⟩ := hcred cred hcr
        refine ⟨cred.1, cred.2, files.1, hargs, hk.trans hctx, ?_, ?_⟩
        · intro c' hm'
          rcases Act.mem_trace_andThen _ _ _ hm' with hm' | ⟨files', hfiles', hm'⟩
          · exact absurd hm' (contextDownloads_no_exec w h s1 c')
          · rw [hfiles] at hfiles'
            injection hfiles' with hf
            subst hf
            rcases Act.mem_trace_andThen _ _ _ hm' with hm' | ⟨cred', hcr', hm'⟩
            · exact absurd hm' (hnoexec c')
            · rw [hcr] at hcr'
              injection hcr' with hf
              subst hf
              rcases Act.mem_trace_andThen _ _ _ hm' with hm' | ⟨_, _, hm'⟩
              · exact hm'
              · simp [Act.ret] at hm'
        · intro res hres
          rw [Act.andThen_done _ _ _ hfiles]
          simp only
          rw [Act.andThen_done _ _ _ hcr]
          simp only
          rw [Act.andThen_done _ _ _ hres]
          rfl

/-- C18 (amended): in `createContext`, when the command of a step was run and exits
non-zero: for `set-credentials`, `set-cluster` and `set-context` the call returns `false`
with the message "failed to create context [ <context name> ]:" followed by the command's
output, and for `use-context` it returns `false` with the fixed message "something went wrong
while setting the kube context to the newly created one."; in each case no command of a
later step has been run. -/
theorem createContext_step_failure (w : World) (h : Host) (s : state) (c : command)
    (hmem : Event.exec c ∈ (createContext w h s).trace) (hfail : (w.exec c).1 ≠ 0) :
    (stepIs c "set-credentials" →
      (∃ st, (createContext w h s).ending = Ending.done ((false,
        "failed to create context [ " ++ s.Settings.KubeContext ++ " ]:  " ++ (w.exec c).2), st)) ∧
      ∀ c', Event.exec c' ∈ (createContext w h s).trace →
        ¬ stepIs c' "set-cluster" ∧ ¬ stepIs c' "set-context" ∧ ¬ stepIs c' "use-context") ∧
    (stepIs c "set-cluster" →
      (∃ st, (createContext w h s).ending = Ending.done ((false,
        "failed to create context [ " ++ s.Settings.KubeContext ++ " ]: " ++ (w.exec c).2), st)) ∧
      ∀ c', Event.exec c' ∈ (createContext w h s).trace →
        ¬ stepIs c' "set-context" ∧ ¬ stepIs c' "use-context") ∧
    (stepIs c "set-context" →
      (∃ st, (createContext w h s).ending = Ending.done ((false,
        "failed to create context [ " ++ s.Settings.KubeContext ++ " ]: " ++ (w.exec c).2), st)) ∧
      ∀ c', Event.exec c' ∈ (createContext w h s).trace → ¬ stepIs c' "use-context") ∧
    (stepIs c "use-context" →
      ∃ st, (createContext w h s).ending = Ending.done ((false,
        "something went wrong while setting the kube context to the newly created one."), st)) := by
  obtain ⟨args, s2, caCrt, hargs, hk, htrace, hend⟩ := createContext_run w h s c hmem
  obtain ⟨p1, p2, p3, p4⟩ := contextCommands_step w s2 args caCrt hargs c (htrace c hmem) hfail
  rw [hk] at p1 p2 p3
  refine ⟨fun hs => ?_, fun hs => ?_, fun hs => ?_, fun hs => ?_⟩
  · exact ⟨⟨s2, hend _ (p1 hs).1⟩, fun c' hc' => (p1 hs).2 c' (htrace c' hc')⟩
  · exact ⟨⟨s2, hend _ (p2 hs).1⟩, fun c' hc' => (p2 hs).2 c' (htrace c' hc')⟩
  · exact ⟨⟨s2, hend _ (p3 hs).1⟩, fun c' hc' => (p3 hs).2 c' (htrace c' hc')⟩
  · exact ⟨s2, hend _ (p4 hs)⟩

/-- Witness for C18 (amended): every command succeeds except `use-context`. -/
theorem createContext_step_failure_witness :
    ∃ st, (createContext useContextFailsWorld okHost passwordDoc).ending = Ending.done ((false,
      "something went wrong while setting the kube context to the newly created one."), st) :=
  (createContext_step_failure useContextFailsWorld okHost passwordDoc (useContextCmd "minikube")
    (by decide) (by decide)).2.2.2 (by decide)

/-- Counterexample to C18 as stated: the `use-context` command is run and exits non-zero;
the message `createContext` returns does not hold the context name `minikube`. -/
theorem createContext_step_failure_counterexample :
    passwordDoc.Settings.KubeContext = "minikube" ∧
    Event.exec (useContextCmd "minikube") ∈
      (createContext useContextFailsWorld okHost passwordDoc).trace ∧
    (useContextFailsWorld.exec (useContextCmd "minikube")).1 ≠ 0 ∧
    (createContext useContextFailsWorld okHost passwordDoc).ending = Ending.done ((false,
      "something went wrong while setting the kube context to the newly created one."),
      passwordDoc) ∧
    stringsContains
      "something went wrong while setting the kube context to the newly created one."
      "minikube" = false := by
  refine ⟨rfl, by decide, by decide, rfl, by decide⟩

/-! ## Release ownership: one namespace -/

theorem setEntry_keys_mem {α : Type} (k : String) (v : α) (l : List (String × α)) (x : String) :
    x ∈ (setEntry k v l).map Prod.fst ↔ x = k ∨ x ∈ l.map Prod.fst := by
  induction l with
  | nil => simp [setEntry]
  | cons e rest ih =>
    simp only [setEntry]
    split
    · rename_i he
      simp only [List.map_cons, List.mem_cons, he]
      tauto
    · simp only [List.map_cons, List.mem_cons, ih]
      tauto

theorem contains_set {α : Type} (m : GoMap α) (k : String) (v : α) (x : String) :
    (m.set k v).contains x = true ↔ x = k ∨ m.contains x = true := by
  rw [contains_iff_mem_keys, contains_iff_mem_keys]
  simp only [GoMap.set, GoMap.entries, Option.getD_some]
  exact setEntry_keys_mem k v _ x

theorem setEntry_find {α : Type} (k : String) (v : α) (l : List (String × α)) :
    (setEntry k v l).find? (fun e => e.1 = k) = some (k, v) := by
  induction l with
  | nil => simp [setEntry]
  | cons e rest ih =>
    simp only [setEntry]
    split
    · simp
    · rename_i he
      simp only [List.find?_cons, he, decide_False]
      exact ih

theorem lookup_set {α : Type} (m : GoMap α) (k : String) (v : α) :
    (m.set k v).lookup k = some v := by
  simp only [GoMap.lookup, GoMap.set, GoMap.entries, Option.getD_some, setEntry_find]

theorem setEntry_nodup {α : Type} (k : String) (v : α) (l : List (String × α))
    (h : (l.map Prod.fst).Nodup) : ((setEntry k v l).map Prod.fst).Nodup := by
  induction l with
  | nil => simp [setEntry]
  | cons e rest ih =>
    simp only [List.map_cons, List.nodup_cons] at h
    simp only [setEntry]
    split
    · rename_i he
      simp only [List.map_cons, List.nodup_cons]
      exact ⟨by rw [← he]; exact h.1, h.2⟩
    · rename_i he
      simp only [List.map_cons, List.nodup_cons]
      refine ⟨?_, ih h.2⟩
      intro hmem
      rcases (setEntry_keys_mem k v rest e.1).1 hmem with h' | h'
      · exact he h'
      · exact h.1 h'

theorem wellFormed_set {α : Type} (m : GoMap α) (k : String) (v : α) (h : m.WellFormed) :
    (m.set k v).WellFormed := by
  simp only [GoMap.WellFormed, GoMap.set, GoMap.entries, Option.getD_some]
  exact setEntry_nodup k v _ h

/-- The loop over the applications for a line whose leading field can be cut: it returns,
and adds to the owned set exactly the applications named like the cut field. -/
theorem markApps_spec (line name : String) (hrow : rowRelease line = some name)
    (apps : List (String × release)) (owned : GoMap Bool) :
    ∃ owned', markApps (stringsFields line) apps owned = some owned' ∧
      (∀ label, owned'.contains label = true ↔
        owned.contains label = true ∨ ∃ r, (label, r) ∈ apps ∧ r.Name = name) ∧
      (owned.WellFormed → owned'.WellFormed) := by
  unfold rowRelease at hrow
  cases hf : stringsFields line with
  | nil => simp [hf] at hrow
  | cons f0 fs =>
    rw [hf] at hrow
    simp only at hrow
    cases hi : lastIndexChars ".v".data f0.data with
    | none => simp [hi] at hrow
    | some i =>
      rw [hi] at hrow
      simp only [Option.some.injEq] at hrow
      induction apps generalizing owned with
      | nil => exact ⟨owned, rfl, by simp, fun h => h⟩
      | cons a rest ih =>
        obtain ⟨label, r⟩ := a
        simp only [markApps, hi]
        obtain ⟨owned', h1, h2, h3⟩ := ih
          (if r.Name = String.mk (f0.data.take i) then owned.set label true else owned)
        refine ⟨owned', h1, ?_, ?_⟩
        · intro l
          rw [h2 l]
          by_cases hn : r.Name = String.mk (f0.data.take i)
          · rw [if_pos hn, contains_set]
            constructor
            · rintro ((rfl | h) | ⟨r', hr', hn'⟩)
              · exact Or.inr ⟨r, List.mem_cons_self _ _, hn.trans hrow⟩
              · exact Or.inl h
              · exact Or.inr ⟨r', List.mem_cons_of_mem _ hr', hn'⟩
            · rintro (h | ⟨r', hr', hn'⟩)
              · exact Or.inl (Or.inr h)
              · rcases List.mem_cons.1 hr' with he | he
                · injection he with h1 h2
                  exact Or.inl (Or.inl h1)
                · exact Or.inr ⟨r', he, hn'⟩
          · rw [if_neg hn]
            constructor
            · rintro (h | ⟨r', hr', hn'⟩)
              · exact Or.inl h
              · exact Or.inr ⟨r', List.mem_cons_of_mem _ hr', hn'⟩
            · rintro (h | ⟨r', hr', hn'⟩)
              · exact Or.inl h
              · rcases List.mem_cons.1 hr' with he | he
                · injection he with h1 h2
                  exact absurd (by rw [← h2, hrow] at *; exact hn') hn
                · exact Or.inr ⟨r', he, hn'⟩
        · intro hwf
          apply h3
          split
          · exact wellFormed_set _ _ _ hwf
          · exact hwf

/-- The loop over the lines of one namespace, when every data row can be cut: it returns; the
result has no key but the namespace, and the owned set of the namespace grows by exactly the
applications named by a data row. -/
theorem releaseLines_spec (s : state) (ns : String) (lines : List String)
    (hrows : ∀ line ∈ lines, isDataRow line → rowRelease line ≠ none)
    (releases : GoMap (GoMap Bool))
    (hkeys : ∀ k, releases.contains k = true → k = ns)
    (hwf : ((releases.lookup ns).getD none).WellFormed) :
    ∃ releases', releaseLines s ns lines releases = some releases' ∧
      (∀ k, releases'.contains k = true → k = ns) ∧
      ((releases'.lookup ns).getD none).WellFormed ∧
      (∀ label, ((releases'.lookup ns).getD none).contains label = true ↔
        ((releases.lookup ns).getD none).contains label = true ∨
        ∃ line ∈ lines, isDataRow line ∧
          ∃ r, (label, r) ∈ s.Apps.entries ∧ rowRelease line = some r.Name) := by
  induction lines generalizing releases with
  | nil => exact ⟨releases, rfl, hkeys, hwf, by simp⟩
  | cons line rest ih =>
    have hrest : ∀ l ∈ rest, isDataRow l → rowRelease l ≠ none :=
      fun l hl => hrows l (List.mem_cons_of_mem _ hl)
    by_cases hskip : line = "" ∨ stringsHasSuffix (stringsTrimSpace line) "AGE" = true
    · -- a skipped line
      obtain ⟨releases', h1, h2, h3, h4⟩ := ih hrest releases hkeys hwf
      refine ⟨releases', by simp only [releaseLines, if_pos hskip]; exact h1, h2, h3, ?_⟩
      intro label
      rw [h4 label]
      constructor
      · rintro (h | ⟨l, hl, hd, hr⟩)
        · exact Or.inl h
        · exact Or.inr ⟨l, List.mem_cons_of_mem _ hl, hd, hr⟩
      · rintro (h | ⟨l, hl, hd, hr⟩)
        · exact Or.inl h
        · rcases List.mem_cons.1 hl with he | he
          · rw [he] at hd
            exact absurd hskip hd
          · exact Or.inr ⟨l, he, hd, hr⟩
    · -- a data row
      have hdata : isDataRow line := hskip
      obtain ⟨name, hname⟩ := Option.ne_none_iff_exists'.1
        (hrows line (List.mem_cons_self _ _) hdata)
      -- the map with the namespace's set in place
      obtain ⟨releases1, hr1, hk1, hw1, hc1⟩ : ∃ releases1 : GoMap (GoMap Bool),
          (if releases.contains ns = false then releases.set ns (some []) else releases)
            = releases1 ∧
          (∀ k, releases1.contains k = true → k = ns) ∧
          ((releases1.lookup ns).getD none).WellFormed ∧
          (∀ label, ((releases1.lookup ns).getD none).contains label =
            ((releases.lookup ns).getD none).contains label) := by
        by_cases hc : releases.contains ns = false
        · refine ⟨_, rfl, ?_, ?_, ?_⟩
          · intro k hk
            rw [if_pos hc, contains_set] at hk
            rcases hk with hk | hk
            · exact hk
            · exact hkeys k hk
          · rw [if_pos hc, lookup_set]
            simp [GoMap.WellFormed, GoMap.entries]
          · intro label
            rw [if_pos hc, lookup_set]
            have hnone : releases.lookup ns = none := by
              rw [Bool.eq_false_iff, ne_eq, contains_iff_mem_keys] at hc
              simp only [GoMap.lookup]
              cases hf : List.find? (fun e => decide (e.1 = ns)) releases.entries with
              | none => rfl
              | some e =>
                exfalso
                apply hc
                have hmem := List.mem_of_find?_eq_some hf
                have hp := List.find?_some hf
                simp only [decide_eq_true_eq] at hp
                rw [← hp]
                exact List.mem_map_of_mem Prod.fst hmem
            rw [hnone]
            simp [GoMap.contains, GoMap.entries]
        · exact ⟨_, rfl, by rw [if_neg hc]; exact hkeys, by rw [if_neg hc]; exact hwf,
            fun label => by rw [if_neg hc]⟩
      obtain ⟨owned, ho1, ho2, ho3⟩ := markApps_spec line name hname s.Apps.entries
        ((releases1.lookup ns).getD none)
      have hk2 : ∀ k, (releases1.set ns owned).contains k = true → k = ns := by
        intro k hk
        rw [contains_set] at hk
        rcases hk with hk | hk
        · exact hk
        · exact hk1 k hk
      have hw2 : (((releases1.set ns owned).lookup ns).getD none).WellFormed := by
        rw [lookup_set]
        exact ho3 hw1
      obtain ⟨releases', h1, h2, h3, h4⟩ := ih hrest (releases1.set ns owned) hk2 hw2
      refine ⟨releases', ?_, h2, h3, ?_⟩
      · simp only [releaseLines, if_neg hskip, hr1, ho1]
        exact h1
      · intro label
        rw [h4 label, lookup_set]
        simp only [Option.getD_some]
        rw [ho2 label, hc1 label]
        constructor
        · rintro ((h | ⟨r, hr, hn⟩) | ⟨l, hl, hd, hr⟩)
          · exact Or.inl h
          · exact Or.inr ⟨line, List.mem_cons_self _ _, hdata, r, hr, by rw [hname, hn]⟩
          · exact Or.inr ⟨l, List.mem_cons_of_mem _ hl, hd, hr⟩
        · rintro (h | ⟨l, hl, hd, r, hr, hn⟩)
          · exact Or.inl (Or.inl h)
          · rcases List.mem_cons.1 hl with he | he
            · rw [he, hname] at hn
              exact Or.inl (Or.inr ⟨r, hr, (Option.some.inj hn).symm⟩)
            · exact Or.inr ⟨l, he, hd, r, hr, hn⟩

theorem eq_of_mem_of_nodup_keys {α : Type} (l : List (String × α)) (k : String) (a b : α)
    (hnd : (l.map Prod.fst).Nodup) (ha : (k, a) ∈ l) (hb : (k, b) ∈ l) : a = b := by
  induction l with
  | nil => simp at ha
  | cons e rest ih =>
    simp only [List.map_cons, List.nodup_cons] at hnd
    rcases List.mem_cons.1 ha with ha | ha <;> rcases List.mem_cons.1 hb with hb | hb
    · rw [← hb] at ha
      exact (Prod.mk.inj ha).2
    · exfalso
      apply hnd.1
      have hk : e.1 = k := by rw [← ha]
      rw [hk]
      exact List.mem_map_of_mem Prod.fst hb
    · exfalso
      apply hnd.1
      have hk : e.1 = k := by rw [← hb]
      rw [hk]
      exact List.mem_map_of_mem Prod.fst ha
    · exact ih hnd.2 ha hb

/-- `getHelmsmanReleases` for a single namespace whose query succeeds, written out. -/
theorem getHelmsmanReleases_one (w : World) (s : state) (ns : String) (nsVal : namespace')
    (hns : s.Namespaces = some [(ns, nsVal)]) (hok : (w.exec (releasesCmd s ns)).1 = 0) :
    getHelmsmanReleases w s =
      match releaseLines s ns
          (if isSentinel (w.exec (releasesCmd s ns)).2 then []
           else stringsSplitLines (w.exec (releasesCmd s ns)).2) (some []) with
      | none => { ending := Ending.panic, trace := [Event.exec (releasesCmd s ns)] }
      | some m => { ending := Ending.done m, trace := [Event.exec (releasesCmd s ns)] } := by
  have hlines : (if stringsToUpper "No resources found." ≠
        stringsToUpper (stringsTrimSpace (w.exec (releasesCmd s ns)).2)
      then stringsSplitLines (w.exec (releasesCmd s ns)).2 else []) =
      (if isSentinel (w.exec (releasesCmd s ns)).2 then []
       else stringsSplitLines (w.exec (releasesCmd s ns)).2) := by
    unfold isSentinel
    split <;> simp_all
  simp only [getHelmsmanReleases, hns, GoMap.entries, Option.getD_some, List.map_cons,
    List.map_nil, releasesLoop, execCmd, Act.andThen, hok, ne_eq, not_true_eq_false, if_false,
    Act.ret, List.append_nil, hlines]
  split <;> simp_all

/-! ## Namespaces -/

theorem labelLoop_run (w : World) (verbose : Bool) (ns : String) (l : List (String × String)) :
    labelLoop w verbose ns l =
      { ending := Ending.done (),
        trace := l.map (fun kv => Event.exec (labelNamespaceCmd ns kv.1 kv.2)) } := by
  induction l with
  | nil => rfl
  | cons kv rest ih =>
    obtain ⟨k, v⟩ := kv
    simp only [labelLoop, ih, Act.andThen, execCmd, Act.ret, ite_self, List.map_cons,
      List.nil_append, List.singleton_append]

theorem annotateLoop_run (w : World) (verbose : Bool) (ns : String)
    (l : List (String × String)) :
    annotateLoop w verbose ns l =
      { ending := Ending.done (),
        trace := l.map (fun kv => Event.exec (annotateNamespaceCmd ns kv.1 kv.2)) } := by
  induction l with
  | nil => rfl
  | cons kv rest ih =>
    obtain ⟨k, v⟩ := kv
    simp only [annotateLoop, ih, Act.andThen, execCmd, Act.ret, ite_self, List.map_cons,
      List.nil_append, List.singleton_append]

/-- C21: `createNamespace`, `labelNamespace` and `annotateNamespace` return normally whatever
the command executor answers, and the commands they issue are fixed by the namespace name
and the map alone: one `kubectl create namespace <ns>`, one
`kubectl label --overwrite namespace/<ns> <k>=<v>` per label and one
`kubectl annotate --overwrite namespace/<ns> <k>=<v>` per annotation, in the order in which
the map is visited. A second call, in a world `w2` whose executor may answer differently (an
"already exists" failure) and with the same entries visited in any other order, returns
normally as well and issues the same commands, each as often as the first call. -/
theorem namespace_calls_return (w w2 : World) (verbose : Bool) (ns : String)
    (labels labels2 annotations annotations2 : GoMap String)
    (hl : labels2.entries.Perm labels.entries)
    (ha : annotations2.entries.Perm annotations.entries) :
    (createNamespace w verbose ns =
        { ending := Ending.done (),
          trace := [Event.exec { Cmd := "kubectl", Args := ["create", "namespace", ns],
                                 Description := "creating namespace  " ++ ns }] } ∧
      labelNamespace w verbose ns labels =
        { ending := Ending.done (),
          trace := labels.entries.map (fun kv => Event.exec
            { Cmd := "kubectl",
              Args := ["label", "--overwrite", "namespace/" ++ ns, kv.1 ++ "=" ++ kv.2],
              Description := "labeling namespace  " ++ ns }) } ∧
      annotateNamespace w verbose ns annotations =
        { ending := Ending.done (),
          trace := annotations.entries.map (fun kv => Event.exec
            { Cmd := "kubectl",
              Args := ["annotate", "--overwrite", "namespace/" ++ ns, kv.1 ++ "=" ++ kv.2],
              Description := "annotating namespace  " ++ ns }) }) ∧
    createNamespace w2 verbose ns = createNamespace w verbose ns ∧
    ((labelNamespace w2 verbose ns labels2).ending = Ending.done () ∧
      (labelNamespace w2 verbose ns labels2).trace.Perm
        (labelNamespace w verbose ns labels).trace ∧
      (labels2.entries = labels.entries →
        labelNamespace w2 verbose ns labels2 = labelNamespace w verbose ns labels)) ∧
    ((annotateNamespace w2 verbose ns annotations2).ending = Ending.done () ∧
      (annotateNamespace w2 verbose ns annotations2).trace.Perm
        (annotateNamespace w verbose ns annotations).trace ∧
      (annotations2.entries = annotations.entries →
        annotateNamespace w2 verbose ns annotations2 =
          annotateNamespace w verbose ns annotations)) := by
  have hc : ∀ w0 : World, createNamespace w0 verbose ns =
      { ending := Ending.done (), trace := [Event.exec (createNamespaceCmd ns)] } := by
    intro w0
    simp only [createNamespace, Act.andThen, execCmd, Act.ret, ite_self, List.append_nil]
  refine ⟨⟨hc w, labelLoop_run w verbose ns _, annotateLoop_run w verbose ns _⟩, ?_,
    ⟨?_, ?_, ?_⟩, ⟨?_, ?_, ?_⟩⟩
  · rw [hc w, hc w2]
  · simp only [labelNamespace, labelLoop_run]
  · simp only [labelNamespace, labelLoop_run]
    exact hl.map _
  · intro h
    simp only [labelNamespace, labelLoop_run, h]
  · simp only [annotateNamespace, annotateLoop_run]
  · simp only [annotateNamespace, annotateLoop_run]
    exact ha.map _
  · intro h
    simp only [annotateNamespace, annotateLoop_run, h]

/-- Witness for C21: the namespace `staging` with two labels; the second call meets an
executor that fails with "already exists" and visits the labels in the other order. -/
theorem namespace_calls_return_witness :
    createNamespace alreadyExistsWorld true "staging" =
      { ending := Ending.done (),
        trace := [Event.exec { Cmd := "kubectl", Args := ["create", "namespace", "staging"],
                               Description := "creating namespace  staging" }] } ∧
    labelNamespace allOkWorld true "staging" twoLabels =
      { ending := Ending.done (),
        trace := [
          Event.exec { Cmd := "kubectl",
                       Args := ["label", "--overwrite", "namespace/staging", "team=payments"],
                       Description := "labeling namespace  staging" },
          Event.exec { Cmd := "kubectl",
                       Args := ["label", "--overwrite", "namespace/staging", "env=prod"],
                       Description := "labeling namespace  staging" }] } ∧
    labelNamespace alreadyExistsWorld true "staging" twoLabelsSwapped =
      { ending := Ending.done (),
        trace := [
          Event.exec { Cmd := "kubectl",
                       Args := ["label", "--overwrite", "namespace/staging", "env=prod"],
                       Description := "labeling namespace  staging" },
          Event.exec { Cmd := "kubectl",
                       Args := ["label", "--overwrite", "namespace/staging", "team=payments"],
                       Description := "labeling namespace  staging" }] } ∧
    (labelNamespace alreadyExistsWorld true "staging" twoLabelsSwapped).trace.Perm
      (labelNamespace allOkWorld true "staging" twoLabels).trace ∧
    annotateNamespace alreadyExistsWorld false "staging" twoLabelsSwapped =
      { ending := Ending.done (),
        trace := [
          Event.exec { Cmd := "kubectl",
                       Args := ["annotate", "--overwrite", "namespace/staging", "env=prod"],
                       Description := "annotating namespace  staging" },
          Event.exec { Cmd := "kubectl",
                       Args := ["annotate", "--overwrite", "namespace/staging", "team=payments"],
                       Description := "annotating namespace  staging" }] } :=
  ⟨by decide, by decide, by decide,
    (namespace_calls_return allOkWorld alreadyExistsWorld true "staging" twoLabels
      twoLabelsSwapped none none (List.Perm.swap _ _ _) (List.Perm.refl _)).2.2.1.2.1,
    by decide⟩

/-! ## Bucket links -/

theorem isPrefixOf_slash_cons (c : Char) (l : List Char) (hc : c ≠ '/') :
    ['/'].isPrefixOf (c :: l) = false := by
  have h : ('/' == c) = false := beq_eq_false_iff_ne.mpr (Ne.symm hc)
  simp [List.isPrefixOf, h]

theorem afterFirst_scheme (s rest : List Char) (hs : containsChars ['/', '/'] s = false) :
    afterFirst ['/', '/'] (s ++ ':' :: '/' :: '/' :: rest) = some rest := by
  induction s with
  | nil => simp [afterFirst, List.isPrefixOf]
  | cons c t ih =>
    simp only [containsChars, Bool.or_eq_false_iff] at hs
    obtain ⟨hp, ht⟩ := hs
    have hpre : ['/', '/'].isPrefixOf (c :: (t ++ ':' :: '/' :: '/' :: rest)) = false := by
      cases t with
      | nil =>
        by_cases hc : c = '/'
        · subst hc
          simp [List.isPrefixOf]
        · have h : ('/' == c) = false := beq_eq_false_iff_ne.mpr (Ne.symm hc)
          simp [List.isPrefixOf, h]
      | cons d t2 =>
        have h2 : ['/', '/'].isPrefixOf (c :: (d :: t2 ++ ':' :: '/' :: '/' :: rest)) =
            ['/', '/'].isPrefixOf (c :: d :: t2) := by
          simp [List.isPrefixOf]
        rw [h2, hp]
    rw [List.cons_append, afterFirst, hpre]
    simpa using ih ht

theorem afterFirst_slash (b key : List Char) (hb : '/' ∉ b) :
    afterFirst ['/'] (b ++ '/' :: key) = some key := by
  induction b with
  | nil => simp [afterFirst, List.isPrefixOf]
  | cons c t ih =>
    have hc : c ≠ '/' := fun h => hb (by simp [h])
    have ht : '/' ∉ t := fun h => hb (List.mem_cons_of_mem _ h)
    rw [List.cons_append, afterFirst, isPrefixOf_slash_cons _ _ hc]
    simpa using ih ht

theorem beforeFirst_slash (b key : List Char) (hb : '/' ∉ b) :
    beforeFirst ['/'] (b ++ '/' :: key) = b := by
  induction b with
  | nil => simp [beforeFirst, List.isPrefixOf]
  | cons c t ih =>
    have hc : c ≠ '/' := fun h => hb (by simp [h])
    have ht : '/' ∉ t := fun h => hb (List.mem_cons_of_mem _ h)
    rw [List.cons_append, beforeFirst, isPrefixOf_slash_cons _ _ hc]
    simpa using ih ht

/-- C22: for a link `<scheme>://<bucket>/<key-path>` whose scheme holds no `//` and whose
bucket holds no `/`, `getBucketElements` returns the bucket as `bucketName` and the whole
remainder after the separator that follows the bucket as `filePath`. -/
theorem getBucketElements_link (scheme bucket key : String)
    (hs : stringsContains scheme "//" = false) (hb : '/' ∉ bucket.data) :
    getBucketElements (scheme ++ "://" ++ bucket ++ "/" ++ key) = some (bucket, key) := by
  have hdata : (scheme ++ "://" ++ bucket ++ "/" ++ key).data =
      scheme.data ++ ':' :: '/' :: '/' :: (bucket.data ++ '/' :: key.data) := by
    simp [String.data_append]
  have h1 : afterFirst "//".data (scheme ++ "://" ++ bucket ++ "/" ++ key).data =
      some (bucket.data ++ '/' :: key.data) := by
    rw [hdata]
    exact afterFirst_scheme _ _ hs
  have h2 : afterFirst "/".data (bucket.data ++ '/' :: key.data) = some key.data :=
    afterFirst_slash _ _ hb
  have h3 : beforeFirst "/".data (bucket.data ++ '/' :: key.data) = bucket.data :=
    beforeFirst_slash _ _ hb
  unfold getBucketElements
  rw [h1]
  simp only [h2, h3]

/-- Witness for C22: a link into the bucket `my-bucket` with a key of three elements. -/
theorem getBucketElements_link_witness :
    stringsContains "s3" "//" = false ∧ '/' ∉ "my-bucket".data ∧
    getBucketElements "s3://my-bucket/certs/prod/ca.crt" = some ("my-bucket", "certs/prod/ca.crt") :=
  ⟨by decide, by decide, getBucketElements_link "s3" "my-bucket" "certs/prod/ca.crt"
    (by decide) (by decide)⟩

/-! ## Downloads -/

/-- C23: evaluation. `downloadFile` tests the first two characters of the path, not the
scheme. The relative file `s3-certs/ca.crt` is not in the scheme `s3://`, yet it is not
copied: it is handed to the decomposition of bucket links, which panics, and nothing is
fetched or copied. The link `gsutil://bucket/ca.crt` is not in the scheme `gs://`, yet the
GCS reader is called for it. A path that begins with none of the three pairs of characters
is copied. -/
theorem downloadFile_two_characters :
    (stringsHasPrefix "s3-certs/ca.crt" "s3://" = false ∧
      downloadFile allOkWorld okHost contextOnlyDoc "s3-certs/ca.crt" "ca.crt" =
        { ending := Ending.panic, trace := [] }) ∧
    (stringsHasPrefix "gsutil://bucket/ca.crt" "gs://" = false ∧
      downloadFile allOkWorld okHost contextOnlyDoc "gsutil://bucket/ca.crt" "ca.crt" =
        { ending := Ending.done "ca.crt",
          trace := [Event.download "gs" "bucket" "ca.crt" "ca.crt"] }) ∧
    downloadFile allOkWorld okHost contextOnlyDoc "certs/ca.crt" "ca.crt" =
      { ending := Ending.done "ca.crt", trace := [Event.copyFile "certs/ca.crt" "ca.crt"] } := by
  refine ⟨⟨by decide, by decide⟩, ⟨by decide, by decide⟩, by decide⟩

theorem afterFirst_of_bucket_scheme (pre : List Char) (value : String)
    (hpre : containsChars ['/', '/'] pre = false)
    (h : (pre ++ [':', '/', '/']).isPrefixOf value.data = true) :
    ∃ tmp, afterFirst "//".data value.data = some tmp := by
  have heq := eq_append_of_isPrefixOf _ _ h
  refine ⟨value.data.drop (pre ++ [':', '/', '/']).length, ?_⟩
  have h2 : afterFirst ['/', '/']
      (pre ++ ':' :: '/' :: '/' :: value.data.drop (pre ++ [':', '/', '/']).length) =
      some (value.data.drop (pre ++ [':', '/', '/']).length) := afterFirst_scheme _ _ hpre
  have h3 : pre ++ ':' :: '/' :: '/' :: value.data.drop (pre ++ [':', '/', '/']).length =
      value.data := by
    conv_rhs => rw [heq]
    simp
  rw [h3] at h2
  exact h2

/-- C26: for every value that `isValidCert` accepts although it is no file on disk, the text
after `//` exists. It need not hold a `/`: in a world whose parser accepts `s3://bucket`,
this value is accepted by `isValidCert`, the document that names it as `caCrt` passes
`validate`, the decomposition of the link fails at the index of the key, and `createContext`
panics at its first download. -/
theorem isValidCert_bucket_key (w : World) (value : String)
    (hv : (isValidCert w value).1 = true) (hf : w.statOk value = false) :
    (∃ tmp, afterFirst "//".data value.data = some tmp) ∧
    (isValidCert bareWorld "s3://bucket" = (true, "s3://bucket") ∧
      bareWorld.statOk "s3://bucket" = false ∧
      afterFirst "//".data "s3://bucket".data = some "bucket".data ∧
      afterFirst "/".data "bucket".data = none ∧
      getBucketElements "s3://bucket" = none ∧
      (validate bareWorld bucketOnlyDoc).1 = Outcome.returned true "" ∧
      createContext bareWorld okHost bucketOnlyDoc = { ending := Ending.panic, trace := [] }) := by
  refine ⟨?_, by decide, by decide, by decide, by decide, by decide, by decide, by decide⟩
  unfold isValidCert at hv
  simp only [hf, Bool.not_false, Bool.true_and] at hv
  split at hv
  · simp at hv
  · rename_i hcond
    simp only [Bool.or_eq_true, Bool.not_eq_true', Bool.and_eq_true, not_or, not_and,
      Bool.not_eq_false] at hcond
    obtain ⟨_, hsch⟩ := hcond
    by_cases h1 : stringsHasPrefix value "s3://" = true
    · exact afterFirst_of_bucket_scheme ['s', '3'] value (by decide) h1
    · by_cases h2 : stringsHasPrefix value "gs://" = true
      · exact afterFirst_of_bucket_scheme ['g', 's'] value (by decide) h2
      · have h3 := hsch ⟨by simpa using h1, by simpa using h2⟩
        exact afterFirst_of_bucket_scheme ['a', 'z'] value (by decide) h3

/-- Witness for C26: an accepted bucket link; the text after `//` exists. -/
theorem isValidCert_bucket_key_witness :
    (isValidCert bareWorld "s3://bucket/ca.crt").1 = true ∧
    bareWorld.statOk "s3://bucket/ca.crt" = false ∧
    ∃ tmp, afterFirst "//".data "s3://bucket/ca.crt".data = some tmp :=
  ⟨by decide, by decide,
    (isValidCert_bucket_key bareWorld "s3://bucket/ca.crt" (by decide) (by decide)).1⟩

/-! ## Indentation -/

theorem splitLines_ne_nil (s : List Char) : splitLines s ≠ [] := by
  induction s with
  | nil => simp [splitLines]
  | cons c rest ih =>
    unfold splitLines
    split
    · simp
    · split
      · exact absurd (by assumption) ih
      · simp

theorem splitLines_cons_of_ne (c : Char) (rest l : List Char) (ls : List (List Char))
    (hc : c ≠ '\n') (h : splitLines rest = l :: ls) :
    splitLines (c :: rest) = (c :: l) :: ls := by
  rw [splitLines, if_neg hc, h]

theorem splitLines_newline (rest : List Char) :
    splitLines ('\n' :: rest) = [] :: splitLines rest := by
  rw [splitLines, if_pos rfl]

theorem joinLines_cons (l : List Char) (ls : List (List Char)) (h : ls ≠ []) :
    joinLines (l :: ls) = l ++ '\n' :: joinLines ls := by
  cases ls with
  | nil => exact absurd rfl h
  | cons m ms => rfl

theorem joinLines_append_head (a l : List Char) (ls : List (List Char)) :
    joinLines ((a ++ l) :: ls) = a ++ joinLines (l :: ls) := by
  cases ls with
  | nil => rfl
  | cons m ms => simp [joinLines]

/-- The loop of `Indent`, line by line: every line after the first is prefixed unless it is
empty; the first line is treated the same way when the loop starts at the beginning of a
line, and is left as it is otherwise. -/
theorem indentLoop_lines (pre : List Char) (s : List Char) (bol : Bool) :
    indentLoop pre bol s =
      joinLines (match splitLines s with
        | [] => []
        | l :: ls => (if bol = true then indentLine pre l else l) :: ls.map (indentLine pre)) := by
  induction s generalizing bol with
  | nil => cases bol <;> simp [indentLoop, splitLines, joinLines, indentLine]
  | cons c rest ih =>
    by_cases hc : c = '\n'
    · subst hc
      rw [splitLines_newline]
      have h1 := ih true
      obtain ⟨l, ls, hl⟩ := List.exists_cons_of_ne_nil (splitLines_ne_nil rest)
      rw [hl] at h1 ⊢
      simp only [if_true] at h1
      have hne : (l :: ls).map (indentLine pre) ≠ [] := by simp
      simp only [indentLoop, bne_self_eq_false, Bool.and_false, Bool.false_eq_true, if_false,
        List.nil_append, beq_self_eq_true, h1]
      have hnil : (if bol = true then indentLine pre [] else []) = ([] : List Char) := by
        cases bol <;> simp [indentLine]
      rw [hnil, joinLines_cons _ _ hne]
      simp
    · obtain ⟨l, ls, hl⟩ := List.exists_cons_of_ne_nil (splitLines_ne_nil rest)
      rw [splitLines_cons_of_ne c rest l ls hc hl]
      have h1 := ih false
      rw [hl] at h1
      simp only [Bool.false_eq_true, if_false] at h1
      have hb : (c == '\n') = false := beq_eq_false_iff_ne.mpr hc
      have hb2 : (c != '\n') = true := by simp [bne, hb]
      simp only [indentLoop, hb, hb2, Bool.and_true, h1]
      cases bol with
      | true =>
        simp only [if_true, indentLine, List.cons_ne_nil, if_false]
        rw [show pre ++ c :: l = (pre ++ [c]) ++ l by simp, joinLines_append_head]
        simp
      | false =>
        simp only [Bool.false_eq_true, if_false, List.nil_append]
        rw [show c :: l = [c] ++ l by simp, joinLines_append_head]
        simp

theorem indentLoop_true (pre s : List Char) :
    indentLoop pre true s = joinLines ((splitLines s).map (indentLine pre)) := by
  rw [indentLoop_lines]
  obtain ⟨l, ls, hl⟩ := List.exists_cons_of_ne_nil (splitLines_ne_nil s)
  rw [hl]
  simp

theorem splitLines_of_no_newline (l : List Char) (h : '\n' ∉ l) : splitLines l = [l] := by
  induction l with
  | nil => rfl
  | cons c t ih =>
    have hc : c ≠ '\n' := fun e => h (by simp [e])
    have ht : '\n' ∉ t := fun e => h (List.mem_cons_of_mem _ e)
    exact splitLines_cons_of_ne c t t [] hc (ih ht)

theorem splitLines_append_newline (l t : List Char) (h : '\n' ∉ l) :
    splitLines (l ++ '\n' :: t) = l :: splitLines t := by
  induction l with
  | nil => exact splitLines_newline t
  | cons c u ih =>
    have hc : c ≠ '\n' := fun e => h (by simp [e])
    have hu : '\n' ∉ u := fun e => h (List.mem_cons_of_mem _ e)
    exact splitLines_cons_of_ne c _ u _ hc (ih hu)

theorem splitLines_joinLines (ls : List (List Char)) (hne : ls ≠ [])
    (h : ∀ l ∈ ls, '\n' ∉ l) : splitLines (joinLines ls) = ls := by
  induction ls with
  | nil => exact absurd rfl hne
  | cons l rest ih =>
    cases rest with
    | nil => exact splitLines_of_no_newline l (h l (by simp))
    | cons m ms =>
      rw [joinLines_cons _ _ (by simp), splitLines_append_newline _ _ (h l (by simp)),
        ih (by simp) (fun x hx => h x (List.mem_cons_of_mem _ hx))]

theorem splitLines_no_newline (s : List Char) : ∀ l ∈ splitLines s, '\n' ∉ l := by
  induction s with
  | nil => simp [splitLines]
  | cons c rest ih =>
    by_cases hc : c = '\n'
    · subst hc
      rw [splitLines_newline]
      intro l hl
      rcases List.mem_cons.1 hl with h | h
      · subst h
        simp
      · exact ih l h
    · obtain ⟨l0, ls, hl⟩ := List.exists_cons_of_ne_nil (splitLines_ne_nil rest)
      rw [splitLines_cons_of_ne c rest l0 ls hc hl]
      rw [hl] at ih
      intro l hmem
      rcases List.mem_cons.1 hmem with h | h
      · subst h
        intro hin
        rcases List.mem_cons.1 hin with e | e
        · exact hc e.symm
        · exact ih l0 (by simp) e
      · exact ih l (List.mem_cons_of_mem _ h)

theorem indentLine_no_newline (pre l : List Char) (hp : '\n' ∉ pre) (hl : '\n' ∉ l) :
    '\n' ∉ indentLine pre l := by
  unfold indentLine
  split
  · simp
  · simp [hp, hl]

/-- The lines of an indented text, for a prefix without NL. -/
theorem splitLines_indentLoop (pre s : List Char) (hp : '\n' ∉ pre) :
    splitLines (indentLoop pre true s) = (splitLines s).map (indentLine pre) := by
  rw [indentLoop_true]
  apply splitLines_joinLines
  · simpa using splitLines_ne_nil s
  · intro l hl
    obtain ⟨l0, hl0, rfl⟩ := List.mem_map.1 hl
    exact indentLine_no_newline pre l0 hp (splitLines_no_newline s l0 hl0)

theorem indentLine_indentLine (p q l : List Char) :
    indentLine q (indentLine p l) = indentLine (q ++ p) l := by
  unfold indentLine
  by_cases h : l = []
  · simp [h]
  · simp [h]

theorem indentLine_eq_nil (p l : List Char) : indentLine p l = [] ↔ l = [] := by
  unfold indentLine
  by_cases h : l = []
  · simp [h]
  · simp [h]

/-- C24: for every text and prefix, `Indent` gives the text split at NL with the prefix
before each non-empty line, rejoined with NL. When the prefix holds no NL, the number of
lines is kept, a line of the result is empty exactly where the line of the text is, and
indenting by `p` and then by `q` is indenting by `q` followed by `p`. -/
theorem Indent_by_lines (s p : String) :
    Indent s p = indentByLines s p ∧
    ('\n' ∉ p.data →
      (stringsSplitLines (Indent s p)).length = (stringsSplitLines s).length ∧
      (∀ i : Nat, (stringsSplitLines (Indent s p))[i]? = some "" ↔
        (stringsSplitLines s)[i]? = some "") ∧
      ∀ q : String, Indent (Indent s p) q = Indent s (q ++ p)) := by
  refine ⟨by simp only [Indent, indentByLines, indentLoop_true], fun hp => ?_⟩
  have hlines : splitLines (Indent s p).data = (splitLines s.data).map (indentLine p.data) :=
    splitLines_indentLoop p.data s.data hp
  refine ⟨?_, ?_, ?_⟩
  · simp only [stringsSplitLines, hlines, List.length_map]
  · intro i
    simp only [stringsSplitLines, hlines, List.getElem?_map, List.map_map]
    cases h : (splitLines s.data)[i]? with
    | none => simp
    | some l =>
      simp only [Option.map_some', Function.comp_apply, Option.some.injEq]
      have e1 : String.mk (indentLine p.data l) = "" ↔ indentLine p.data l = [] := by
        constructor
        · intro e
          exact congrArg String.data e
        · intro e
          rw [e]
      have e2 : String.mk l = "" ↔ l = [] := by
        constructor
        · intro e
          exact congrArg String.data e
        · intro e
          rw [e]
      rw [e1, e2, indentLine_eq_nil]
  · intro q
    have h1 : (Indent (Indent s p) q).data =
        joinLines ((splitLines s.data).map (indentLine (q.data ++ p.data))) := by
      show indentLoop q.data true (Indent s p).data = _
      rw [indentLoop_true, hlines, List.map_map]
      congr 1
      apply List.map_congr_left
      intro l _
      exact indentLine_indentLine p.data q.data l
    have h2 : (Indent s (q ++ p)).data =
        joinLines ((splitLines s.data).map (indentLine (q.data ++ p.data))) := by
      show indentLoop (q ++ p).data true s.data = _
      rw [indentLoop_true, String.data_append]
    exact String.ext (h1.trans h2.symm)

/-- Witness for C24 (amended): a rule list with an empty line, indented by four blanks. -/
theorem Indent_by_lines_witness :
    '\n' ∉ "    ".data ∧
    Indent "- type: Pod\n\n  max:\n" "    " = "    - type: Pod\n\n      max:\n" ∧
    Indent "- type: Pod\n\n  max:\n" "    " = indentByLines "- type: Pod\n\n  max:\n" "    " ∧
    (stringsSplitLines (Indent "- type: Pod\n\n  max:\n" "    ")).length = 4 ∧
    Indent (Indent "- type: Pod\n\n  max:\n" "    ") "> " =
      Indent "- type: Pod\n\n  max:\n" ("> " ++ "    ") :=
  ⟨by decide, by decide,
    (Indent_by_lines "- type: Pod\n\n  max:\n" "    ").1, by decide,
    ((Indent_by_lines "- type: Pod\n\n  max:\n" "    ").2 (by decide)).2.2 "> "⟩

/-- Counterexample to C24 as stated: with the prefix NL the text `a`, empty line, `b` goes
from three lines to five, its second line is no longer the empty one, and indenting twice
differs from indenting once by the joined prefix. -/
theorem Indent_by_lines_counterexample :
    Indent "a\n\nb" "\n" = "\na\n\n\nb" ∧
    Indent "a\n\nb" "\n" = indentByLines "a\n\nb" "\n" ∧
    (stringsSplitLines "a\n\nb").length = 3 ∧
    (stringsSplitLines (Indent "a\n\nb" "\n")).length = 5 ∧
    (stringsSplitLines "a\n\nb")[1]? = some "" ∧
    (stringsSplitLines (Indent "a\n\nb" "\n"))[1]? = some "a" ∧
    Indent (Indent "a\n\nb" "\n") " " = "\n a\n\n\n b" ∧
    Indent "a\n\nb" (" " ++ "\n") = " \na\n\n \nb" := by
  refine ⟨by decide, by decide, by decide, by decide, by decide, by decide, by decide, by decide⟩

/-! ## Release ownership: rows that cannot be cut -/

theorem markApps_none (line : String) (hrow : rowRelease line = none)
    (apps : List (String × release)) (happs : apps ≠ []) (owned : GoMap Bool) :
    markApps (stringsFields line) apps owned = none := by
  obtain ⟨e, rest, rfl⟩ := List.exists_cons_of_ne_nil happs
  obtain ⟨label, r⟩ := e
  unfold rowRelease at hrow
  cases hf : stringsFields line with
  | nil => rfl
  | cons f0 fs =>
    rw [hf] at hrow
    simp only at hrow
    cases hi : lastIndexChars ".v".data f0.data with
    | none => simp only [markApps, hi]
    | some i => simp [hi] at hrow

/-- The loop over the lines panics as soon as the lines hold a data row without a leading
field that can be cut, when there is an application to compare with. -/
theorem releaseLines_none (s : state) (ns : String) (happs : s.Apps.entries ≠ [])
    (lines : List String)
    (hrow : ∃ line ∈ lines, isDataRow line ∧ rowRelease line = none)
    (releases : GoMap (GoMap Bool)) :
    releaseLines s ns lines releases = none := by
  induction lines generalizing releases with
  | nil =>
    obtain ⟨line, hmem, _⟩ := hrow
    simp at hmem
  | cons line rest ih =>
    unfold releaseLines
    by_cases hskip : line = "" ∨ stringsHasSuffix (stringsTrimSpace line) "AGE" = true
    · rw [if_pos hskip]
      apply ih
      obtain ⟨l, hmem, hdata, hnone⟩ := hrow
      rcases List.mem_cons.1 hmem with h | h
      · subst h
        exact absurd hskip hdata
      · exact ⟨l, h, hdata, hnone⟩
    · rw [if_neg hskip]
      cases hr : rowRelease line with
      | none =>
        simp only [markApps_none line hr _ happs]
      | some name =>
        obtain ⟨owned', hm, _⟩ := markApps_spec line name hr s.Apps.entries
          (((if releases.contains ns = false then releases.set ns (some []) else releases).lookup
            ns).getD none)
        simp only [hm]
        apply ih
        obtain ⟨l, hmem, hdata, hnone⟩ := hrow
        rcases List.mem_cons.1 hmem with h | h
        · subst h
          rw [hr] at hnone
          exact absurd hnone (by simp)
        · exact ⟨l, h, hdata, hnone⟩

/-- C25: the line parsing is not total. For a single declared namespace whose ownership query
ends with exit code 0 and an output other than the "No resources found." sentence, and at
least one declared application: when some line of the output that is not skipped has no
field at all, or a leading field without `.v`, `getHelmsmanReleases` panics after that one
query (index of the first field, or slice up to the last `.v`, out of range). -/
theorem getHelmsmanReleases_row_panics (w : World) (s : state) (ns : String)
    (nsVal : namespace')
    (hns : s.Namespaces = some [(ns, nsVal)]) (hok : (w.exec (releasesCmd s ns)).1 = 0)
    (hsent : ¬ isSentinel (w.exec (releasesCmd s ns)).2)
    (happs : s.Apps.entries ≠ [])
    (hrow : ∃ line ∈ stringsSplitLines (w.exec (releasesCmd s ns)).2,
      isDataRow line ∧ rowRelease line = none) :
    getHelmsmanReleases w s =
      { ending := Ending.panic, trace := [Event.exec (releasesCmd s ns)] } := by
  rw [getHelmsmanReleases_one w s ns nsVal hns hok, if_neg hsent,
    releaseLines_none s ns happs _ hrow]

/-- Witness for C25: the query answers a revision row followed by a line of blanks, which is
not skipped and has no field; and the query answers a row whose leading field `mysecret`
holds no `.v`. -/
theorem getHelmsmanReleases_row_panics_witness :
    ((blankLineWorld.exec (releasesCmd oneNamespaceDoc "prod")).1 = 0 ∧
      (∃ line ∈ stringsSplitLines (blankLineWorld.exec (releasesCmd oneNamespaceDoc "prod")).2,
        isDataRow line ∧ stringsFields line = []) ∧
      getHelmsmanReleases blankLineWorld oneNamespaceDoc =
        { ending := Ending.panic, trace := [Event.exec (releasesCmd oneNamespaceDoc "prod")] }) ∧
    ((foreignRowWorld.exec (releasesCmd oneNamespaceDoc "prod")).1 = 0 ∧
      (∃ line ∈ stringsSplitLines (foreignRowWorld.exec (releasesCmd oneNamespaceDoc "prod")).2,
        isDataRow line ∧ stringsFields line = ["mysecret", "1", "1d"] ∧
          lastIndexChars ".v".data "mysecret".data = none) ∧
      getHelmsmanReleases foreignRowWorld oneNamespaceDoc =
        { ending := Ending.panic, trace := [Event.exec (releasesCmd oneNamespaceDoc "prod")] }) :=
  ⟨⟨by decide, ⟨"   ", by decide, by decide, by decide⟩,
    getHelmsmanReleases_row_panics blankLineWorld oneNamespaceDoc "prod" {} rfl (by decide)
      (by decide) (by decide) ⟨"   ", by decide, by decide, by decide⟩⟩,
   ⟨by decide, ⟨"mysecret   1      1d", by decide, by decide, by decide, by decide⟩,
    getHelmsmanReleases_row_panics foreignRowWorld oneNamespaceDoc "prod" {} rfl (by decide)
      (by decide) (by decide) ⟨"mysecret   1      1d", by decide, by decide, by decide⟩⟩⟩

/-! ## Path resolution: values and secrets files -/

theorem splitSlash_ne_nil (s : List Char) : splitSlash s ≠ [] := by
  induction s with
  | nil => simp [splitSlash]
  | cons c rest ih =>
    unfold splitSlash
    split
    · simp
    · split
      · exact absurd (by assumption) ih
      · simp

theorem splitSlash_slash (rest : List Char) : splitSlash ('/' :: rest) = [] :: splitSlash rest := by
  rw [splitSlash, if_pos rfl]

theorem splitSlash_cons_of_ne (c : Char) (rest h : List Char) (t : List (List Char))
    (hc : c ≠ '/') (hs : splitSlash rest = h :: t) : splitSlash (c :: rest) = (c :: h) :: t := by
  rw [splitSlash, if_neg hc, hs]

theorem splitSlash_append (a b : List Char) :
    splitSlash (a ++ '/' :: b) = splitSlash a ++ splitSlash b := by
  induction a with
  | nil => simp [splitSlash_slash, splitSlash]
  | cons c a ih =>
    by_cases hc : c = '/'
    · subst hc
      rw [List.cons_append, splitSlash_slash, splitSlash_slash, ih]
      rfl
    · obtain ⟨h, t, ht⟩ := List.exists_cons_of_ne_nil (splitSlash_ne_nil a)
      rw [List.cons_append, splitSlash_cons_of_ne c a h t hc ht,
        splitSlash_cons_of_ne c (a ++ '/' :: b) h (t ++ splitSlash b) hc (by rw [ih, ht]; rfl)]
      rfl

theorem splitSlash_of_no_slash (e : List Char) (h : '/' ∉ e) : splitSlash e = [e] := by
  induction e with
  | nil => rfl
  | cons c t ih =>
    have hc : c ≠ '/' := fun e' => h (by simp [e'])
    have ht : '/' ∉ t := fun e' => h (List.mem_cons_of_mem _ e')
    exact splitSlash_cons_of_ne c t t [] hc (ih ht)

theorem joinSlash_cons (e : List Char) (es : List (List Char)) (h : es ≠ []) :
    joinSlash (e :: es) = e ++ '/' :: joinSlash es := by
  cases es with
  | nil => exact absurd rfl h
  | cons m ms => rfl

theorem splitSlash_joinSlash (es : List (List Char)) (hne : es ≠ [])
    (h : ∀ e ∈ es, '/' ∉ e) : splitSlash (joinSlash es) = es := by
  induction es with
  | nil => exact absurd rfl hne
  | cons e rest ih =>
    cases rest with
    | nil => exact splitSlash_of_no_slash e (h e (by simp))
    | cons m ms =>
      rw [joinSlash_cons _ _ (by simp), splitSlash_append,
        splitSlash_of_no_slash e (h e (by simp)),
        ih (by simp) (fun x hx => h x (List.mem_cons_of_mem _ hx))]
      rfl

theorem foldl_cleanStep (r : Bool) (xs : List (List Char)) (st : List (List Char))
    (h : ['.', '.'] ∉ xs) :
    xs.foldl (cleanStep r) st = (xs.filter keptElement).reverse ++ st := by
  induction xs generalizing st with
  | nil => rfl
  | cons e rest ih =>
    have he : e ≠ ['.', '.'] := fun e' => h (by simp [e'])
    have hr : ['.', '.'] ∉ rest := fun e' => h (List.mem_cons_of_mem _ e')
    rw [List.foldl_cons, ih _ hr]
    by_cases hd : e = [] ∨ e = ['.']
    · have hk : keptElement e = false := by
        unfold keptElement
        rcases hd with hd | hd <;> simp [hd]
      simp only [cleanStep, hd, if_true, List.filter_cons, hk, Bool.false_eq_true, if_false]
    · have hk : keptElement e = true := by
        unfold keptElement
        simp only [not_or] at hd
        simp [hd.1, hd.2]
      simp only [cleanStep, hd, he, if_false, List.filter_cons, hk, if_true,
        List.reverse_cons, List.append_assoc, List.singleton_append]

/-- `Clean` on a path without `..`: the kept elements, below the root when the path begins
with a separator. -/
theorem filepathClean_elements (p : List Char) (h : noParentElement p) :
    filepathClean (String.mk p) =
      if p.head? = some '/' then rootedPath (pathElements p)
      else relativePath (pathElements p) := by
  unfold filepathClean
  simp only [foldl_cleanStep _ _ _ h, List.append_nil, List.reverse_reverse]
  by_cases hr : p.head? = some '/'
  · simp [hr, rootedPath, pathElements]
  · simp [hr, relativePath, pathElements]

theorem pathElements_append (a b : List Char) :
    pathElements (a ++ '/' :: b) = pathElements a ++ pathElements b := by
  simp [pathElements, splitSlash_append]

theorem noParentElement_append (a b : List Char) (ha : noParentElement a)
    (hb : noParentElement b) : noParentElement (a ++ '/' :: b) := by
  unfold noParentElement at *
  rw [splitSlash_append]
  simp [ha, hb]

theorem keptElement_of_plain (e : List Char) (h : plainChars e) : keptElement e = true := by
  unfold keptElement
  simp [h.1, h.2.2.1]

theorem pathElements_joinSlash (es : List (List Char)) (h : ∀ e ∈ es, plainChars e) :
    pathElements (joinSlash es) = es := by
  unfold pathElements
  cases es with
  | nil => simp [joinSlash, splitSlash, keptElement]
  | cons e rest =>
    rw [splitSlash_joinSlash _ (by simp) (fun x hx => (h x hx).2.1)]
    exact List.filter_eq_self.2 (fun x hx => keptElement_of_plain x (h x hx))

theorem noParentElement_joinSlash (es : List (List Char)) (h : ∀ e ∈ es, plainChars e) :
    noParentElement (joinSlash es) := by
  unfold noParentElement
  cases es with
  | nil => simp [joinSlash, splitSlash]
  | cons e rest =>
    rw [splitSlash_joinSlash _ (by simp) (fun x hx => (h x hx).2.1)]
    intro hmem
    exact (h _ hmem).2.2.2 rfl

theorem pathElements_rooted (es : List (List Char)) (h : ∀ e ∈ es, plainChars e) :
    pathElements (rootedPath es).data = es := by
  show pathElements ([] ++ '/' :: joinSlash es) = es
  rw [pathElements_append, pathElements_joinSlash es h]
  simp [pathElements, splitSlash, keptElement]

theorem noParentElement_rooted (es : List (List Char)) (h : ∀ e ∈ es, plainChars e) :
    noParentElement (rootedPath es).data := by
  show noParentElement ([] ++ '/' :: joinSlash es)
  apply noParentElement_append _ _ _ (noParentElement_joinSlash es h)
  simp [noParentElement, splitSlash]

theorem pathElements_relative (es : List (List Char)) (h : ∀ e ∈ es, plainChars e) :
    pathElements (relativePath es).data = es := by
  unfold relativePath
  split
  · rename_i he
    subst he
    simp [pathElements, splitSlash, keptElement]
  · exact pathElements_joinSlash es h

theorem noParentElement_relative (es : List (List Char)) (h : ∀ e ∈ es, plainChars e) :
    noParentElement (relativePath es).data := by
  unfold relativePath
  split
  · simp [noParentElement, splitSlash]
  · exact noParentElement_joinSlash es h

theorem head_relative (es : List (List Char)) (h : ∀ e ∈ es, plainChars e) :
    ∃ c t, (relativePath es).data = c :: t ∧ c ≠ '/' := by
  unfold relativePath
  cases es with
  | nil => exact ⟨'.', [], rfl, by decide⟩
  | cons e rest =>
    have hp := h e (by simp)
    obtain ⟨c, t, hct⟩ := List.exists_cons_of_ne_nil hp.1
    have hc : c ≠ '/' := fun e' => hp.2.1 (by rw [hct, e']; simp)
    simp only [List.cons_ne_nil, reduceCtorEq, if_false]
    cases rest with
    | nil => exact ⟨c, t, by simp [joinSlash, hct], hc⟩
    | cons m ms =>
      refine ⟨c, t ++ '/' :: joinSlash (m :: ms), ?_, hc⟩
      rw [joinSlash_cons _ _ (by simp), hct]
      rfl

/-- `Join` of two paths without `..`, the first not empty. -/
theorem filepathJoin_elements (a b : String) (hne : a.data ≠ [])
    (ha : noParentElement a.data) (hb : noParentElement b.data) :
    filepathJoin a b =
      if a.data.head? = some '/' then rootedPath (pathElements a.data ++ pathElements b.data)
      else relativePath (pathElements a.data ++ pathElements b.data) := by
  have hane : a ≠ "" := fun e => hne (by rw [e])
  have hdata : a ++ "/" ++ b = String.mk (a.data ++ '/' :: b.data) := by
    apply String.ext
    simp [String.data_append]
  have hhead : (a.data ++ '/' :: b.data).head? = a.data.head? := by
    obtain ⟨c, t, hct⟩ := List.exists_cons_of_ne_nil hne
    rw [hct]
    rfl
  unfold filepathJoin
  rw [if_pos hane, hdata, filepathClean_elements _ (noParentElement_append _ _ ha hb),
    pathElements_append, hhead]

theorem filepathAbs_rooted (cwd : Option String) (es : List (List Char))
    (h : ∀ e ∈ es, plainChars e) : filepathAbs cwd (rootedPath es) = rootedPath es := by
  have habs : filepathIsAbs (rootedPath es) = true := by
    simp [filepathIsAbs, stringsHasPrefix, rootedPath, List.isPrefixOf]
  unfold filepathAbs
  rw [if_pos habs]
  have := filepathClean_elements (rootedPath es).data (noParentElement_rooted es h)
  rw [pathElements_rooted es h] at this
  simpa [rootedPath] using this

/-- An absolute reference joined to a directory whose absolute form has the elements `base`:
the elements of the directory followed by those of the reference, below the root. -/
theorem rerooted_rooted (cwd : Option String) (dir : String) (base fs : List (List Char))
    (hbase : absoluteElements cwd dir base) (hfs : ∀ e ∈ fs, plainChars e) :
    rerooted cwd dir (rootedPath fs) = rootedPath (base ++ fs) := by
  obtain ⟨hplain, hdir⟩ := hbase
  have hall : ∀ e ∈ base ++ fs, plainChars e := by
    intro e he
    rcases List.mem_append.1 he with h | h
    · exact hplain e h
    · exact hfs e h
  unfold rerooted
  rcases hdir with hdir | ⟨ws, ds, hcwd, hdir, hb⟩
  · subst hdir
    rw [filepathJoin_elements _ _ (by simp [rootedPath]) (noParentElement_rooted base hplain)
      (noParentElement_rooted fs hfs), pathElements_rooted base hplain,
      pathElements_rooted fs hfs, if_pos (by simp [rootedPath])]
    exact filepathAbs_rooted cwd _ hall
  · subst hb
    have hws : ∀ e ∈ ws, plainChars e := fun e he => hplain e (List.mem_append_left _ he)
    have hds : ∀ e ∈ ds, plainChars e := fun e he => hplain e (List.mem_append_right _ he)
    have hdsfs : ∀ e ∈ ds ++ fs, plainChars e := by
      intro e he
      rcases List.mem_append.1 he with h | h
      · exact hds e h
      · exact hfs e h
    obtain ⟨c, t, hct, hc⟩ := head_relative ds hds
    obtain ⟨c2, t2, hct2, hc2⟩ := head_relative (ds ++ fs) hdsfs
    subst hdir
    have hrel : ¬ (relativePath ds).data.head? = some '/' := by
      rw [hct]
      simpa using hc
    rw [filepathJoin_elements _ _ (by rw [hct]; simp) (noParentElement_relative ds hds)
      (noParentElement_rooted fs hfs), pathElements_relative ds hds,
      pathElements_rooted fs hfs, if_neg hrel]
    have hnabs : ¬ filepathIsAbs (relativePath (ds ++ fs)) = true := by
      have hh : ¬ ['/'].isPrefixOf (c2 :: t2) = true := by
        have h' : ('/' == c2) = false := beq_eq_false_iff_ne.mpr (Ne.symm hc2)
        simp [List.isPrefixOf, h']
      simpa [filepathIsAbs, stringsHasPrefix, hct2] using hh
    unfold filepathAbs
    rw [if_neg hnabs, hcwd]
    simp only
    rw [filepathJoin_elements _ _ (by simp [rootedPath]) (noParentElement_rooted ws hws)
      (noParentElement_relative _ hdsfs), pathElements_rooted ws hws,
      pathElements_relative _ hdsfs, if_pos (by simp [rootedPath]), List.append_assoc]

theorem rootedPath_injective (xs ys : List (List Char)) (hx : ∀ e ∈ xs, plainChars e)
    (hy : ∀ e ∈ ys, plainChars e) (h : rootedPath xs = rootedPath ys) : xs = ys := by
  rw [← pathElements_rooted xs hx, ← pathElements_rooted ys hy, h]

theorem resolveChart_of_abs (env : Env) (cwd : Option String) (dir : String) (s : state)
    (chart : String) (habs : filepathIsAbs chart = true) (hd : '$' ∉ chart.data) :
    resolveChart env cwd dir s chart = chart := by
  have hexp : osExpandEnv env chart = chart := by
    unfold osExpandEnv
    rw [expandChars_no_dollar _ _ _ hd]
  unfold resolveChart
  simp only [hexp, habs, Bool.not_true, Bool.false_eq_true, if_false]
  split
  · split <;> rfl
  · rfl

/-- C27 (amended): for every application entry, `resolvePaths` keeps the entry under its
label and replaces each non-empty values or secrets file reference, in the single and in the
list form, by the absolute form of the state file's directory joined with it, absolute or
not; a second application does the same to the result. An absolute chart reference without
`$` is kept both times. For an absolute reference made of plain elements, the result holds
the elements of the absolute form of the state file's directory followed by those of the
reference; so the reference is changed, and changed again by a second application, when
that directory is not the root. -/
theorem resolvePaths_file_references (w : World) (env : Env) (cwd : Option String)
    (file : String) (s : state) (k : String) (r : release) (hmem : (k, r) ∈ s.Apps.entries) :
    ((k, resolveRelease env cwd (filepathDir file) s r) ∈
        (resolvePaths w env cwd file s).Apps.entries ∧
      (k, resolveRelease env cwd (filepathDir file) (resolvePaths w env cwd file s)
          (resolveRelease env cwd (filepathDir file) s r)) ∈
        (resolvePaths w env cwd file (resolvePaths w env cwd file s)).Apps.entries) ∧
    (∀ (s0 : state) (r0 : release),
      (r0.ValuesFile ≠ "" →
        (resolveRelease env cwd (filepathDir file) s0 r0).ValuesFile =
          rerooted cwd (filepathDir file) r0.ValuesFile) ∧
      (r0.SecretsFile ≠ "" →
        (resolveRelease env cwd (filepathDir file) s0 r0).SecretsFile =
          rerooted cwd (filepathDir file) r0.SecretsFile) ∧
      (resolveRelease env cwd (filepathDir file) s0 r0).ValuesFiles =
        r0.ValuesFiles.map (rerooted cwd (filepathDir file)) ∧
      (resolveRelease env cwd (filepathDir file) s0 r0).SecretsFiles =
        r0.SecretsFiles.map (rerooted cwd (filepathDir file)) ∧
      (filepathIsAbs r0.Chart = true → '$' ∉ r0.Chart.data →
        (resolveRelease env cwd (filepathDir file) s0 r0).Chart = r0.Chart)) ∧
    (∀ base fs : List (List Char), absoluteElements cwd (filepathDir file) base →
      (∀ e ∈ fs, plainChars e) →
      rerooted cwd (filepathDir file) (rootedPath fs) = rootedPath (base ++ fs) ∧
      rerooted cwd (filepathDir file) (rerooted cwd (filepathDir file) (rootedPath fs)) =
        rootedPath (base ++ (base ++ fs)) ∧
      (base ≠ [] →
        rerooted cwd (filepathDir file) (rootedPath fs) ≠ rootedPath fs ∧
        rerooted cwd (filepathDir file) (rerooted cwd (filepathDir file) (rootedPath fs)) ≠
          rerooted cwd (filepathDir file) (rootedPath fs))) := by
  refine ⟨⟨?_, ?_⟩, ?_, ?_⟩
  · rw [resolvePaths_apps]
    exact List.mem_map.2 ⟨(k, r), hmem, rfl⟩
  · rw [resolvePaths_apps, resolvePaths_apps]
    exact List.mem_map.2 ⟨(k, resolveRelease env cwd (filepathDir file) s r),
      List.mem_map.2 ⟨(k, r), hmem, rfl⟩, rfl⟩
  · intro s0 r0
    refine ⟨?_, ?_, rfl, rfl, ?_⟩
    · intro h
      simp only [resolveRelease, rerooted, h, ne_eq, not_false_eq_true, if_true]
    · intro h
      simp only [resolveRelease, rerooted, h, ne_eq, not_false_eq_true, if_true]
    · intro habs hd
      exact resolveChart_of_abs env cwd _ s0 r0.Chart habs hd
  · intro base fs hbase hfs
    have hall : ∀ e ∈ base ++ fs, plainChars e := by
      intro e he
      rcases List.mem_append.1 he with h | h
      · exact hbase.1 e h
      · exact hfs e h
    have hall2 : ∀ e ∈ base ++ (base ++ fs), plainChars e := by
      intro e he
      rcases List.mem_append.1 he with h | h
      · exact hbase.1 e h
      · exact hall e h
    have h1 := rerooted_rooted cwd (filepathDir file) base fs hbase hfs
    have h2 := rerooted_rooted cwd (filepathDir file) base (base ++ fs) hbase hall
    refine ⟨h1, by rw [h1, h2], ?_⟩
    intro hne
    constructor
    · rw [h1]
      intro heq
      have := rootedPath_injective _ _ hall hfs heq
      exact hne (List.append_left_eq_self.1 this)
    · rw [h1, h2]
      intro heq
      have := rootedPath_injective _ _ hall2 hall heq
      exact hne (List.append_left_eq_self.1 this)

/-- Witness for C27 (amended): a state file in `/work`; the absolute values file is moved
below `/work`, and below `/work/work` by a second application; the absolute chart is kept. -/
theorem resolvePaths_file_references_witness :
    (resolvePaths bareWorld [] (some "/home/u") "/work/dsf.yaml" valuesDoc).Apps =
      some [("jenkins",
        { Name := "jenkins", Namespace := "staging", Chart := "/charts/jenkins",
          ValuesFile := "/work/etc/helm/values.yaml",
          SecretsFiles := ["/work/secrets/prod.yaml", "/work/etc/helm/secrets.yaml"] })] ∧
    ("jenkins", resolveRelease [] (some "/home/u") (filepathDir "/work/dsf.yaml") valuesDoc
        jenkinsRelease) ∈
      (resolvePaths bareWorld [] (some "/home/u") "/work/dsf.yaml" valuesDoc).Apps.entries ∧
    absoluteElements (some "/home/u") (filepathDir "/work/dsf.yaml") ["work".data] ∧
    rootedPath ["etc".data, "helm".data, "values.yaml".data] = jenkinsRelease.ValuesFile ∧
    rerooted (some "/home/u") (filepathDir "/work/dsf.yaml")
        (rootedPath ["etc".data, "helm".data, "values.yaml".data]) =
      rootedPath (["work".data] ++ ["etc".data, "helm".data, "values.yaml".data]) ∧
    rerooted (some "/home/u") (filepathDir "/work/dsf.yaml")
        (rerooted (some "/home/u") (filepathDir "/work/dsf.yaml")
          (rootedPath ["etc".data, "helm".data, "values.yaml".data])) ≠
      rerooted (some "/home/u") (filepathDir "/work/dsf.yaml")
        (rootedPath ["etc".data, "helm".data, "values.yaml".data]) :=
  ⟨by decide,
   (resolvePaths_file_references bareWorld [] (some "/home/u") "/work/dsf.yaml" valuesDoc
      "jenkins" jenkinsRelease (by decide)).1.1,
   ⟨by decide, Or.inl (by decide)⟩, by decide,
   ((resolvePaths_file_references bareWorld [] (some "/home/u") "/work/dsf.yaml" valuesDoc
      "jenkins" jenkinsRelease (by decide)).2.2
      ["work".data] ["etc".data, "helm".data, "values.yaml".data]
      ⟨by decide, Or.inl (by decide)⟩ (by decide)).1,
   (((resolvePaths_file_references bareWorld [] (some "/home/u") "/work/dsf.yaml" valuesDoc
      "jenkins" jenkinsRelease (by decide)).2.2
      ["work".data] ["etc".data, "helm".data, "values.yaml".data]
      ⟨by decide, Or.inl (by decide)⟩ (by decide)).2.2 (by decide)).2⟩

/-- Counterexample to C27 as stated: with the state file in the root directory, the absolute
references are kept as they are, by the first application and by the second; the same
happens for a state file named without a directory when the working directory is the
root. -/
theorem resolvePaths_file_references_counterexample :
    filepathDir "/dsf.yaml" = "/" ∧
    (resolvePaths bareWorld [] (some "/home/u") "/dsf.yaml" absoluteValuesDoc).Apps =
      absoluteValuesDoc.Apps ∧
    (resolvePaths bareWorld [] (some "/home/u") "/dsf.yaml"
      (resolvePaths bareWorld [] (some "/home/u") "/dsf.yaml" absoluteValuesDoc)).Apps =
      absoluteValuesDoc.Apps ∧
    filepathDir "dsf.yaml" = "." ∧
    (resolvePaths bareWorld [] (some "/") "dsf.yaml" absoluteValuesDoc).Apps =
      absoluteValuesDoc.Apps ∧
    (resolvePaths bareWorld [] (some "/") "dsf.yaml"
      (resolvePaths bareWorld [] (some "/") "dsf.yaml" absoluteValuesDoc)).Apps =
      absoluteValuesDoc.Apps := by
  refine ⟨by decide, by decide, by decide, by decide, by decide, by decide⟩

/-! ## Release ownership: the rows that name an application -/

theorem lastIndexChars_eq_none (sub l : List Char) :
    lastIndexChars sub l = none ↔ containsChars sub l = false := by
  induction l with
  | nil =>
    cases sub with
    | nil => simp [lastIndexChars, containsChars]
    | cons a t => simp [lastIndexChars, containsChars]
  | cons c rest ih =>
    simp only [lastIndexChars, containsChars, Bool.or_eq_false_iff]
    cases h : lastIndexChars sub rest with
    | some i =>
      have hne : containsChars sub rest ≠ false := fun e => by
        rw [ih.2 e] at h
        exact Option.noConfusion h
      simp [hne]
    | none =>
      have hc := ih.1 h
      by_cases hp : sub.isPrefixOf (c :: rest) = true
      · simp [hp]
      · simp [hp, hc]

/-- The last occurrence of `.v`: where the text is a name, then `.v`, then a text without
`.v`, the index is the length of the name. -/
theorem lastIndexChars_revision (name rest : List Char)
    (hrest : containsChars ['.', 'v'] rest = false) :
    lastIndexChars ['.', 'v'] (name ++ '.' :: 'v' :: rest) = some name.length := by
  induction name with
  | nil =>
    have h1 : lastIndexChars ['.', 'v'] rest = none := (lastIndexChars_eq_none _ _).2 hrest
    simp [lastIndexChars, h1, List.isPrefixOf]
  | cons c t ih =>
    simp only [List.cons_append, lastIndexChars, List.length_cons]
    rw [show t.append ('.' :: 'v' :: rest) = t ++ '.' :: 'v' :: rest from rfl, ih]

/-- The index that `LastIndex` reports for `.v` cuts the text into a name, `.v`, and a text
without `.v`. -/
theorem lastIndexChars_cut (l : List Char) (i : Nat)
    (h : lastIndexChars ['.', 'v'] l = some i) :
    ∃ rest, l = l.take i ++ '.' :: 'v' :: rest ∧ containsChars ['.', 'v'] rest = false := by
  induction l generalizing i with
  | nil => simp [lastIndexChars] at h
  | cons c t ih =>
    simp only [lastIndexChars] at h
    cases ht : lastIndexChars ['.', 'v'] t with
    | some j =>
      rw [ht] at h
      simp only [Option.some.injEq] at h
      subst h
      obtain ⟨rest, h1, h2⟩ := ih j ht
      refine ⟨rest, ?_, h2⟩
      rw [List.take_succ_cons, List.cons_append, ← h1]
    | none =>
      rw [ht] at h
      simp only at h
      split at h
      · rename_i hp
        simp only [Option.some.injEq] at h
        subst h
        have hc := (lastIndexChars_eq_none _ _).1 ht
        have heq := eq_append_of_isPrefixOf _ _ hp
        simp only [List.length_cons, List.length_nil, List.cons_append, List.nil_append] at heq
        refine ⟨(c :: t).drop 2, by simpa using heq, ?_⟩
        cases t with
        | nil => simp [containsChars]
        | cons d t2 =>
          simp only [List.drop_succ_cons, List.drop_zero]
          simp only [containsChars, Bool.or_eq_false_iff] at hc
          exact hc.2
      · exact Option.noConfusion h

theorem rowRelease_eq_some_iff (line name : String) :
    rowRelease line = some name ↔ rowNames line name := by
  unfold rowRelease rowNames
  constructor
  · intro h
    cases hf : stringsFields line with
    | nil => simp [hf] at h
    | cons f0 fs =>
      rw [hf] at h
      simp only at h
      cases hi : lastIndexChars ".v".data f0.data with
      | none => simp [hi] at h
      | some i =>
        rw [hi] at h
        simp only [Option.some.injEq] at h
        obtain ⟨rest, h1, h2⟩ := lastIndexChars_cut f0.data i hi
        refine ⟨f0, fs, rest, rfl, ?_, h2⟩
        rw [← h]
        exact h1
  · rintro ⟨f0, fs, rest, hf, hdata, hrest⟩
    rw [hf]
    simp only
    have hi : lastIndexChars ".v".data f0.data = some name.data.length := by
      rw [hdata]
      exact lastIndexChars_revision name.data rest hrest
    rw [hi]
    simp only [Option.some.injEq]
    apply String.ext
    rw [hdata]
    simp

theorem rowRelease_ne_none_iff (line : String) :
    rowRelease line ≠ none ↔ rowHasRevision line := by
  unfold rowRelease rowHasRevision
  cases hf : stringsFields line with
  | nil => simp
  | cons f0 fs =>
    cases hi : lastIndexChars ".v".data f0.data with
    | none =>
      have hc := (lastIndexChars_eq_none _ _).1 hi
      simp only [hi]
      constructor
      · intro h
        exact absurd rfl h
      · rintro ⟨g0, gs, hg, hcon⟩
        have hfg : f0 = g0 := (List.cons.inj hg).1
        rw [← hfg, stringsContains, hc] at hcon
        exact Bool.noConfusion hcon
    | some i =>
      simp only [hi]
      constructor
      · intro _
        refine ⟨f0, fs, rfl, ?_⟩
        unfold stringsContains
        by_contra hcon
        have hcon2 : containsChars ".v".data f0.data = false := by simpa using hcon
        rw [(lastIndexChars_eq_none _ _).2 hcon2] at hi
        exact Option.noConfusion hi
      · intro _ h
        exact Option.noConfusion h

/-- C14: for a single declared namespace `ns` whose ownership query succeeds, and declared
applications with pairwise distinct labels. When the output is the "No resources found."
sentence nothing is recorded. Otherwise, when every data row of the output (not empty, not
ending in `AGE`) has a leading field that holds `.v`, `getHelmsmanReleases` returns after
that one query, and an application `r` is in the owned set of `ns` if and only if some data
row has as its leading field `r.Name`, then `.v`, then a text without `.v`; the owned set
holds each application once and no other namespace key appears. When some data row has no
leading field with `.v` and an application is declared, the call panics and records
nothing, whatever the other rows name. -/
theorem getHelmsmanReleases_single (w : World) (s : state) (ns : String) (nsVal : namespace')
    (hns : s.Namespaces = some [(ns, nsVal)]) (hok : (w.exec (releasesCmd s ns)).1 = 0)
    (happs : s.Apps.WellFormed) :
    (isSentinel (w.exec (releasesCmd s ns)).2 →
      getHelmsmanReleases w s =
        { ending := Ending.done (some []), trace := [Event.exec (releasesCmd s ns)] }) ∧
    (¬ isSentinel (w.exec (releasesCmd s ns)).2 →
      (∀ line ∈ stringsSplitLines (w.exec (releasesCmd s ns)).2,
        isDataRow line → rowHasRevision line) →
      ∃ m : GoMap (GoMap Bool),
        getHelmsmanReleases w s =
          { ending := Ending.done m, trace := [Event.exec (releasesCmd s ns)] } ∧
        (∀ k, m.contains k = true → k = ns) ∧
        ((m.lookup ns).getD none).WellFormed ∧
        ∀ label r, (label, r) ∈ s.Apps.entries →
          (((m.lookup ns).getD none).contains label = true ↔
            ∃ line ∈ stringsSplitLines (w.exec (releasesCmd s ns)).2,
              isDataRow line ∧ rowNames line r.Name)) ∧
    (¬ isSentinel (w.exec (releasesCmd s ns)).2 → s.Apps.entries ≠ [] →
      (∃ line ∈ stringsSplitLines (w.exec (releasesCmd s ns)).2,
        isDataRow line ∧ ¬ rowHasRevision line) →
      getHelmsmanReleases w s =
        { ending := Ending.panic, trace := [Event.exec (releasesCmd s ns)] }) := by
  have hrun := getHelmsmanReleases_one w s ns nsVal hns hok
  refine ⟨?_, ?_, ?_⟩
  · intro hsent
    rw [hrun, if_pos hsent]
    rfl
  · intro hsent hrows
    rw [if_neg hsent] at hrun
    obtain ⟨m, h1, h2, h3, h4⟩ := releaseLines_spec s ns _
      (fun line hl hd => (rowRelease_ne_none_iff line).2 (hrows line hl hd)) (some [])
      (by intro k hk; simp [GoMap.contains, GoMap.entries] at hk)
      (by simp [GoMap.lookup, GoMap.entries, GoMap.WellFormed])
    rw [h1] at hrun
    refine ⟨m, hrun, h2, h3, ?_⟩
    intro label r hr
    rw [h4 label]
    constructor
    · rintro (h | ⟨line, hl, hd, r', hr', hn⟩)
      · simp [GoMap.lookup, GoMap.entries, GoMap.contains] at h
      · -- labels are distinct, so `r'` is `r`
        have heq : r' = r := eq_of_mem_of_nodup_keys _ label r' r happs hr' hr
        rw [heq] at hn
        exact ⟨line, hl, hd, (rowRelease_eq_some_iff line r.Name).1 hn⟩
    · rintro ⟨line, hl, hd, hn⟩
      exact Or.inr ⟨line, hl, hd, r, hr, (rowRelease_eq_some_iff line r.Name).2 hn⟩
  · intro hsent hne ⟨line, hl, hd, hrev⟩
    have hnone : rowRelease line = none := by
      by_contra hcon
      exact hrev ((rowRelease_ne_none_iff line).1 hcon)
    rw [hrun, if_neg hsent, releaseLines_none s ns hne _ ⟨line, hl, hd, hnone⟩]

/-- Witness for C14: the rows `web.v2.v1`, `myapp.v1` and `myapp.v2` with the applications
`web`, `web.v2` and `myapp` declared: the row `web.v2.v1` names `web.v2` (cut at the last
`.v`), not `web`; `myapp` is recorded once. With the rows `myapp.v1` and `mysecret` the call
panics, although the first row names the declared application `myapp`. -/
theorem getHelmsmanReleases_single_witness :
    getHelmsmanReleases nestedRevisionWorld nestedNamesDoc =
      { ending := Ending.done (some [("prod", some [("web2", true), ("myapp", true)])]),
        trace := [Event.exec (releasesCmd nestedNamesDoc "prod")] } ∧
    rowNames "web.v2.v1   1      3d" "web.v2" ∧
    (∃ m : GoMap (GoMap Bool),
      getHelmsmanReleases nestedRevisionWorld nestedNamesDoc =
        { ending := Ending.done m, trace := [Event.exec (releasesCmd nestedNamesDoc "prod")] } ∧
      (∀ k, m.contains k = true → k = "prod") ∧
      ((m.lookup "prod").getD none).WellFormed ∧
      ∀ label r, (label, r) ∈ nestedNamesDoc.Apps.entries →
        (((m.lookup "prod").getD none).contains label = true ↔
          ∃ line ∈ stringsSplitLines
              (nestedRevisionWorld.exec (releasesCmd nestedNamesDoc "prod")).2,
            isDataRow line ∧ rowNames line r.Name)) ∧
    (∃ line ∈ stringsSplitLines (foreignRowWorld.exec (releasesCmd oneNamespaceDoc "prod")).2,
      isDataRow line ∧ rowNames line "myapp") ∧
    getHelmsmanReleases foreignRowWorld oneNamespaceDoc =
      { ending := Ending.panic, trace := [Event.exec (releasesCmd oneNamespaceDoc "prod")] } :=
  ⟨rfl,
   ⟨"web.v2.v1", ["1", "3d"], ['1'], by decide, by decide, by decide⟩,
   (getHelmsmanReleases_single nestedRevisionWorld nestedNamesDoc "prod" {} rfl (by decide)
      (by unfold GoMap.WellFormed; decide)).2.1 (by decide)
      (fun line hl hd => (rowRelease_ne_none_iff line).1
        ((by decide : ∀ line ∈ stringsSplitLines
            (nestedRevisionWorld.exec (releasesCmd nestedNamesDoc "prod")).2,
          isDataRow line → rowRelease line ≠ none) line hl hd)),
   ⟨"myapp.v1   1      2d", by decide, by decide,
     ⟨"myapp.v1", ["1", "2d"], ['1'], by decide, by decide, by decide⟩⟩,
   (getHelmsmanReleases_single foreignRowWorld oneNamespaceDoc "prod" {} rfl (by decide)
      (by unfold GoMap.WellFormed; decide)).2.2 (by decide) (by decide)
      ⟨"mysecret   1      1d", by decide, by decide,
        fun h => (rowRelease_ne_none_iff "mysecret   1      1d").2 h (by decide)⟩⟩

/-! ## Path resolution: what becomes of a location -/

theorem containsChars_self_append (sub a b : List Char) :
    containsChars sub (a ++ (sub ++ b)) = true := by
  apply containsChars_append_left
  cases hs : sub ++ b with
  | nil =>
    have : sub = [] := (List.append_eq_nil.1 hs).1
    simp [containsChars, this]
  | cons c t =>
    have hp : sub.isPrefixOf (c :: t) = true := by
      rw [← hs]
      exact List.isPrefixOf_iff_prefix.2 (List.prefix_append _ _)
    simp [containsChars, hp]

theorem mem_of_containsChars (c : Char) (sub l : List Char) (hc : c ∈ sub)
    (h : containsChars sub l = true) : c ∈ l := by
  induction l with
  | nil =>
    cases sub with
    | nil => simp at hc
    | cons a t => simp [containsChars] at h
  | cons d rest ih =>
    simp only [containsChars, Bool.or_eq_true] at h
    rcases h with h | h
    · obtain ⟨t, ht⟩ := List.isPrefixOf_iff_prefix.1 h
      rw [← ht]
      exact List.mem_append_left _ hc
    · exact List.mem_cons_of_mem _ (ih h)

theorem mem_joinSlash (c : Char) (es : List (List Char)) (h : c ∈ joinSlash es) :
    c = '/' ∨ ∃ e ∈ es, c ∈ e := by
  induction es with
  | nil => simp [joinSlash] at h
  | cons e rest ih =>
    cases rest with
    | nil =>
      exact Or.inr ⟨e, by simp, by simpa [joinSlash] using h⟩
    | cons m ms =>
      rw [joinSlash_cons _ _ (by simp)] at h
      rcases List.mem_append.1 h with h | h
      · exact Or.inr ⟨e, by simp, h⟩
      · rcases List.mem_cons.1 h with h | h
        · exact Or.inl h
        · rcases ih h with h | ⟨e', he', hc⟩
          · exact Or.inl h
          · exact Or.inr ⟨e', List.mem_cons_of_mem _ he', hc⟩

theorem colon_not_mem_of_urlSafe (e : List Char) (h : urlSafe e) : ':' ∉ e := by
  intro hc
  rcases h ':' hc with h | h | h | h
  · exact absurd h (by decide)
  · exact absurd h (by decide)
  · exact absurd h (by decide)
  · exact absurd h (by decide)

/-- The parser of `netUrlWorld` answers as package `net/url` does on the three kinds of
text. -/
theorem netUrlWorld_parses : parsesAsNetUrl netUrlWorld := by
  refine ⟨?_, ?_, ?_⟩
  · intro fs _
    simp [netUrlWorld, stringsHasPrefix, rootedPath, List.isPrefixOf]
  · intro scheme host fs _ _ _ _
    have h : stringsContains (scheme ++ "://" ++ String.mk host ++ rootedPath fs) "://" = true := by
      unfold stringsContains
      have hd : (scheme ++ "://" ++ String.mk host ++ rootedPath fs).data =
          scheme.data ++ ("://".data ++ (host ++ (rootedPath fs).data)) := by
        simp [String.data_append]
      rw [hd]
      exact containsChars_self_append _ _ _
    simp [netUrlWorld, h]
  · intro fs hfs
    obtain ⟨c, t, hct, hc⟩ := head_relative fs (fun e he => (hfs e he).1)
    have h1 : stringsHasPrefix (relativePath fs) "/" = false := by
      have h' : ('/' == c) = false := beq_eq_false_iff_ne.mpr (Ne.symm hc)
      simp [stringsHasPrefix, hct, List.isPrefixOf, h']
    have h2 : stringsContains (relativePath fs) "://" = false := by
      rw [Bool.eq_false_iff]
      intro hcon
      have hmem : ':' ∈ (relativePath fs).data :=
        mem_of_containsChars ':' _ _ (by decide) hcon
      unfold relativePath at hmem
      split at hmem
      · exact absurd hmem (by decide)
      · rcases mem_joinSlash ':' fs hmem with h | ⟨e, he, hce⟩
        · exact absurd h (by decide)
        · exact colon_not_mem_of_urlSafe e (hfs e he).2 hce
    simp [netUrlWorld, h1, h2]

/-- A relative reference joined to a directory whose absolute form has the elements `base`:
the elements of the directory followed by those of the reference, below the root. -/
theorem rerooted_relative (cwd : Option String) (dir : String) (base fs : List (List Char))
    (hbase : absoluteElements cwd dir base) (hfs : ∀ e ∈ fs, plainChars e) :
    rerooted cwd dir (relativePath fs) = rootedPath (base ++ fs) := by
  obtain ⟨hplain, hdir⟩ := hbase
  have hall : ∀ e ∈ base ++ fs, plainChars e := by
    intro e he
    rcases List.mem_append.1 he with h | h
    · exact hplain e h
    · exact hfs e h
  unfold rerooted
  rcases hdir with hdir | ⟨ws, ds, hcwd, hdir, hb⟩
  · subst hdir
    rw [filepathJoin_elements _ _ (by simp [rootedPath]) (noParentElement_rooted base hplain)
      (noParentElement_relative fs hfs), pathElements_rooted base hplain,
      pathElements_relative fs hfs, if_pos (by simp [rootedPath])]
    exact filepathAbs_rooted cwd _ hall
  · subst hb
    have hws : ∀ e ∈ ws, plainChars e := fun e he => hplain e (List.mem_append_left _ he)
    have hds : ∀ e ∈ ds, plainChars e := fun e he => hplain e (List.mem_append_right _ he)
    have hdsfs : ∀ e ∈ ds ++ fs, plainChars e := by
      intro e he
      rcases List.mem_append.1 he with h | h
      · exact hds e h
      · exact hfs e h
    obtain ⟨c, t, hct, hc⟩ := head_relative ds hds
    obtain ⟨c2, t2, hct2, hc2⟩ := head_relative (ds ++ fs) hdsfs
    subst hdir
    have hrel : ¬ (relativePath ds).data.head? = some '/' := by
      rw [hct]
      simpa using hc
    rw [filepathJoin_elements _ _ (by rw [hct]; simp) (noParentElement_relative ds hds)
      (noParentElement_relative fs hfs), pathElements_relative ds hds,
      pathElements_relative fs hfs, if_neg hrel]
    have hnabs : ¬ filepathIsAbs (relativePath (ds ++ fs)) = true := by
      have hh : ¬ ['/'].isPrefixOf (c2 :: t2) = true := by
        have h' : ('/' == c2) = false := beq_eq_false_iff_ne.mpr (Ne.symm hc2)
        simp [List.isPrefixOf, h']
      simpa [filepathIsAbs, stringsHasPrefix, hct2] using hh
    unfold filepathAbs
    rw [if_neg hnabs, hcwd]
    simp only
    rw [filepathJoin_elements _ _ (by simp [rootedPath]) (noParentElement_rooted ws hws)
      (noParentElement_relative _ hdsfs), pathElements_rooted ws hws,
      pathElements_relative _ hdsfs, if_pos (by simp [rootedPath]), List.append_assoc]

theorem lookup_map_of_mem (f : String → String) (l : List (String × String)) (k v : String)
    (hnd : (l.map Prod.fst).Nodup) (hmem : (k, v) ∈ l) :
    GoMap.lookup (some (l.map (fun e => (e.1, f e.2)))) k = some (f v) := by
  induction l with
  | nil => simp at hmem
  | cons e rest ih =>
    simp only [List.map_cons, List.nodup_cons] at hnd
    rcases List.mem_cons.1 hmem with h | h
    · subst h
      simp [GoMap.lookup, GoMap.entries]
    · have hne : e.1 ≠ k := by
        intro hek
        apply hnd.1
        rw [hek]
        exact List.mem_map_of_mem Prod.fst h
      have := ih hnd.2 h
      simp only [GoMap.lookup, GoMap.entries, Option.getD_some, List.map_cons, List.find?_cons,
        hne, decide_False] at this ⊢
      exact this

/-- C17: `resolvePaths` keeps exactly the keys of the certificate map (and an empty
bearer-token path). A non-empty bearer-token path and every certificate value `v` is left
unchanged when it parses as a request URI, and is otherwise replaced by the absolute form
of the state file's directory joined with it. With a parser that answers as package
`net/url` does, an absolute filesystem path and a bucket link in the schemes `s3://`,
`gs://` and `az://` are left unchanged, and a relative path of plain elements becomes the
path that holds the elements of the absolute form of the state file's directory followed
by its own, below the root. The keys of the certificate map are pairwise distinct, as the
keys of a map are. -/
theorem resolvePaths_locations (w : World) (env : Env) (cwd : Option String) (file : String)
    (s : state) (hw : parsesAsNetUrl w) (hwf : s.Certificates.WellFormed) :
    (resolvePaths w env cwd file s).Certificates.entries.map Prod.fst =
      s.Certificates.entries.map Prod.fst ∧
    (resolvePaths w env cwd file s).Certificates.isNil = s.Certificates.isNil ∧
    (s.Settings.BearerTokenPath = "" →
      (resolvePaths w env cwd file s).Settings.BearerTokenPath = "") ∧
    ∀ v v1 : String,
      ((v ≠ "" ∧ s.Settings.BearerTokenPath = v ∧
          (resolvePaths w env cwd file s).Settings.BearerTokenPath = v1) ∨
        ∃ k, (k, v) ∈ s.Certificates.entries ∧
          (resolvePaths w env cwd file s).Certificates.lookup k = some v1) →
      (w.parseRequestURI v = true → v1 = v) ∧
      (w.parseRequestURI v = false →
        v1 = filepathAbs cwd (filepathJoin (filepathDir file) v)) ∧
      (∀ fs : List (List Char), (∀ e ∈ fs, urlSafe e) → v = rootedPath fs → v1 = v) ∧
      (∀ (scheme : String) (host : List Char) (fs : List (List Char)),
        scheme ∈ ["s3", "gs", "az"] → host ≠ [] → urlSafe host → (∀ e ∈ fs, urlSafe e) →
        v = scheme ++ "://" ++ String.mk host ++ rootedPath fs → v1 = v) ∧
      (∀ base fs : List (List Char), absoluteElements cwd (filepathDir file) base →
        (∀ e ∈ fs, plainChars e ∧ urlSafe e) → v = relativePath fs →
        v1 = rootedPath (base ++ fs)) := by
  obtain ⟨hb1, hb2, hkeys, hnil, hmap⟩ := resolvePaths_locations_eq w env cwd file s
  refine ⟨hkeys, hnil, hb2, ?_⟩
  intro v v1 hloc
  have hv1 : v1 = resolvedLocation w cwd (filepathDir file) v := by
    rcases hloc with ⟨hne, hv, hres⟩ | ⟨k, hmem, hlook⟩
    · rw [← hres, hb1 (by rw [hv]; exact hne), hv]
    · cases hC : s.Certificates with
      | none => simp [GoMap.entries, hC] at hmem
      | some l =>
        have hnd : (l.map Prod.fst).Nodup := by
          simpa [GoMap.WellFormed, GoMap.entries, hC] using hwf
        have hml : (k, v) ∈ l := by simpa [GoMap.entries, hC] using hmem
        rw [hmap hwf, hC] at hlook
        have := lookup_map_of_mem (resolvedLocation w cwd (filepathDir file)) l k v hnd hml
        simp only [Option.map_some'] at hlook
        rw [this] at hlook
        exact (Option.some.inj hlook).symm
  have hkeep : w.parseRequestURI v = true → v1 = v := by
    intro h
    rw [hv1, resolvedLocation, if_pos h]
  have hmove : w.parseRequestURI v = false →
      v1 = filepathAbs cwd (filepathJoin (filepathDir file) v) := by
    intro h
    rw [hv1, resolvedLocation, if_neg (by simp [h])]
  refine ⟨hkeep, hmove, ?_, ?_, ?_⟩
  · intro fs hfs hv
    exact hkeep (by rw [hv]; exact hw.1 fs hfs)
  · intro scheme host fs hs hh hhs hfs hv
    exact hkeep (by rw [hv]; exact hw.2.1 scheme host fs hs hh hhs hfs)
  · intro base fs hbase hfs hv
    rw [hmove (by rw [hv]; exact hw.2.2 fs hfs), hv]
    exact rerooted_relative cwd _ base fs hbase (fun e he => (hfs e he).1)

/-- Witness for C17: the state file `conf/dsf.yaml` named from the working directory
`/home/u`; the bucket link and the absolute file are kept, the relative key file and the
relative token path are moved below `/home/u/conf`. -/
theorem resolvePaths_locations_witness :
    (resolvePaths netUrlWorld [] (some "/home/u") "conf/dsf.yaml" locationsDoc).Certificates =
      some [("caCrt", "s3://bucket/ca.crt"), ("caKey", "/home/u/conf/keys/ca.key"),
            ("caClient", "/etc/ssl/client.crt")] ∧
    (resolvePaths netUrlWorld [] (some "/home/u") "conf/dsf.yaml"
      locationsDoc).Settings.BearerTokenPath = "/home/u/conf/secrets/token" ∧
    "/home/u/conf/keys/ca.key" =
      rootedPath (["home".data, "u".data, "conf".data] ++ ["keys".data, "ca.key".data]) ∧
    "/etc/ssl/client.crt" = "/etc/ssl/client.crt" ∧
    "s3://bucket/ca.crt" = "s3://bucket/ca.crt" :=
  ⟨by decide, by decide,
   ((resolvePaths_locations netUrlWorld [] (some "/home/u") "conf/dsf.yaml" locationsDoc
      netUrlWorld_parses (by unfold GoMap.WellFormed; decide)).2.2.2
      "keys/ca.key" "/home/u/conf/keys/ca.key" (Or.inr ⟨"caKey", by decide, by decide⟩)).2.2.2.2
      ["home".data, "u".data, "conf".data] ["keys".data, "ca.key".data]
      ⟨by decide, Or.inr ⟨["home".data, "u".data], ["conf".data], by decide, by decide, rfl⟩⟩
      (by decide) (by decide),
   ((resolvePaths_locations netUrlWorld [] (some "/home/u") "conf/dsf.yaml" locationsDoc
      netUrlWorld_parses (by unfold GoMap.WellFormed; decide)).2.2.2
      "/etc/ssl/client.crt" "/etc/ssl/client.crt"
      (Or.inr ⟨"caClient", by decide, by decide⟩)).2.2.1
      ["etc".data, "ssl".data, "client.crt".data] (by decide) (by decide),
   ((resolvePaths_locations netUrlWorld [] (some "/home/u") "conf/dsf.yaml" locationsDoc
      netUrlWorld_parses (by unfold GoMap.WellFormed; decide)).2.2.2
      "s3://bucket/ca.crt" "s3://bucket/ca.crt"
      (Or.inr ⟨"caCrt", by decide, by decide⟩)).2.2.2.1
      "s3" "bucket".data ["ca.crt".data] (by decide) (by decide) (by decide) (by decide)
      (by decide)⟩

end Helmsman
